import Mathlib

/-!
# Web crawler service: the crawl engine of `server/server.go`

A shallow embedding of the crawl engine and the properties its specification
states about it.

* Go strings are `String`; the concrete URL model works on their character
  lists.
* The packages `net/url`, `net/http`, `x/net/html` and `temoto/robotstxt` are
  not part of the repository.  The functions of `server.go` are embedded over
  a record `URLLib` of the `net/url` operations they call and a record `World`
  of the network and of the robots parser.  `netURL` is a model of `net/url` on
  every URL string; `goURL` is a model of its fragment without percent-escapes,
  userinfo and IP-literal hosts, on which the property of `net/url` that domain
  scoping rests on is proved.
* The goroutines of `crawl` are a pool of pending closures.  A schedule picks
  which one runs next.  The calls of `crawl` share only `visited`, which each
  of them reads and writes once, under the mutex, so a call is one step.  The
  `append` to `Links` is unsynchronised and comes after the `wg.Done()` of the
  child call: in `Racy` a goroutine takes three steps, its child call, the read
  of `Links` and the write of `Links`.  In `run` the three follow one another
  at once; the properties that hold of every node and every edge that is ever
  made are stated for `run`.
* The package-level `visited` map is part of the state and outlives a request.
* The semaphore `sem` is modelled apart, on the network phases of the calls
  (`Admission`).
-/

namespace WebCrawler

set_option autoImplicit false

/-! ## Data model -/

/-- Go's `url.URL`. `User` holds the username and the optional password. -/
structure URL where
  Scheme : String := ""
  Opaque : String := ""
  User : Option (String × Option String) := none
  Host : String := ""
  Path : String := ""
  RawPath : String := ""
  OmitHost : Bool := false
  ForceQuery : Bool := false
  RawQuery : String := ""
  Fragment : String := ""
  RawFragment : String := ""
deriving DecidableEq

/-- The operations of `net/url` that `server.go` calls. `Parse` returns `none`
where Go returns a non-nil error; `Str` is the method `String`. -/
structure URLLib where
  Parse : String → Option URL
  Str : URL → String
  IsAbs : URL → Bool
  Hostname : URL → String
  ResolveReference : URL → URL → URL

/-- The token types of `golang.org/x/net/html`. -/
inductive TokenType where
  | ErrorToken
  | TextToken
  | StartTagToken
  | EndTagToken
  | SelfClosingTagToken
  | CommentToken
  | DoctypeToken
deriving DecidableEq

/-- An attribute of `html.Token`. -/
structure Attribute where
  Key : String
  Val : String
deriving DecidableEq

/-- The fields of `html.Token` that `crawl` reads; `Typ` is the field `Type`. -/
structure Token where
  Typ : TokenType
  Data : String
  Attr : List Attribute
deriving DecidableEq

/-- An `http.Response`: the status code and the body. For a page the body is
the token stream the tokenizer yields from it, for robots.txt its text. -/
structure Response (β : Type) where
  StatusCode : Int
  Body : β

/-- The `robotstxt.RobotsData` of a parsed robots.txt: `TestAgent path agent`. -/
structure RobotsData where
  TestAgent : String → String → Bool

/-- The network and the robots parser. `none` is a non-nil error.
`Do` is `client.Do` on a GET request for the URL, `Get` is `http.Get`. -/
structure World where
  Do : String → Option (Response (List Token))
  Get : String → Option (Response String)
  FromResponse : Response String → Option RobotsData

/-- The constant `http.StatusOK`. -/
def StatusOK : Int := 200

/-- The struct `Sitemap`; `Links` holds pointers (heap indices). -/
structure Sitemap where
  URL : String
  Links : List Nat
deriving DecidableEq

/-! ## URL helpers of `server.go` -/

/-- Go's `strings.TrimRight(s, "/")`. -/
def trimRightSlash (s : String) : String :=
  String.mk (s.data.rdropWhile (fun c => c == '/'))

/-- The function `normalizeURL`. -/
def normalizeURL (lib : URLLib) (rawURL : String) : String :=
  match lib.Parse rawURL with
  | none => rawURL
  | some u => trimRightSlash (lib.Str { u with Fragment := "", RawQuery := "" })

/-- The function `resolveURL`. -/
def resolveURL (lib : URLLib) (baseURL href : String) : String :=
  match lib.Parse href with
  | none => ""
  | some u =>
    if lib.IsAbs u then href
    else
      match lib.Parse baseURL with
      | none => ""
      | some base => lib.Str (lib.ResolveReference base u)

/-- The function `isSameDomain`. -/
def isSameDomain (lib : URLLib) (baseURL checkURL : String) : Bool :=
  match lib.Parse baseURL with
  | none => false
  | some base =>
    match lib.Parse checkURL with
    | none => false
    | some check => lib.Hostname base == lib.Hostname check

/-- The function `getDomain`. -/
def getDomain (lib : URLLib) (rawURL : String) : String :=
  match lib.Parse rawURL with
  | none => rawURL
  | some u => u.Scheme ++ "://" ++ u.Host

/-- The function `isAllowedByRobots`. -/
def isAllowedByRobots (w : World) (domain path : String) : Bool :=
  let robotsURL := domain ++ "/robots.txt"
  match w.Get robotsURL with
  | none => true
  | some resp =>
    if resp.StatusCode ≠ StatusOK then true
    else
      match w.FromResponse resp with
      | none => true
      | some robotsData => robotsData.TestAgent path "Mozilla/5.0"

/-! ## The crawl engine -/

/-- The href values the tokenizer loop of `crawl` reaches, in document order:
every `href` attribute of a start or self-closing tag named `a`, up to the
first error token (the end of the body is one). -/
def hrefs : List Token → List String
  | [] => []
  | token :: rest =>
    match token.Typ with
    | TokenType.ErrorToken => []
    | TokenType.StartTagToken | TokenType.SelfClosingTagToken =>
      (if token.Data = "a" then
        (token.Attr.filter (fun attr => attr.Key = "href")).map (fun attr => attr.Val)
      else []) ++ hrefs rest
    | _ => hrefs rest

/-- The links for which the loop of `crawl` spawns a goroutine: the resolved
hrefs that are non-empty and on the page's domain. -/
def spawnLinks (lib : URLLib) (normalizedURL : String) (body : List Token) : List String :=
  ((hrefs body).map (resolveURL lib normalizedURL)).filter
    (fun absoluteLink => absoluteLink != "" && isSameDomain lib normalizedURL absoluteLink)

/-- A goroutine that `crawl` has spawned and that has not run yet: the closure
`go func(link string) { child := crawl(link, 2, depth+1, wg); ... }(absoluteLink)`
with the variables it captures. -/
structure Goroutine where
  link : String
  depth : Int
  sitemap : Nat
deriving DecidableEq

/-- The state of the server process: the package-level `visited` map, the heap
of `Sitemap` structs, the goroutines not yet run, and the log of the requests
`crawl` has sent with `client.Do`. -/
structure State where
  visited : List String := []
  heap : List Sitemap := []
  goroutines : List Goroutine := []
  requests : List String := []

/-- The statement `sitemap.Links = append(sitemap.Links, child)` on the struct at
`sitemap`. -/
def appendLink : List Sitemap → Nat → Nat → List Sitemap
  | [], _, _ => []
  | c :: cs, 0, child => { c with Links := c.Links ++ [child] } :: cs
  | c :: cs, sitemap + 1, child => c :: appendLink cs sitemap child

/-- The function `crawl`, up to its `return sitemap`: the pointer it returns
(`none` is `nil`) and the state it leaves, the goroutines it spawned included. -/
def crawl (lib : URLLib) (w : World) (startURL : String) (maxDepth depth : Int)
    (s : State) : Option Nat × State :=
  if depth > maxDepth then (none, s)
  else
    let normalizedURL := normalizeURL lib startURL
    if normalizedURL ∈ s.visited then (none, s)
    else
      let s1 := { s with visited := normalizedURL :: s.visited }
      let domain := getDomain lib normalizedURL
      if !isAllowedByRobots w domain normalizedURL then (none, s1)
      else
        -- http.NewRequest fails when the URL does not parse
        match lib.Parse normalizedURL with
        | none => (none, s1)
        | some _ =>
          let s2 := { s1 with requests := s1.requests ++ [normalizedURL] }
          match w.Do normalizedURL with
          | none => (none, s2)
          | some resp =>
            if resp.StatusCode ≠ StatusOK then (none, s2)
            else
              let sitemap := s2.heap.length
              (some sitemap,
                { s2 with
                  heap := s2.heap ++ [{ URL := normalizedURL, Links := [] }]
                  goroutines := s2.goroutines ++
                    (spawnLinks lib normalizedURL resp.Body).map
                      (fun absoluteLink =>
                        { link := absoluteLink, depth := depth, sitemap := sitemap }) })

/-- The body of a spawned goroutine: the child call, then the append to the
parent's `Links` when the child is not `nil`. -/
def runGoroutine (lib : URLLib) (w : World) (g : Goroutine) (s : State) : State :=
  match crawl lib w g.link 2 (g.depth + 1) s with
  | (none, s') => s'
  | (some child, s') => { s' with heap := appendLink s'.heap g.sitemap child }

/-- One scheduling step: the pending goroutine at position `i` modulo the number
of pending goroutines runs. -/
def step (lib : URLLib) (w : World) (i : Nat) (s : State) : State :=
  match s.goroutines with
  | [] => s
  | g0 :: gs =>
    let k := i % (gs.length + 1)
    runGoroutine lib w ((g0 :: gs).getD k g0) { s with goroutines := (g0 :: gs).eraseIdx k }

/-- The goroutines run in the order the schedule gives. -/
def run (lib : URLLib) (w : World) : List Nat → State → State
  | [], s => s
  | i :: sched, s => run lib w sched (step lib w i s)

/-- What `handler` answers: status 400, or the JSON of the sitemap pointer. -/
inductive Reply where
  | badRequest
  | json (sitemap : Option Nat)
deriving DecidableEq

/-- The function `handler` on the query parameter `url`: the top-level call
`crawl(startURL, 2, 0, &wg)`, then `wg.Wait()` under the given schedule. -/
def handler (lib : URLLib) (w : World) (startURL : String) (sched : List Nat)
    (s : State) : Reply × State :=
  if startURL = "" then (Reply.badRequest, s)
  else
    let r := crawl lib w startURL 2 0 s
    (Reply.json r.1, run lib w sched r.2)

/-- A top-level call `crawl(startURL, maxDepth, 0, &wg)` on a fresh process,
followed by the spawned goroutines in schedule order. -/
def crawlFrom (lib : URLLib) (w : World) (startURL : String) (maxDepth : Int)
    (sched : List Nat) : Option Nat × State :=
  let r := crawl lib w startURL maxDepth 0 {}
  (r.1, run lib w sched r.2)

/-- Node `j` is in the tree under `root`, at distance `d` from it. -/
inductive InTree (heap : List Sitemap) (root : Nat) : Nat → Nat → Prop where
  | root : InTree heap root root 0
  | link {i j d : Nat} {c : Sitemap} :
      InTree heap root i d → heap[i]? = some c → j ∈ c.Links → InTree heap root j (d + 1)

/-- The URLs of the children of the node at `i`, in `Links` order. -/
def childURLs (heap : List Sitemap) (i : Nat) : List String :=
  match heap[i]? with
  | none => []
  | some c => c.Links.filterMap (fun j => (heap[j]?).map (fun n => n.URL))

/-! ## A model of the fragment of `net/url` without escapes

`goURL` follows `net/url` of Go 1.19 and later on the URL strings made of ASCII
characters without percent-escapes, userinfo and bracketed IP-literal hosts
whose path and fragment need no escaping.  On every other string `goParse`
returns `none`.  The full model is `netURL`, further down. -/

namespace GoURL

/-- The test of `stringContainsCTLByte` on one byte. -/
def isCTL (c : Char) : Bool := c.toNat < 32 || c.toNat == 127

/-- ASCII letter. -/
def isAlpha (c : Char) : Bool :=
  (97 ≤ c.toNat && c.toNat ≤ 122) || (65 ≤ c.toNat && c.toNat ≤ 90)

/-- ASCII digit. -/
def isDigit (c : Char) : Bool := 48 ≤ c.toNat && c.toNat ≤ 57

/-- The characters `getScheme` accepts after the first one. -/
def isSchemeChar (c : Char) : Bool :=
  isAlpha c || isDigit c || c == '+' || c == '-' || c == '.'

/-- The characters of a path that `EscapedPath` writes back unchanged:
unreserved, the reserved ones `shouldEscape` lets through in a path, and the
ones `validEncoded` accepts. -/
def pathSafe (c : Char) : Bool :=
  isAlpha c || isDigit c || "-_.~$&+,/:;=@!'()*[]".data.contains c

/-- The characters of a fragment that `EscapedFragment` writes back unchanged. -/
def fragSafe (c : Char) : Bool := pathSafe c || c == '?'

/-- The ASCII characters `unescape` accepts in a host, brackets excluded. -/
def hostSafe (c : Char) : Bool :=
  isAlpha c || isDigit c || "!$&'()*+,;=:<>\"-_.~".data.contains c

/-- The characters of a path that `escape` would rewrite; `setPath` keeps the
raw path in `RawPath` when there is one. -/
def pathEscaped (c : Char) : Bool := "!'()*[]".data.contains c

/-- The part of `s` before the first `sep` (`strings.Cut`, first result). -/
def before (sep : Char) (s : List Char) : List Char := s.takeWhile (fun c => c != sep)

/-- The part of `s` after the first `sep` (`strings.Cut`, second result). -/
def after (sep : Char) (s : List Char) : List Char := (s.dropWhile (fun c => c != sep)).drop 1

/-- The part of `s` after the last `sep`, `none` when `sep` does not occur. -/
def afterLast (sep : Char) (s : List Char) : Option (List Char) :=
  if s.contains sep then some (s.reverse.takeWhile (fun c => c != sep)).reverse else none

/-- The part of `s` before the last `sep`. -/
def beforeLast (sep : Char) (s : List Char) : List Char :=
  ((s.reverse.dropWhile (fun c => c != sep)).drop 1).reverse

/-- The loop of `getScheme`: `i` characters of `rawURL` are read, `rest` is left. -/
def getSchemeLoop (rawURL : List Char) : Nat → List Char → Option (List Char × List Char)
  | _, [] => some ([], rawURL)
  | i, c :: rest =>
    if isAlpha c then getSchemeLoop rawURL (i + 1) rest
    else if isDigit c || c == '+' || c == '-' || c == '.' then
      if i = 0 then some ([], rawURL) else getSchemeLoop rawURL (i + 1) rest
    else if c == ':' then
      if i = 0 then none else some (rawURL.take i, rest)
    else some ([], rawURL)

/-- The function `getScheme`: the scheme and the rest, `none` for the error
"missing protocol scheme". -/
def getScheme (rawURL : List Char) : Option (List Char × List Char) :=
  getSchemeLoop rawURL 0 rawURL

/-- The function `validOptionalPort`. -/
def validOptionalPort : List Char → Bool
  | [] => true
  | c :: digits => c == ':' && digits.all isDigit

/-- The port check of `splitHostPort`: what follows the last colon, the colon
included, is a valid optional port. -/
def portOK (host : List Char) : Bool :=
  match afterLast ':' host with
  | none => true
  | some port => validOptionalPort (':' :: port)

/-- The port check of `parseHost` on a host without brackets: at most one
colon, and only digits after it. -/
def colonOK (host : List Char) : Bool :=
  validOptionalPort (host.dropWhile (fun c => c != ':'))

/-- The function `parseHost` on a host without brackets and escapes. -/
def parseHost (host : List Char) : Option (List Char) :=
  if colonOK host && host.all hostSafe then some host else none

/-- The function `parseAuthority` on an authority without userinfo. -/
def parseAuthority (authority : List Char) : Option (List Char) :=
  if authority.contains '@' then none else parseHost authority

/-- The method `setPath` on a path without escapes. -/
def setPath (url : URL) (p : List Char) : Option URL :=
  if p.all pathSafe then
    some { url with Path := String.mk p, RawPath := if p.any pathEscaped then String.mk p else "" }
  else none

/-- The query split of `parse`: the rest without the query, `ForceQuery`, and
`RawQuery`. A lone final `?` sets `ForceQuery`; otherwise the rest is cut at the
first `?`. -/
def splitQuery (rest : List Char) : List Char × Bool × List Char :=
  if rest.getLast? == some '?' && rest.count '?' == 1 then (rest.dropLast, true, [])
  else (before '?' rest, false, after '?' rest)

/-- The part of `parse` after the query split: opaque data, authority and path. -/
def parseHier (url : URL) (scheme rest : List Char) : Option URL :=
  if rest.head? != some '/' && scheme != [] then some { url with Opaque := String.mk rest }
  else if rest.head? != some '/' && (before '/' rest).contains ':' then none
  else if (scheme != [] || !(['/', '/', '/'].isPrefixOf rest)) && ['/', '/'].isPrefixOf rest then
    let authority := before '/' (rest.drop 2)
    let path := (rest.drop 2).dropWhile (fun c => c != '/')
    match parseAuthority authority with
    | none => none
    | some host => setPath { url with Host := String.mk host } path
  else if scheme != [] && rest.head? == some '/' then
    setPath { url with OmitHost := true } rest
  else setPath url rest

/-- The function `parse(rawURL, false)`, the fragment already cut off. -/
def parse (rawURL : List Char) : Option URL :=
  if rawURL.any isCTL || rawURL.any (fun c => 128 ≤ c.toNat) then none
  else if rawURL = ['*'] then some { Path := "*" }
  else
    match getScheme rawURL with
    | none => none
    | some (scheme, rest) =>
      let scheme := scheme.map Char.toLower
      let q := splitQuery rest
      parseHier
        { Scheme := String.mk scheme, ForceQuery := q.2.1, RawQuery := String.mk q.2.2 }
        scheme q.1

/-- The function `url.Parse`. -/
def goParse (rawURL : String) : Option URL :=
  let u := before '#' rawURL.data
  let frag := after '#' rawURL.data
  match parse u with
  | none => none
  | some url =>
    if frag = [] then some url
    else if frag.all fragSafe then
      some { url with Fragment := String.mk frag,
                      RawFragment := if frag.any (fun c => c == '\'' || c == '[' || c == ']')
                        then String.mk frag else "" }
    else none

/-- The body of the method `String` on the characters of the fields of a URL
without userinfo whose path needs no escaping, so that `EscapedPath` is the
path and `EscapedFragment` the fragment. -/
def render (scheme opq host path : List Char) (omitHost forceQuery : Bool)
    (rawQuery fragment : List Char) : List Char :=
  let schemePart := if scheme != [] then scheme ++ [':'] else []
  let body :=
    if opq != [] then schemePart ++ opq
    else
      let authority :=
        if scheme != [] || host != [] then
          if omitHost && host == [] then []
          else (if host != [] || path != [] then ['/', '/'] else []) ++ host
        else []
      let slash := if path != [] && path.head? != some '/' && host != [] then ['/'] else []
      let buf := schemePart ++ authority ++ slash
      let dot := if buf == [] && (before '/' path).contains ':' then ['.', '/'] else []
      buf ++ dot ++ path
  let query := if forceQuery || rawQuery != [] then '?' :: rawQuery else []
  let frag := if fragment != [] then '#' :: fragment else []
  body ++ query ++ frag

/-- The method `String`. -/
def goString (u : URL) : String :=
  String.mk (render u.Scheme.data u.Opaque.data u.Host.data u.Path.data u.OmitHost u.ForceQuery
    u.RawQuery.data u.Fragment.data)

/-- The method `IsAbs`. -/
def goIsAbs (u : URL) : Bool := u.Scheme != ""

/-- The method `Hostname`: `splitHostPort` drops a valid port and the brackets. -/
def goHostname (u : URL) : String :=
  let hostPort := u.Host.data
  let host :=
    if hostPort.contains ':' && portOK hostPort then beforeLast ':' hostPort else hostPort
  let host :=
    if host.head? == some '[' && host.getLast? == some ']' then (host.drop 1).dropLast else host
  String.mk host

/-- The state of the loop of `resolvePath`: the text written after the leading
slash, and the flag `first`. -/
def resolveElem (st : List Char × Bool) (elem : List Char) : List Char × Bool :=
  if elem = ['.'] then (st.1, false)
  else if elem = ['.', '.'] then
    if st.1.contains '/' then (beforeLast '/' st.1, st.2) else ([], true)
  else ((if st.2 then st.1 else st.1 ++ ['/']) ++ elem, false)

/-- The function `resolvePath`. -/
def resolvePath (base ref : List Char) : List Char :=
  let full :=
    if ref = [] then base
    else if ref.head? != some '/' then
      (if base.contains '/' then beforeLast '/' base ++ ['/'] else []) ++ ref
    else ref
  if full = [] then []
  else
    let elems := full.splitOn '/'
    let st := elems.foldl resolveElem ([], true)
    let last := elems.getLast?
    let dst := '/' :: st.1 ++ (if last == some ['.'] || last == some ['.', '.'] then ['/'] else [])
    if dst.drop 1 |>.head? |> (· == some '/') then dst.drop 1 else dst

/-- The method `setPath` as `ResolveReference` calls it, the error ignored. -/
def setPathD (url : URL) (p : List Char) : URL :=
  { url with Path := String.mk p, RawPath := if p.any pathEscaped then String.mk p else "" }

/-- The method `ResolveReference`; `EscapedPath` is the path. -/
def goResolveReference (u ref : URL) : URL :=
  let url := if ref.Scheme == "" then { ref with Scheme := u.Scheme } else ref
  if ref.Scheme != "" || ref.Host != "" || ref.User.isSome then
    setPathD url (resolvePath ref.Path.data [])
  else if ref.Opaque != "" then { url with User := none, Host := "", Path := "" }
  else
    let url :=
      if ref.Path == "" && !ref.ForceQuery && ref.RawQuery == "" then
        let url := { url with RawQuery := u.RawQuery }
        if ref.Fragment == "" then
          { url with Fragment := u.Fragment, RawFragment := u.RawFragment }
        else url
      else url
    if ref.Path == "" && u.Opaque != "" then
      { url with Opaque := u.Opaque, User := none, Host := "", Path := "" }
    else
      setPathD { url with Host := u.Host, User := u.User }
        (resolvePath u.Path.data ref.Path.data)

end GoURL

/-- The model of the fragment of `net/url` without escapes. -/
def goURL : URLLib where
  Parse := GoURL.goParse
  Str := GoURL.goString
  IsAbs := GoURL.goIsAbs
  Hostname := GoURL.goHostname
  ResolveReference := GoURL.goResolveReference

/-! ## Example worlds -/

/-- A start tag `<a href="...">`. -/
def anchor (href : String) : Token :=
  { Typ := TokenType.StartTagToken, Data := "a", Attr := [{ Key := "href", Val := href }] }

/-- The site of the specification's example: the page at `http://example.com`
links to `http://example.com/a`, `/b` and `http://other.com/x`; the pages `/a`
and `/b` exist and have no links; no robots.txt can be fetched. -/
def exampleWorld : World where
  Do := fun url =>
    if url = "http://example.com" then
      some { StatusCode := 200,
             Body := [anchor "http://example.com/a", anchor "/b", anchor "http://other.com/x"] }
    else if url = "http://example.com/a" ∨ url = "http://example.com/b" then
      some { StatusCode := 200, Body := [] }
    else none
  Get := fun _ => none
  FromResponse := fun _ => none

/-- A site with two levels below the start page: `http://example.com` links to
`/a`, the page `/a` links to `/c` and to `d`, and the pages `/c` and `/d` exist and
have no links; no robots.txt can be fetched. -/
def deepWorld : World where
  Do := fun url =>
    if url = "http://example.com" then
      some { StatusCode := 200, Body := [anchor "/a"] }
    else if url = "http://example.com/a" then
      some { StatusCode := 200, Body := [anchor "/c", anchor "d"] }
    else if url = "http://example.com/c" ∨ url = "http://example.com/d" then
      some { StatusCode := 200, Body := [] }
    else none
  Get := fun _ => none
  FromResponse := fun _ => none

/-- A world whose robots.txt answers with status 404. -/
def notFoundWorld : World where
  Do := fun _ => none
  Get := fun _ => some { StatusCode := 404, Body := "" }
  FromResponse := fun _ => some { TestAgent := fun _ _ => false }

/-- A world whose robots.txt is served and disallows everything. -/
def disallowWorld : World where
  Do := fun _ => none
  Get := fun _ => some { StatusCode := 200, Body := "User-agent: *\nDisallow: /" }
  FromResponse := fun _ => some { TestAgent := fun _ _ => false }

/-- The state after a call of `crawl` that returns a node. -/
def crawled (lib : URLLib) (normalizedURL : String) (depth : Int) (body : List Token)
    (s : State) : State :=
  { visited := normalizedURL :: s.visited
    heap := s.heap ++ [{ URL := normalizedURL, Links := [] }]
    goroutines := s.goroutines ++
      (spawnLinks lib normalizedURL body).map
        (fun absoluteLink => { link := absoluteLink, depth := depth, sitemap := s.heap.length })
    requests := s.requests ++ [normalizedURL] }

/-- A call of `crawl` returns a node exactly when this holds: the depth is within
the bound, the canonical URL is new, robots.txt allows it, it parses, and the
fetch answers 200 with the given body. -/
def Succeeds (lib : URLLib) (w : World) (startURL : String) (maxDepth depth : Int)
    (s : State) (body : List Token) : Prop :=
  depth ≤ maxDepth ∧ normalizeURL lib startURL ∉ s.visited ∧
  isAllowedByRobots w (getDomain lib (normalizeURL lib startURL)) (normalizeURL lib startURL) = true ∧
  (∃ v, lib.Parse (normalizeURL lib startURL) = some v) ∧
  ∃ resp, w.Do (normalizeURL lib startURL) = some resp ∧ resp.StatusCode = StatusOK ∧
    resp.Body = body

/-- The bookkeeping kept by the check-and-insert on `visited`: no canonical URL
is marked, requested or made a node twice, every link of a node points into the
heap, and no node lists a child twice. -/
structure Dedup (s : State) : Prop where
  visited_nodup : s.visited.Nodup
  heap_visited : ∀ c ∈ s.heap, c.URL ∈ s.visited
  heap_nodup : (s.heap.map (fun c => c.URL)).Nodup
  requests_visited : ∀ r ∈ s.requests, r ∈ s.visited
  requests_nodup : s.requests.Nodup
  links_lt : ∀ c ∈ s.heap, ∀ j ∈ c.Links, j < s.heap.length
  links_nodup : ∀ c ∈ s.heap, c.Links.Nodup

/-- The links of the page at a canonical URL for which `crawl` spawns goroutines,
none when the fetch fails. -/
def pageLinks (lib : URLLib) (w : World) (normalizedURL : String) : List String :=
  match w.Do normalizedURL with
  | none => []
  | some resp => spawnLinks lib normalizedURL resp.Body

/-- A bound on the number of goroutines a call of `crawl` on `link` can give rise
to, itself included, when `k` more levels fit under the depth bound. -/
def cost (lib : URLLib) (w : World) : Nat → String → Nat
  | 0, _ => 1
  | k + 1, link => 1 + ((pageLinks lib w (normalizeURL lib link)).map (cost lib w k)).sum

/-- The bound for a pending goroutine: its child call runs at `depth + 1` under
the bound 2. -/
def weight (lib : URLLib) (w : World) (g : Goroutine) : Nat :=
  cost lib w (2 - g.depth).toNat g.link

/-- The bound for all pending goroutines of a state. -/
def pendingWork (lib : URLLib) (w : World) (s : State) : Nat :=
  (s.goroutines.map (weight lib w)).sum

/-- The URL `u` is the URL of a child of the node at `i`. -/
def IsChild (heap : List Sitemap) (i : Nat) (u : String) : Prop :=
  ∃ c j cj, heap[i]? = some c ∧ j ∈ c.Links ∧ heap[j]? = some cj ∧ cj.URL = u

/-- The canonical URLs of the links of the page at a canonical URL: the children
the page is due. -/
def kidURLs (lib : URLLib) (w : World) (normalizedURL : String) : List String :=
  (pageLinks lib w normalizedURL).map (normalizeURL lib)

/-- A pending goroutine that cannot make a node with a URL of `C`: its call of
`crawl` runs over the depth bound, or its link is not in `C` and, when its page
can itself get children, no link of that page is in `C` either. -/
def Harmless (lib : URLLib) (w : World) (C : List String) (g : Goroutine) : Prop :=
  2 ≤ g.depth ∨
  (0 ≤ g.depth ∧ normalizeURL lib g.link ∉ C ∧
    (g.depth = 0 →
      ∀ l ∈ pageLinks lib w (normalizeURL lib g.link), normalizeURL lib l ∉ C))

/-- The state of the crawl as seen from the node at `F`, made by a call of
`crawl` at depth `d`, for the set `C` of canonical URLs its page links to: each
of them is either still pending in a goroutine of the node and unvisited, or a
child of the node; the node has no other children; and the goroutines of other
nodes cannot reach a URL of `C`. -/
structure NodeInv (lib : URLLib) (w : World) (C : List String) (F : Nat) (d : Int)
    (s : State) : Prop where
  dedup : Dedup s
  pos : F < s.heap.length
  pending_or_child : ∀ c ∈ C,
    (c ∉ s.visited ∧
      ∃ g ∈ s.goroutines, g.sitemap = F ∧ g.depth = d ∧ normalizeURL lib g.link = c) ∨
    IsChild s.heap F c
  child_mem : ∀ u, IsChild s.heap F u → u ∈ C
  kinds : ∀ g ∈ s.goroutines,
    (g.sitemap = F ∧ g.depth = d ∧ normalizeURL lib g.link ∈ C) ∨
    (g.sitemap ≠ F ∧ Harmless lib w C g)

/-- A labelling of the nodes with the depth of the call that made them: the root
has depth 0, a child is one deeper than its parent, a pending goroutine carries
the depth of the node it will append to, and no depth exceeds `bound`. -/
structure Levels (bound : Int) (dep : Nat → Int) (s : State) : Prop where
  root : dep 0 = 0
  links : ∀ (i : Nat) (c : Sitemap), s.heap[i]? = some c → ∀ j ∈ c.Links,
    j < s.heap.length ∧ dep j = dep i + 1
  goroutines : ∀ g ∈ s.goroutines, g.sitemap < s.heap.length ∧ dep g.sitemap = g.depth
  le : ∀ i, i < s.heap.length → dep i ≤ bound

/-! ## The shape of a parsed URL (proof device for the `net/url` model) -/

namespace GoURL

/-- Neither a control character nor outside ASCII. -/
def plain (c : Char) : Bool := !isCTL c && decide (c.toNat < 128)

/-- A scheme as `getScheme` accepts it: a letter, then scheme characters. -/
def isScheme : List Char → Bool
  | [] => false
  | c :: cs => isAlpha c && cs.all isSchemeChar

/-- The components of a URL without userinfo, query and fragment. -/
structure Parts where
  scheme : List Char
  opq : List Char
  host : List Char
  path : List Char
  omitHost : Bool
  forceQuery : Bool

/-- The URL with these components. -/
def Parts.toURL (P : Parts) : URL :=
  { Scheme := String.mk P.scheme
    Opaque := String.mk P.opq
    Host := String.mk P.host
    Path := String.mk P.path
    RawPath := if P.path.any pathEscaped then String.mk P.path else ""
    OmitHost := P.omitHost
    ForceQuery := P.forceQuery }

/-- The printed form of the components. -/
def Parts.print (P : Parts) : List Char :=
  render P.scheme P.opq P.host P.path P.omitHost P.forceQuery [] []

/-- The printed query of a URL whose `RawQuery` is empty. -/
def queryMark (fq : Bool) : List Char := if fq then ['?'] else []

/-- Go's `strings.TrimRight(s, "/")` on the characters. -/
def trim (l : List Char) : List Char := l.rdropWhile (fun c => c == '/')

/-- The URL `*`, which `parse` special-cases. -/
def starURL : URL := { Path := "*" }

/-- A lower-case scheme. -/
def SchemeOK (sc : List Char) : Prop := isScheme sc = true ∧ sc.map Char.toLower = sc

/-- A host that `parseHost` returns unchanged. -/
def HostOK (h : List Char) : Prop := parseHost h = some h

/-- The four shapes of the components that `parse` produces. -/
inductive Shape : Parts → Prop where
  | opq {sc o : List Char} {fq : Bool} :
      SchemeOK sc → o.head? ≠ some '/' → (∀ c ∈ o, plain c = true ∧ c ≠ '?' ∧ c ≠ '#') →
      Shape ⟨sc, o, [], [], false, fq⟩
  | auth {sc h p : List Char} {fq : Bool} :
      (sc = [] ∨ SchemeOK sc) → HostOK h → p.all pathSafe = true →
      (p = [] ∨ p.head? = some '/') → (sc = [] → h = [] → p = []) →
      Shape ⟨sc, [], h, p, false, fq⟩
  | bare {sc p : List Char} {fq : Bool} :
      SchemeOK sc → p.all pathSafe = true → p.head? = some '/' →
      ['/', '/'].isPrefixOf p = false →
      Shape ⟨sc, [], [], p, true, fq⟩
  | rel {p : List Char} {fq : Bool} :
      p.all pathSafe = true →
      (['/', '/'].isPrefixOf p = true → ['/', '/', '/'].isPrefixOf p = true) →
      (p.head? ≠ some '/' → ':' ∉ before '/' p) →
      Shape ⟨[], [], [], p, false, fq⟩

end GoURL

/-! ## The semaphore `sem` -/

/-- Where a call of `crawl` stands with respect to the network: before the
robots check, with `http.Get(robotsURL)` in flight, blocked at
`sem <- struct{}{}`, holding a slot with `client.Do(req)` in flight, or past
the fetch. -/
inductive Phase where
  | started
  | robots
  | waiting
  | fetching
  | finished
deriving DecidableEq

/-- The constant `maxConcurrentRequests`, the capacity of the channel `sem`. -/
def maxConcurrentRequests : Nat := 10

/-- The calls of `crawl` that have started, and the number of elements in the
channel `sem`. -/
structure Admission where
  calls : List Phase
  sem : Nat

/-- One step of call `i`. `ok` tells whether the call goes on, where it can
return early (depth, visited, robots, request); `kids` is the number of
goroutines it spawns when its fetch is over. A send on the full channel blocks:
the call stays where it is. The receive `<-sem` follows `client.Do` whether or
not it failed. -/
def Admission.advance (s : Admission) (i : Nat) (ok : Bool) (kids : Nat) : Admission :=
  match s.calls[i]? with
  | none => s
  | some Phase.started =>
    { s with calls := s.calls.set i (if ok then Phase.robots else Phase.finished) }
  | some Phase.robots =>
    { s with calls := s.calls.set i (if ok then Phase.waiting else Phase.finished) }
  | some Phase.waiting =>
    if s.sem < maxConcurrentRequests then
      { calls := s.calls.set i Phase.fetching, sem := s.sem + 1 }
    else s
  | some Phase.fetching =>
    { calls := s.calls.set i Phase.finished ++ List.replicate kids Phase.started,
      sem := s.sem - 1 }
  | some Phase.finished => s

/-- The steps of a schedule, one after the other. -/
def Admission.run : List (Nat × Bool × Nat) → Admission → Admission
  | [], s => s
  | (i, ok, kids) :: sched, s => Admission.run sched (s.advance i ok kids)

/-- The top-level call has started and the channel is empty. -/
def Admission.init : Admission := { calls := [Phase.started], sem := 0 }

/-- The number of page fetches (`client.Do`) in flight. -/
def Admission.pageFetches (s : Admission) : Nat := s.calls.count Phase.fetching

/-- The number of robots.txt fetches (`http.Get`) in flight. -/
def Admission.robotsFetches (s : Admission) : Nat := s.calls.count Phase.robots

/-- A schedule on a page with eleven links: the top-level call runs to the end
of its fetch and spawns eleven goroutines, and each of them starts its robots
fetch. -/
def elevenRobots : List (Nat × Bool × Nat) :=
  [(0, true, 0), (0, true, 0), (0, true, 0), (0, true, 11)] ++
    (List.range 11).map (fun i => (i + 1, true, 0))
/-! ## The full model of `net/url`

`netURL` follows `net/url` on every URL string: percent-escapes, userinfo,
IP-literal hosts, and text outside ASCII.  A Go string is a sequence of bytes.
The strings `Scheme`, `Opaque`, `RawPath`, `RawQuery` and `RawFragment` are
pieces of the URL string and are kept as text; the decoded strings `Path`,
`Host`, `Fragment` and the userinfo hold bytes, one character per byte, a
character outside ASCII entering them as the bytes of its UTF-8 encoding.
A host without brackets holds at most one colon, as Go 1.26 has it; the text
between the brackets of an IP-literal is not checked to be an IPv6 address. -/

namespace NetURL

open GoURL

/-- The escaping modes of `net/url`. -/
inductive Encoding where
  | encodePath
  | encodePathSegment
  | encodeHost
  | encodeZone
  | encodeUserPassword
  | encodeQueryComponent
  | encodeFragment
deriving DecidableEq

/-- The bytes of the UTF-8 encoding of a character, one character per byte. -/
def utf8 (c : Char) : List Char :=
  if c.toNat < 128 then [c]
  else if c.toNat < 2048 then
    [Char.ofNat (192 + c.toNat / 64), Char.ofNat (128 + c.toNat % 64)]
  else if c.toNat < 65536 then
    [Char.ofNat (224 + c.toNat / 4096), Char.ofNat (128 + c.toNat / 64 % 64),
     Char.ofNat (128 + c.toNat % 64)]
  else
    [Char.ofNat (240 + c.toNat / 262144), Char.ofNat (128 + c.toNat / 4096 % 64),
     Char.ofNat (128 + c.toNat / 64 % 64), Char.ofNat (128 + c.toNat % 64)]

/-- The function `ishex`. -/
def ishex (c : Char) : Bool :=
  isDigit c || (97 ≤ c.toNat && c.toNat ≤ 102) || (65 ≤ c.toNat && c.toNat ≤ 70)

/-- The function `unhex`. -/
def unhex (c : Char) : Nat :=
  if isDigit c then c.toNat - 48
  else if 97 ≤ c.toNat && c.toNat ≤ 102 then c.toNat - 97 + 10
  else if 65 ≤ c.toNat && c.toNat ≤ 70 then c.toNat - 65 + 10
  else 0

/-- The digit `upperhex[n]`. -/
def hexDigit (n : Nat) : Char := "0123456789ABCDEF".data.getD n '0'

/-- The function `shouldEscape` on one byte. -/
def shouldEscape (c : Char) (mode : Encoding) : Bool :=
  if isAlpha c || isDigit c then false
  else if (mode == Encoding.encodeHost || mode == Encoding.encodeZone) &&
      "!$&'()*+,;=:[]<>\"".data.contains c then false
  else if "-_.~".data.contains c then false
  else if "$&+,/:;=?@".data.contains c &&
      (mode == Encoding.encodePath || mode == Encoding.encodePathSegment ||
        mode == Encoding.encodeUserPassword || mode == Encoding.encodeQueryComponent ||
        mode == Encoding.encodeFragment) then
    match mode with
    | Encoding.encodePath => c == '?'
    | Encoding.encodePathSegment => c == '/' || c == ';' || c == ',' || c == '?'
    | Encoding.encodeUserPassword => c == '@' || c == '/' || c == '?' || c == ':'
    | Encoding.encodeQueryComponent => true
    | _ => false
  else if mode == Encoding.encodeFragment && "!()*".data.contains c then false
  else true

/-- The three characters `%XX` that `escape` writes for a byte. -/
def escapeByte (c : Char) : List Char :=
  ['%', hexDigit (c.toNat / 16 % 16), hexDigit (c.toNat % 16)]

/-- The function `escape`. -/
def escape (s : List Char) (mode : Encoding) : List Char :=
  s.flatMap (fun c =>
    if shouldEscape c mode then
      if c == ' ' && mode == Encoding.encodeQueryComponent then ['+'] else escapeByte c
    else [c])

/-- The function `unescape`, `none` for an `EscapeError` or `InvalidHostError`. -/
def unescape (mode : Encoding) : List Char → Option (List Char)
  | [] => some []
  | c :: rest =>
    if c == '%' then
      match rest with
      | a :: b :: rest' =>
        if !(ishex a && ishex b) then none
        else if mode == Encoding.encodeHost && unhex a < 8 && !(a == '2' && b == '5') then none
        else if mode == Encoding.encodeZone && !(a == '2' && b == '5') &&
            Char.ofNat (unhex a * 16 + unhex b) != ' ' &&
            shouldEscape (Char.ofNat (unhex a * 16 + unhex b)) Encoding.encodeHost then none
        else (unescape mode rest').map (fun t => Char.ofNat (unhex a * 16 + unhex b) :: t)
      | _ => none
    else if (mode == Encoding.encodeHost || mode == Encoding.encodeZone) && c.toNat < 128 &&
        shouldEscape c Encoding.encodeHost then none
    else
      (unescape mode rest).map (fun t =>
        (if c == '+' && mode == Encoding.encodeQueryComponent then [' '] else utf8 c) ++ t)

/-- The function `validEncoded`. -/
def validEncoded (s : List Char) (mode : Encoding) : Bool :=
  s.all (fun c => "!$&'()*+,;=:@[]%".data.contains c || !shouldEscape c mode)

/-- The method `setPath`. -/
def setPath (url : URL) (p : List Char) : Option URL :=
  match unescape Encoding.encodePath p with
  | none => none
  | some path =>
    some { url with
      Path := String.mk path
      RawPath := if p == escape path Encoding.encodePath then "" else String.mk p }

/-- The method `EscapedPath`. -/
def escapedPath (u : URL) : List Char :=
  if u.RawPath != "" && validEncoded u.RawPath.data Encoding.encodePath &&
      unescape Encoding.encodePath u.RawPath.data == some u.Path.data then u.RawPath.data
  else if u.Path == "*" then ['*']
  else escape u.Path.data Encoding.encodePath

/-- The method `setFragment`. -/
def setFragment (url : URL) (f : List Char) : Option URL :=
  match unescape Encoding.encodeFragment f with
  | none => none
  | some frag =>
    some { url with
      Fragment := String.mk frag
      RawFragment := if f == escape frag Encoding.encodeFragment then "" else String.mk f }

/-- The method `EscapedFragment`. -/
def escapedFragment (u : URL) : List Char :=
  if u.RawFragment != "" && validEncoded u.RawFragment.data Encoding.encodeFragment &&
      unescape Encoding.encodeFragment u.RawFragment.data == some u.Fragment.data then
    u.RawFragment.data
  else escape u.Fragment.data Encoding.encodeFragment

/-- The function `validUserinfo`. -/
def validUserinfo (s : List Char) : Bool :=
  s.all (fun c => isAlpha c || isDigit c || "-._:~!$&'()*+,;=%@".data.contains c)

/-- The text before the first `%25` and the text from it on, `none` when `%25`
does not occur. -/
def splitZone : List Char → Option (List Char × List Char)
  | [] => none
  | c :: cs =>
    if ['%', '2', '5'].isPrefixOf (c :: cs) then some ([], c :: cs)
    else (splitZone cs).map (fun p => (c :: p.1, p.2))

/-- The function `parseHost`. -/
def parseHost (host : List Char) : Option (List Char) :=
  if host.head? == some '[' then
    if !host.contains ']' then none
    else if !validOptionalPort ((afterLast ']' host).getD []) then none
    else
      match splitZone (beforeLast ']' host) with
      | some (host1, host2) =>
        match unescape Encoding.encodeHost host1, unescape Encoding.encodeZone host2,
            unescape Encoding.encodeHost (']' :: (afterLast ']' host).getD []) with
        | some h1, some h2, some h3 => some (h1 ++ h2 ++ h3)
        | _, _, _ => none
      | none => unescape Encoding.encodeHost host
  else if !colonOK host then none
  else unescape Encoding.encodeHost host

/-- The decoded userinfo: the username and the password when there is one. -/
def parseUserinfo (userinfo : List Char) : Option (String × Option String) :=
  if !validUserinfo userinfo then none
  else if !userinfo.contains ':' then
    (unescape Encoding.encodeUserPassword userinfo).map (fun n => (String.mk n, none))
  else
    match unescape Encoding.encodeUserPassword (before ':' userinfo),
        unescape Encoding.encodeUserPassword (after ':' userinfo) with
    | some n, some p => some (String.mk n, some (String.mk p))
    | _, _ => none

/-- The function `parseAuthority`: the userinfo and the host. -/
def parseAuthority (authority : List Char) :
    Option (Option (String × Option String) × List Char) :=
  match afterLast '@' authority with
  | none => (parseHost authority).map (fun h => (none, h))
  | some hostPart =>
    match parseHost hostPart with
    | none => none
    | some h => (parseUserinfo (beforeLast '@' authority)).map (fun ui => (some ui, h))

/-- The part of `parse` after the query split: opaque data, authority and path. -/
def parseHier (url : URL) (scheme rest : List Char) : Option URL :=
  if rest.head? != some '/' && scheme != [] then some { url with Opaque := String.mk rest }
  else if rest.head? != some '/' && (before '/' rest).contains ':' then none
  else if (scheme != [] || !(['/', '/', '/'].isPrefixOf rest)) && ['/', '/'].isPrefixOf rest then
    match parseAuthority (before '/' (rest.drop 2)) with
    | none => none
    | some (user, host) =>
      setPath { url with User := user, Host := String.mk host }
        ((rest.drop 2).dropWhile (fun c => c != '/'))
  else if scheme != [] && rest.head? == some '/' then
    setPath { url with OmitHost := true } rest
  else setPath url rest

/-- The function `parse(rawURL, false)`, the fragment already cut off. -/
def parse (rawURL : List Char) : Option URL :=
  if rawURL.any isCTL then none
  else if rawURL = ['*'] then some { Path := "*" }
  else
    match getScheme rawURL with
    | none => none
    | some (scheme, rest) =>
      parseHier
        { Scheme := String.mk (scheme.map Char.toLower)
          ForceQuery := (splitQuery rest).2.1
          RawQuery := String.mk (splitQuery rest).2.2 }
        (scheme.map Char.toLower) (splitQuery rest).1

/-- The function `url.Parse`. -/
def netParse (rawURL : String) : Option URL :=
  match parse (before '#' rawURL.data) with
  | none => none
  | some url =>
    if after '#' rawURL.data = [] then some url else setFragment url (after '#' rawURL.data)

/-- The method `Userinfo.String`. -/
def userString (user : String × Option String) : List Char :=
  match user.2 with
  | none => escape user.1.data Encoding.encodeUserPassword
  | some password =>
    escape user.1.data Encoding.encodeUserPassword ++ ':' ::
      escape password.data Encoding.encodeUserPassword

/-- The authority that the method `String` writes, with the `//` before it. -/
def authorityString (u : URL) : List Char :=
  if u.Scheme != "" || u.Host != "" || u.User.isSome then
    if u.OmitHost && u.Host == "" && u.User.isNone then []
    else
      (if u.Host != "" || u.Path != "" || u.User.isSome then ['/', '/'] else []) ++
      (match u.User with
        | none => []
        | some user => userString user ++ ['@']) ++
      (if u.Host != "" then escape u.Host.data Encoding.encodeHost else [])
  else []

/-- The scheme that the method `String` writes, with the colon after it. -/
def schemeString (u : URL) : List Char :=
  if u.Scheme != "" then u.Scheme.data ++ [':'] else []

/-- The slash that the method `String` writes between a host and a path that
does not start with one. -/
def slashString (u : URL) : List Char :=
  if escapedPath u != [] && (escapedPath u).head? != some '/' && u.Host != "" then ['/'] else []

/-- The `./` that the method `String` writes before a path whose first segment
holds a colon when nothing is written before it. -/
def dotString (u : URL) : List Char :=
  if (schemeString u ++ authorityString u ++ slashString u) == [] &&
      (before '/' (escapedPath u)).contains ':' then ['.', '/'] else []

/-- The query that the method `String` writes. -/
def queryString (u : URL) : List Char :=
  if u.ForceQuery || u.RawQuery != "" then '?' :: u.RawQuery.data else []

/-- The fragment that the method `String` writes. -/
def fragmentString (u : URL) : List Char :=
  if u.Fragment != "" then '#' :: escapedFragment u else []

/-- The body of the method `String`. -/
def render (u : URL) : List Char :=
  (if u.Opaque != "" then schemeString u ++ u.Opaque.data
    else schemeString u ++ authorityString u ++ slashString u ++ dotString u ++ escapedPath u) ++
  queryString u ++ fragmentString u

/-- The method `String`. -/
def netString (u : URL) : String := String.mk (render u)

/-- The method `IsAbs`. -/
def netIsAbs (u : URL) : Bool := u.Scheme != ""

/-- The method `Hostname`: `splitHostPort` drops a valid port and the brackets. -/
def netHostname (u : URL) : String := goHostname u

/-- The method `setPath` as `ResolveReference` calls it, the error ignored. -/
def setPathD (url : URL) (p : List Char) : URL := (setPath url p).getD url

/-- The method `ResolveReference`. -/
def netResolveReference (u ref : URL) : URL :=
  let url := if ref.Scheme == "" then { ref with Scheme := u.Scheme } else ref
  if ref.Scheme != "" || ref.Host != "" || ref.User.isSome then
    setPathD url (resolvePath (escapedPath ref) [])
  else if ref.Opaque != "" then { url with User := none, Host := "", Path := "" }
  else
    let url :=
      if ref.Path == "" && !ref.ForceQuery && ref.RawQuery == "" then
        let url := { url with RawQuery := u.RawQuery }
        if ref.Fragment == "" then
          { url with Fragment := u.Fragment, RawFragment := u.RawFragment }
        else url
      else url
    if ref.Path == "" && u.Opaque != "" then
      { url with Opaque := u.Opaque, User := none, Host := "", Path := "" }
    else
      setPathD { url with Host := u.Host, User := u.User }
        (resolvePath (escapedPath u) (escapedPath ref))

end NetURL

/-- The full model of `net/url`. -/
def netURL : URLLib where
  Parse := NetURL.netParse
  Str := NetURL.netString
  IsAbs := NetURL.netIsAbs
  Hostname := NetURL.netHostname
  ResolveReference := NetURL.netResolveReference

/-- A goroutine between the return of its child call and the end of its append:
`child` is what the call returned, not nil, and `links` is the value of
`sitemap.Links` it has read, `none` before the read. -/
structure Appender where
  sitemap : Nat
  child : Nat
  links : Option (List Nat)
deriving DecidableEq

/-- The state of a crawl whose goroutines interleave: the state of the crawl
with the goroutines that have not made their child call, the counter of the
`WaitGroup`, and the goroutines that are in their append. -/
structure Racy where
  state : State := {}
  wg : Int := 0
  appenders : List Appender := []

/-- The steps of the goroutines: the child call of a pending goroutine, the read
of `sitemap.Links` by a goroutine in its append, and its write. -/
inductive Event where
  | call (i : Nat)
  | load (i : Nat)
  | store (i : Nat)
deriving DecidableEq

/-- The assignment `sitemap.Links = links` on the struct at `sitemap`. -/
def setLinks : List Sitemap → Nat → List Nat → List Sitemap
  | [], _, _ => []
  | c :: cs, 0, links => { c with Links := links } :: cs
  | c :: cs, sitemap + 1, links => c :: setLinks cs sitemap links

/-- The child call of the pending goroutine at position `i` modulo the number of
pending goroutines: `crawl(link, 2, depth+1, wg)` with a `wg.Add(1)` for every
goroutine it spawns and its deferred `wg.Done()`. -/
def Racy.call (lib : URLLib) (w : World) (i : Nat) (r : Racy) : Racy :=
  match r.state.goroutines with
  | [] => r
  | g0 :: gs =>
    let g := (g0 :: gs).getD (i % (gs.length + 1)) g0
    let s : State := { r.state with goroutines := (g0 :: gs).eraseIdx (i % (gs.length + 1)) }
    let res := crawl lib w g.link 2 (g.depth + 1) s
    { state := res.2
      wg := r.wg + (res.2.goroutines.length - gs.length : Nat) - 1
      appenders :=
        match res.1 with
        | none => r.appenders
        | some child => r.appenders ++ [⟨g.sitemap, child, none⟩] }

/-- The goroutine at position `i` of those in their append reads
`sitemap.Links`. -/
def Racy.load (i : Nat) (r : Racy) : Racy :=
  match r.appenders[i]? with
  | none => r
  | some a =>
    let links := ((r.state.heap[a.sitemap]?).map (fun c => c.Links)).getD []
    { r with appenders := r.appenders.set i ⟨a.sitemap, a.child, some links⟩ }

/-- The goroutine at position `i` of those in their append, having read
`sitemap.Links`, writes the appended slice and ends. -/
def Racy.store (i : Nat) (r : Racy) : Racy :=
  match r.appenders[i]? with
  | none => r
  | some a =>
    match a.links with
    | none => r
    | some links =>
      { r with
        state := { r.state with heap := setLinks r.state.heap a.sitemap (links ++ [a.child]) }
        appenders := r.appenders.eraseIdx i }

/-- One step of a goroutine. -/
def Racy.step (lib : URLLib) (w : World) : Event → Racy → Racy
  | Event.call i, r => Racy.call lib w i r
  | Event.load i, r => Racy.load i r
  | Event.store i, r => Racy.store i r

/-- The steps of the goroutines in the order given. -/
def Racy.run (lib : URLLib) (w : World) : List Event → Racy → Racy
  | [], r => r
  | e :: events, r => Racy.run lib w events (Racy.step lib w e r)

/-- The start of `handler` on a fresh process: `wg.Add(1)` and the top-level
call `crawl(startURL, maxDepth, 0, &wg)`, followed by the given steps of the
goroutines. `wg.Wait()` returns when the counter `wg` is 0, and `handler` then
encodes the tree under the pointer returned. -/
def Racy.crawlFrom (lib : URLLib) (w : World) (startURL : String) (maxDepth : Int)
    (events : List Event) : Option Nat × Racy :=
  let res := crawl lib w startURL maxDepth 0 {}
  (res.1, Racy.run lib w events
    { state := res.2, wg := 1 + res.2.goroutines.length - 1, appenders := [] })


/-! # Theorems -/

/-! ## Robots policy -/

/-- C8. `isAllowedByRobots` fails open: it returns `true` whenever the fetch of
`domain/robots.txt` fails, answers with a status other than 200 (every
non-success status is one), or the body does not parse; and when it returns
`false`, the file was fetched with status 200, parsed, and its rules reject the
path for the agent `Mozilla/5.0`. -/
theorem isAllowedByRobots_fail_open (w : World) (domain path : String) :
    ((w.Get (domain ++ "/robots.txt") = none ∨
        ∃ resp, w.Get (domain ++ "/robots.txt") = some resp ∧
          (resp.StatusCode ≠ StatusOK ∨ w.FromResponse resp = none)) →
      isAllowedByRobots w domain path = true) ∧
    (isAllowedByRobots w domain path = false →
      ∃ resp robotsData, w.Get (domain ++ "/robots.txt") = some resp ∧
        resp.StatusCode = StatusOK ∧ w.FromResponse resp = some robotsData ∧
        robotsData.TestAgent path "Mozilla/5.0" = false) := by
  unfold isAllowedByRobots
  constructor
  · rintro (h | ⟨resp, h, h' | h'⟩)
    · simp [h]
    · simp [h, h']
    · simp [h, h']
  · intro h
    cases hg : w.Get (domain ++ "/robots.txt") with
    | none => simp [hg] at h
    | some resp =>
      simp only [hg] at h
      by_cases hs : resp.StatusCode = StatusOK
      · cases hf : w.FromResponse resp with
        | none => simp [hs, hf] at h
        | some robotsData =>
          simp only [hf] at h
          refine ⟨resp, robotsData, rfl, hs, hf, ?_⟩
          simpa [hs] using h
      · simp [hs] at h

/-- Witness for C8: a 404 answer lets the path through, and a refusal comes
from a fetched and parsed ruleset. -/
theorem isAllowedByRobots_fail_open_witness :
    isAllowedByRobots notFoundWorld "http://example.com" "http://example.com/a" = true ∧
    ∃ resp robotsData, disallowWorld.Get ("http://example.com" ++ "/robots.txt") = some resp ∧
      resp.StatusCode = StatusOK ∧ disallowWorld.FromResponse resp = some robotsData ∧
      robotsData.TestAgent "http://example.com/a" "Mozilla/5.0" = false :=
  ⟨(isAllowedByRobots_fail_open notFoundWorld "http://example.com" "http://example.com/a").1
      (Or.inr ⟨{ StatusCode := 404, Body := "" }, rfl, Or.inl (by decide)⟩),
   (isAllowedByRobots_fail_open disallowWorld "http://example.com" "http://example.com/a").2 rfl⟩

/-! ## URL resolution -/

/-- C7, as the code has it. `resolveURL` is total and returns: the empty string
when `href` does not parse; `href` verbatim when it parses as an absolute URL,
whether or not `baseURL` parses; the empty string when `href` is relative and
`baseURL` does not parse; otherwise the printed `ResolveReference` of `href`
against the base. -/
theorem resolveURL_cases (lib : URLLib) (baseURL href : String) :
    (lib.Parse href = none → resolveURL lib baseURL href = "") ∧
    (∀ u, lib.Parse href = some u → lib.IsAbs u = true → resolveURL lib baseURL href = href) ∧
    (∀ u, lib.Parse href = some u → lib.IsAbs u = false → lib.Parse baseURL = none →
      resolveURL lib baseURL href = "") ∧
    (∀ u base, lib.Parse href = some u → lib.IsAbs u = false → lib.Parse baseURL = some base →
      resolveURL lib baseURL href = lib.Str (lib.ResolveReference base u)) := by
  unfold resolveURL
  refine ⟨?_, ?_, ?_, ?_⟩
  · intro h
    simp [h]
  · intro u h ha
    simp [h, ha]
  · intro u h ha hb
    simp [h, ha, hb]
  · intro u base h ha hb
    simp [h, ha, hb]

set_option maxRecDepth 100000 in
/-- Witness for C7 on the model of `net/url`: an unparsable href, an absolute
href, a relative href against an unparsable base, and `/b` against
`http://example.com`. -/
theorem resolveURL_cases_witness :
    resolveURL goURL "http://example.com" ":" = "" ∧
    resolveURL goURL "http://example.com" "http://other.com/x" = "http://other.com/x" ∧
    resolveURL goURL ":" "/b" = "" ∧
    resolveURL goURL "http://example.com" "/b" =
      goURL.Str (goURL.ResolveReference { Scheme := "http", Host := "example.com" }
        { Path := "/b" }) :=
  ⟨(resolveURL_cases goURL "http://example.com" ":").1 (by decide),
   (resolveURL_cases goURL "http://example.com" "http://other.com/x").2.1
      { Scheme := "http", Host := "other.com", Path := "/x" } (by decide) (by decide),
   (resolveURL_cases goURL ":" "/b").2.2.1 { Path := "/b" } (by decide) (by decide) (by decide),
   (resolveURL_cases goURL "http://example.com" "/b").2.2.2
      { Path := "/b" } { Scheme := "http", Host := "example.com" }
      (by decide) (by decide) (by decide)⟩

set_option maxRecDepth 100000 in
/-- C7 as stated fails: the base `:` does not parse, yet `resolveURL` returns the
absolute href and not the empty string. -/
theorem resolveURL_unparsable_base_counterexample :
    goURL.Parse ":" = none ∧
    resolveURL goURL ":" "http://example.com/a" = "http://example.com/a" ∧
    resolveURL goURL ":" "http://example.com/a" ≠ "" := by
  decide

/-! ## What one call of `crawl` does -/

theorem crawl_of_succeeds {lib : URLLib} {w : World} {startURL : String} {maxDepth depth : Int}
    {s : State} {body : List Token} (h : Succeeds lib w startURL maxDepth depth s body) :
    crawl lib w startURL maxDepth depth s =
      (some s.heap.length, crawled lib (normalizeURL lib startURL) depth body s) := by
  obtain ⟨h1, h2, h3, ⟨v, h4⟩, resp, h5, h6, h7⟩ := h
  unfold crawl
  simp [not_lt.mpr h1, h2, h3, h4, h5, h6, crawled, h7]

/-- Every call of `crawl` either returns nil, leaving heap and goroutines alone
and at most marking its canonical URL visited and requested, or succeeds. -/
theorem crawl_cases (lib : URLLib) (w : World) (startURL : String) (maxDepth depth : Int)
    (s : State) :
    ((crawl lib w startURL maxDepth depth s).1 = none ∧
      (crawl lib w startURL maxDepth depth s).2.heap = s.heap ∧
      (crawl lib w startURL maxDepth depth s).2.goroutines = s.goroutines ∧
      (((crawl lib w startURL maxDepth depth s).2.visited = s.visited ∧
          (crawl lib w startURL maxDepth depth s).2.requests = s.requests) ∨
        (normalizeURL lib startURL ∉ s.visited ∧
          (crawl lib w startURL maxDepth depth s).2.visited =
            normalizeURL lib startURL :: s.visited ∧
          ((crawl lib w startURL maxDepth depth s).2.requests = s.requests ∨
            (crawl lib w startURL maxDepth depth s).2.requests =
              s.requests ++ [normalizeURL lib startURL])))) ∨
    ∃ body, Succeeds lib w startURL maxDepth depth s body := by
  by_cases h1 : depth > maxDepth
  · left
    simp [crawl, h1]
  by_cases h2 : normalizeURL lib startURL ∈ s.visited
  · left
    simp [crawl, h1, h2]
  by_cases h3 : isAllowedByRobots w (getDomain lib (normalizeURL lib startURL))
      (normalizeURL lib startURL) = true
  swap
  · left
    simp [crawl, h1, h2, h3]
  cases h4 : lib.Parse (normalizeURL lib startURL) with
  | none =>
    left
    simp [crawl, h1, h2, h3, h4]
  | some v =>
    cases h5 : w.Do (normalizeURL lib startURL) with
    | none =>
      left
      simp [crawl, h1, h2, h3, h4, h5]
    | some resp =>
      by_cases h6 : resp.StatusCode = StatusOK
      · right
        exact ⟨resp.Body, not_lt.mp h1, h2, h3, ⟨v, h4⟩, resp, h5, h6, rfl⟩
      · left
        simp [crawl, h1, h2, h3, h4, h5, h6]

/-- The goroutine a step runs and the ones it leaves. -/
theorem step_eq (lib : URLLib) (w : World) (i : Nat) (s : State) (h : s.goroutines ≠ []) :
    ∃ g rest, (g :: rest).Perm s.goroutines ∧
      step lib w i s = runGoroutine lib w g { s with goroutines := rest } := by
  unfold step
  cases hg : s.goroutines with
  | nil => exact absurd hg h
  | cons g0 gs =>
    have hk : i % (gs.length + 1) < (g0 :: gs).length := by
      simpa using Nat.mod_lt i (Nat.succ_pos gs.length)
    refine ⟨(g0 :: gs).getD (i % (gs.length + 1)) g0, (g0 :: gs).eraseIdx (i % (gs.length + 1)), ?_, rfl⟩
    generalize i % (gs.length + 1) = k at hk
    generalize g0 :: gs = l at hk
    induction l generalizing k with
    | nil => simp at hk
    | cons a l ih =>
      cases k with
      | zero => simp
      | succ k =>
        simp only [List.length_cons, Nat.add_lt_add_iff_right] at hk
        have := ih k hk
        simp only [List.getD_cons_succ, List.eraseIdx_cons_succ]
        exact (List.Perm.swap _ _ _).trans (List.Perm.cons a this)

/-! ## The visited set -/

theorem appendLink_length (heap : List Sitemap) (p child : Nat) :
    (appendLink heap p child).length = heap.length := by
  induction heap generalizing p with
  | nil => rfl
  | cons c cs ih =>
    cases p with
    | zero => rfl
    | succ p => simp [appendLink, ih]

theorem appendLink_map_URL (heap : List Sitemap) (p child : Nat) :
    (appendLink heap p child).map (fun c => c.URL) = heap.map (fun c => c.URL) := by
  induction heap generalizing p with
  | nil => rfl
  | cons c cs ih =>
    cases p with
    | zero => rfl
    | succ p => simp [appendLink, ih]

theorem appendLink_get? (heap : List Sitemap) (p child i : Nat) :
    (appendLink heap p child)[i]? =
      (heap[i]?).map (fun c => if i = p then { c with Links := c.Links ++ [child] } else c) := by
  induction heap generalizing p i with
  | nil => simp [appendLink]
  | cons c cs ih =>
    cases p with
    | zero =>
      cases i with
      | zero => simp [appendLink]
      | succ i => simp [appendLink]
    | succ p =>
      cases i with
      | zero => simp [appendLink]
      | succ i => simpa [appendLink] using ih p i

theorem mem_appendLink {heap : List Sitemap} {p child : Nat} {c' : Sitemap}
    (h : c' ∈ appendLink heap p child) :
    c' ∈ heap ∨ ∃ c ∈ heap, c' = { c with Links := c.Links ++ [child] } := by
  induction heap generalizing p with
  | nil => simp [appendLink] at h
  | cons c cs ih =>
    cases p with
    | zero =>
      simp only [appendLink, List.mem_cons] at h
      rcases h with h | h
      · exact Or.inr ⟨c, List.mem_cons_self _ _, h⟩
      · exact Or.inl (List.mem_cons_of_mem _ h)
    | succ p =>
      simp only [appendLink, List.mem_cons] at h
      rcases h with h | h
      · exact Or.inl (h ▸ List.mem_cons_self _ _)
      · rcases ih h with h | ⟨c0, h0, h1⟩
        · exact Or.inl (List.mem_cons_of_mem _ h)
        · exact Or.inr ⟨c0, List.mem_cons_of_mem _ h0, h1⟩

theorem Dedup.init : Dedup {} := by
  constructor <;> simp

theorem Dedup.crawl {s : State} (h : Dedup s) (lib : URLLib) (w : World) (startURL : String)
    (maxDepth depth : Int) : Dedup (crawl lib w startURL maxDepth depth s).2 := by
  rcases crawl_cases lib w startURL maxDepth depth s with ⟨-, hh, -, hv⟩ | ⟨body, hs⟩
  · rcases hv with ⟨hv, hr⟩ | ⟨hn, hv, hr⟩
    · exact ⟨hv ▸ h.visited_nodup, by rw [hh, hv]; exact h.heap_visited, hh ▸ h.heap_nodup,
        by rw [hv, hr]; exact h.requests_visited, hr ▸ h.requests_nodup,
        by rw [hh]; exact h.links_lt, by rw [hh]; exact h.links_nodup⟩
    · refine ⟨hv ▸ List.nodup_cons.mpr ⟨hn, h.visited_nodup⟩, ?_, hh ▸ h.heap_nodup, ?_, ?_,
        by rw [hh]; exact h.links_lt, by rw [hh]; exact h.links_nodup⟩
      · rw [hh, hv]
        exact fun c hc => List.mem_cons_of_mem _ (h.heap_visited c hc)
      · rw [hv]
        rcases hr with hr | hr
        · rw [hr]
          exact fun r hr' => List.mem_cons_of_mem _ (h.requests_visited r hr')
        · rw [hr]
          intro r hr'
          rcases List.mem_append.mp hr' with hr' | hr'
          · exact List.mem_cons_of_mem _ (h.requests_visited r hr')
          · simp only [List.mem_singleton] at hr'
            exact hr' ▸ List.mem_cons_self _ _
      · rcases hr with hr | hr
        · exact hr ▸ h.requests_nodup
        · rw [hr]
          refine List.Nodup.append h.requests_nodup (List.nodup_singleton _) ?_
          intro r hr1 hr2
          simp only [List.mem_singleton] at hr2
          exact hn (hr2 ▸ h.requests_visited r hr1)
  · rw [crawl_of_succeeds hs]
    obtain ⟨-, hn, -⟩ := hs
    refine ⟨List.nodup_cons.mpr ⟨hn, h.visited_nodup⟩, ?_, ?_, ?_, ?_, ?_, ?_⟩
    · intro c hc
      simp only [crawled, List.mem_append, List.mem_singleton] at hc
      rcases hc with hc | hc
      · exact List.mem_cons_of_mem _ (h.heap_visited c hc)
      · exact hc ▸ List.mem_cons_self _ _
    · simp only [crawled, List.map_append, List.map_cons, List.map_nil]
      refine List.Nodup.append h.heap_nodup (List.nodup_singleton _) ?_
      intro r hr1 hr2
      simp only [List.mem_singleton] at hr2
      obtain ⟨c, hc, rfl⟩ := List.mem_map.mp hr1
      exact hn (hr2 ▸ h.heap_visited c hc)
    · intro r hr'
      simp only [crawled, List.mem_append, List.mem_singleton] at hr'
      rcases hr' with hr' | hr'
      · exact List.mem_cons_of_mem _ (h.requests_visited r hr')
      · exact hr' ▸ List.mem_cons_self _ _
    · refine List.Nodup.append h.requests_nodup (List.nodup_singleton _) ?_
      intro r hr1 hr2
      simp only [List.mem_singleton] at hr2
      exact hn (hr2 ▸ h.requests_visited r hr1)
    · intro c hc j hj
      simp only [crawled, List.mem_append, List.mem_singleton] at hc
      simp only [crawled, List.length_append, List.length_singleton]
      rcases hc with hc | hc
      · exact Nat.lt_succ_of_lt (h.links_lt c hc j hj)
      · subst hc
        simp at hj
    · intro c hc
      simp only [crawled, List.mem_append, List.mem_singleton] at hc
      rcases hc with hc | hc
      · exact h.links_nodup c hc
      · subst hc
        exact List.nodup_nil

theorem Dedup.runGoroutine {s : State} (h : Dedup s) (lib : URLLib) (w : World) (g : Goroutine) :
    Dedup (runGoroutine lib w g s) := by
  have hc := h.crawl lib w g.link 2 (g.depth + 1)
  unfold WebCrawler.runGoroutine
  rcases crawl_cases lib w g.link 2 (g.depth + 1) s with ⟨hn, -⟩ | ⟨body, hs⟩
  · revert hc hn
    generalize WebCrawler.crawl lib w g.link 2 (g.depth + 1) s = r
    rcases r with ⟨r1, r2⟩
    rintro hc rfl
    exact hc
  · rw [crawl_of_succeeds hs] at hc ⊢
    refine ⟨hc.visited_nodup, ?_, ?_, hc.requests_visited, hc.requests_nodup, ?_, ?_⟩
    · intro c hc'
      rcases mem_appendLink hc' with h' | ⟨c0, h0, rfl⟩
      · exact hc.heap_visited c h'
      · exact hc.heap_visited c0 h0
    · simp only [appendLink_map_URL]
      exact hc.heap_nodup
    · intro c hc' j hj
      simp only [appendLink_length]
      rcases mem_appendLink hc' with h' | ⟨c0, h0, rfl⟩
      · exact hc.links_lt c h' j hj
      · simp only [List.mem_append, List.mem_singleton] at hj
        rcases hj with hj | hj
        · exact hc.links_lt c0 h0 j hj
        · subst hj
          simp [crawled]
    · intro c hc'
      rcases mem_appendLink hc' with h' | ⟨c0, h0, rfl⟩
      · exact hc.links_nodup c h'
      · refine List.Nodup.append (hc.links_nodup c0 h0) (List.nodup_singleton _) ?_
        intro j hj1 hj2
        simp only [List.mem_singleton] at hj2
        subst hj2
        simp only [crawled, List.mem_append, List.mem_singleton] at h0
        rcases h0 with h0 | h0
        · exact absurd (h.links_lt c0 h0 _ hj1) (lt_irrefl _)
        · subst h0
          simp at hj1

theorem Dedup.step {lib : URLLib} {w : World} {s : State} (h : Dedup s) (i : Nat) :
    Dedup (step lib w i s) := by
  by_cases hg : s.goroutines = []
  · simp only [WebCrawler.step, hg]
    exact h
  · obtain ⟨g, rest, -, he⟩ := step_eq lib w i s hg
    rw [he]
    have h' : Dedup { s with goroutines := rest } := ⟨h.1, h.2, h.3, h.4, h.5, h.6, h.7⟩
    exact h'.runGoroutine lib w g

theorem Dedup.run {lib : URLLib} {w : World} (sched : List Nat) {s : State} (h : Dedup s) :
    Dedup (run lib w sched s) := by
  induction sched generalizing s with
  | nil => exact h
  | cons i sched ih => exact ih (h.step i)

theorem Dedup.crawlFrom (lib : URLLib) (w : World) (startURL : String) (maxDepth : Int)
    (sched : List Nat) : Dedup (crawlFrom lib w startURL maxDepth sched).2 :=
  Dedup.run sched (Dedup.init.crawl lib w startURL maxDepth 0)

/-- In a list without duplicate URLs, equal URLs sit at equal positions. -/
theorem index_eq_of_URL_eq {heap : List Sitemap} (h : (heap.map (fun c => c.URL)).Nodup)
    {i j : Nat} {ci cj : Sitemap} (hi : heap[i]? = some ci) (hj : heap[j]? = some cj)
    (he : ci.URL = cj.URL) : i = j := by
  induction heap generalizing i j with
  | nil => simp at hi
  | cons c cs ih =>
    simp only [List.map_cons, List.nodup_cons, List.mem_map, not_exists, not_and] at h
    cases i with
    | zero =>
      cases j with
      | zero => rfl
      | succ j =>
        simp only [List.getElem?_cons_zero, Option.some.injEq, List.getElem?_cons_succ] at hi hj
        exact absurd (hi ▸ he.symm) (h.1 cj (List.getElem?_mem hj))
    | succ i =>
      cases j with
      | zero =>
        simp only [List.getElem?_cons_zero, Option.some.injEq, List.getElem?_cons_succ] at hi hj
        exact absurd (hj ▸ he) (h.1 ci (List.getElem?_mem hi))
      | succ j =>
        simp only [List.getElem?_cons_succ] at hi hj
        rw [ih h.2 hi hj]

/-- No node has two children with the same URL. -/
theorem childURLs_nodup {s : State} (h : Dedup s) (i : Nat) : (childURLs s.heap i).Nodup := by
  unfold childURLs
  cases hc : s.heap[i]? with
  | none => exact List.nodup_nil
  | some c =>
    refine List.Nodup.filterMap ?_ (h.links_nodup c (List.getElem?_mem hc))
    intro a a' b hb hb'
    simp only [Option.mem_def, Option.map_eq_some'] at hb hb'
    obtain ⟨ca, hca, rfl⟩ := hb
    obtain ⟨ca', hca', he⟩ := hb'
    exact index_eq_of_URL_eq h.heap_nodup hca hca' he.symm

theorem cost_pos (lib : URLLib) (w : World) (k : Nat) (link : String) : 0 < cost lib w k link := by
  cases k <;> simp [cost]

theorem pendingWork_runGoroutine (lib : URLLib) (w : World) (g : Goroutine) (s : State) :
    pendingWork lib w (runGoroutine lib w g s) < weight lib w g + pendingWork lib w s := by
  unfold runGoroutine
  rcases crawl_cases lib w g.link 2 (g.depth + 1) s with ⟨hn, -, hg, -⟩ | ⟨body, hs⟩
  · revert hn hg
    generalize crawl lib w g.link 2 (g.depth + 1) s = r
    rcases r with ⟨r1, r2⟩
    rintro rfl hg
    simp only at hg
    simp only [pendingWork, hg]
    have := cost_pos lib w (2 - g.depth).toNat g.link
    unfold weight
    omega
  · rw [crawl_of_succeeds hs]
    obtain ⟨hd, -, -, -, resp, hdo, -, hb⟩ := hs
    obtain ⟨k, hk⟩ : ∃ k, (2 - g.depth).toNat = k + 1 := ⟨(2 - g.depth).toNat - 1, by omega⟩
    have hk' : (2 - (g.depth + 1)).toNat = k := by omega
    simp only [pendingWork, crawled, List.map_append, List.sum_append, List.map_map, weight, hk,
      cost, pageLinks, hdo, hb]
    have : (List.map (weight lib w ∘ fun absoluteLink =>
        ({ link := absoluteLink, depth := g.depth + 1, sitemap := s.heap.length } : Goroutine))
        (spawnLinks lib (normalizeURL lib g.link) body)) =
        List.map (cost lib w k) (spawnLinks lib (normalizeURL lib g.link) body) := by
      apply List.map_congr_left
      intro a _
      simp [weight, hk']
    rw [this]
    omega

theorem pendingWork_step (lib : URLLib) (w : World) (i : Nat) (s : State)
    (h : s.goroutines ≠ []) : pendingWork lib w (step lib w i s) < pendingWork lib w s := by
  obtain ⟨g, rest, hp, he⟩ := step_eq lib w i s h
  rw [he]
  have := pendingWork_runGoroutine lib w g { s with goroutines := rest }
  have hs : pendingWork lib w s = weight lib w g + pendingWork lib w { s with goroutines := rest } := by
    simp only [pendingWork]
    rw [← (hp.map (weight lib w)).sum_eq]
    simp
  omega

theorem goroutines_nil_of_pendingWork {lib : URLLib} {w : World} {s : State}
    (h : pendingWork lib w s = 0) : s.goroutines = [] := by
  cases hg : s.goroutines with
  | nil => rfl
  | cons g gs =>
    have := cost_pos lib w (2 - g.depth).toNat g.link
    simp only [pendingWork, hg, List.map_cons, List.sum_cons, weight] at h
    omega

theorem run_goroutines_nil (lib : URLLib) (w : World) (sched : List Nat) (s : State)
    (h : pendingWork lib w s ≤ sched.length) : (run lib w sched s).goroutines = [] := by
  induction sched generalizing s with
  | nil => exact goroutines_nil_of_pendingWork (Nat.le_zero.mp h)
  | cons i sched ih =>
    simp only [run]
    apply ih
    by_cases hg : s.goroutines = []
    · have : pendingWork lib w (step lib w i s) = 0 := by
        simp [step, hg, pendingWork]
      omega
    · have := pendingWork_step lib w i s hg
      simp only [List.length_cons] at h
      omega

/-- Every crawl invocation finishes: under every schedule that is long enough no
goroutine is left, so `wg.Wait()` returns. -/
theorem crawlFrom_terminates (lib : URLLib) (w : World) (startURL : String) (maxDepth : Int) :
    ∃ N, ∀ sched : List Nat, N ≤ sched.length →
      (crawlFrom lib w startURL maxDepth sched).2.goroutines = [] :=
  ⟨pendingWork lib w (crawl lib w startURL maxDepth 0 {}).2,
    fun sched h => run_goroutines_nil lib w sched _ h⟩

/-! ## The children of a node -/

theorem lt_of_getElem? {α : Type} {l : List α} {i : Nat} {a : α} (h : l[i]? = some a) :
    i < l.length := by
  obtain ⟨hlt, -⟩ := List.getElem?_eq_some_iff.mp h
  exact hlt

theorem mem_childURLs_iff (heap : List Sitemap) (i : Nat) (u : String) :
    u ∈ childURLs heap i ↔ IsChild heap i u := by
  unfold childURLs IsChild
  cases hc : heap[i]? with
  | none => simp
  | some c =>
    simp only [List.mem_filterMap, Option.map_eq_some', Option.some.injEq]
    constructor
    · rintro ⟨j, hj, cj, h1, h2⟩
      exact ⟨c, j, cj, rfl, hj, h1, h2⟩
    · rintro ⟨c', j, cj, rfl, hj, h1, h2⟩
      exact ⟨j, hj, cj, h1, h2⟩

theorem crawl_of_visited {lib : URLLib} {w : World} {startURL : String} {maxDepth depth : Int}
    {s : State} (h : normalizeURL lib startURL ∈ s.visited) :
    crawl lib w startURL maxDepth depth s = (none, s) := by
  unfold crawl
  simp [h]

theorem crawl_of_depth {lib : URLLib} {w : World} {startURL : String} {maxDepth depth : Int}
    {s : State} (h : maxDepth < depth) :
    crawl lib w startURL maxDepth depth s = (none, s) := by
  unfold crawl
  simp [h]

theorem isChild_append {heap : List Sitemap} {i : Nat} {u : String} (h : IsChild heap i u)
    (l : List Sitemap) : IsChild (heap ++ l) i u := by
  obtain ⟨c, j, cj, h1, h2, h3, h4⟩ := h
  refine ⟨c, j, cj, ?_, h2, ?_, h4⟩
  · rw [List.getElem?_append_left (lt_of_getElem? h1)]
    exact h1
  · rw [List.getElem?_append_left (lt_of_getElem? h3)]
    exact h3

theorem isChild_of_append {heap : List Sitemap} {i : Nat} {u : String} {l : List Sitemap}
    (hl : ∀ c ∈ heap, ∀ j ∈ c.Links, j < heap.length) (hi : i < heap.length)
    (h : IsChild (heap ++ l) i u) : IsChild heap i u := by
  obtain ⟨c, j, cj, h1, h2, h3, h4⟩ := h
  rw [List.getElem?_append_left hi] at h1
  rw [List.getElem?_append_left (hl c (List.getElem?_mem h1) j h2)] at h3
  exact ⟨c, j, cj, h1, h2, h3, h4⟩

theorem isChild_appendLink {heap : List Sitemap} {i : Nat} {u : String} (h : IsChild heap i u)
    (p child : Nat) : IsChild (appendLink heap p child) i u := by
  obtain ⟨c, j, cj, h1, h2, h3, h4⟩ := h
  refine ⟨_, j, _, by rw [appendLink_get?, h1]; rfl, ?_, by rw [appendLink_get?, h3]; rfl, ?_⟩
  · by_cases hp : i = p
    · simp [hp, h2]
    · simp [hp, h2]
  · by_cases hp : j = p
    · simp [hp, h4]
    · simp [hp, h4]

theorem isChild_of_appendLink {heap : List Sitemap} {i p child : Nat} {u : String}
    (h : IsChild (appendLink heap p child) i u) :
    IsChild heap i u ∨ (i = p ∧ ∃ cj, heap[child]? = some cj ∧ cj.URL = u) := by
  obtain ⟨c, j, cj, h1, h2, h3, h4⟩ := h
  rw [appendLink_get?] at h1 h3
  simp only [Option.map_eq_some'] at h1 h3
  obtain ⟨c', hc', rfl⟩ := h1
  obtain ⟨cj', hcj', rfl⟩ := h3
  have hu : cj'.URL = u := by
    by_cases hp : j = p
    · simpa [hp] using h4
    · simpa [hp] using h4
  by_cases hp : i = p
  · simp only [hp, if_true, List.mem_append, List.mem_singleton] at h2
    rcases h2 with h2 | h2
    · exact Or.inl ⟨c', j, cj', hp ▸ hc', h2, hcj', hu⟩
    · exact Or.inr ⟨hp, cj', h2 ▸ hcj', hu⟩
  · simp only [hp, if_false] at h2
    exact Or.inl ⟨c', j, cj', hc', h2, hcj', hu⟩

theorem isChild_appendLink_new {heap : List Sitemap} {p child : Nat} {c cj : Sitemap}
    (hp : heap[p]? = some c) (hc : heap[child]? = some cj) :
    IsChild (appendLink heap p child) p cj.URL := by
  refine ⟨_, child, _, by rw [appendLink_get?, hp]; rfl, ?_, by rw [appendLink_get?, hc]; rfl, ?_⟩
  · simp
  · by_cases h : child = p
    · simp [h]
    · simp [h]

theorem mem_rest_of_perm {g g' : Goroutine} {rest l : List Goroutine}
    (hp : (g :: rest).Perm l) (h : g' ∈ l) (hne : g' ≠ g) : g' ∈ rest := by
  rcases List.mem_cons.mp (hp.symm.subset h) with h | h
  · exact absurd h hne
  · exact h

/-- The invariant survives a goroutine that returns nil. -/
theorem nodeInv_of_fail {lib : URLLib} {w : World} {C : List String} {F : Nat} {d : Int}
    {s t : State} {g : Goroutine}
    {rest : List Goroutine} (h : NodeInv lib w C F d s) (hp : (g :: rest).Perm s.goroutines)
    (hd : Dedup t) (hh : t.heap = s.heap) (hg : t.goroutines = rest)
    (hv : ∀ c ∈ C, c ∉ s.visited → c ∉ t.visited)
    (hne : ∀ c ∈ C, c ∉ s.visited →
      ¬(g.sitemap = F ∧ g.depth = d ∧ normalizeURL lib g.link = c)) :
    NodeInv lib w C F d t := by
  refine ⟨hd, hh ▸ h.pos, ?_, hh ▸ h.child_mem, ?_⟩
  · intro c hc
    rcases h.pending_or_child c hc with ⟨h1, g', hg', h2⟩ | h1
    · refine Or.inl ⟨hv c hc h1, g', ?_, h2⟩
      rw [hg]
      refine mem_rest_of_perm hp hg' ?_
      rintro rfl
      exact hne c hc h1 h2
    · exact Or.inr (hh ▸ h1)
  · intro g' hg'
    rw [hg] at hg'
    exact h.kinds g' (hp.subset (List.mem_cons_of_mem _ hg'))

/-- The invariant survives a goroutine whose call of `crawl` returns a node. -/
theorem nodeInv_of_success {lib : URLLib} {w : World} {C : List String} {F : Nat} {d : Int}
    {s : State} {g : Goroutine}
    {rest : List Goroutine} {body : List Token} (h : NodeInv lib w C F d s)
    (hp : (g :: rest).Perm s.goroutines)
    (hkind : (g.sitemap = F ∧ normalizeURL lib g.link ∈ C) ∨
      (g.sitemap ≠ F ∧ normalizeURL lib g.link ∉ C))
    (hnew : ∀ a ∈ spawnLinks lib (normalizeURL lib g.link) body,
      Harmless lib w C { link := a, depth := g.depth + 1, sitemap := s.heap.length })
    (hd : Dedup { crawled lib (normalizeURL lib g.link) (g.depth + 1) body
        { s with goroutines := rest } with
      heap := appendLink (s.heap ++ [{ URL := normalizeURL lib g.link, Links := [] }])
        g.sitemap s.heap.length }) :
    NodeInv lib w C F d { crawled lib (normalizeURL lib g.link) (g.depth + 1) body
        { s with goroutines := rest } with
      heap := appendLink (s.heap ++ [{ URL := normalizeURL lib g.link, Links := [] }])
        g.sitemap s.heap.length } := by
  have hpos := h.pos
  refine ⟨hd, ?_, ?_, ?_, ?_⟩
  · simp only [appendLink_length, List.length_append, List.length_singleton]
    omega
  · intro c hc
    by_cases hcn : c = normalizeURL lib g.link
    · rcases hkind with ⟨h0, -⟩ | ⟨-, hn⟩
      · right
        obtain ⟨c0, hc0⟩ : ∃ c0, s.heap[F]? = some c0 :=
          ⟨s.heap[F], List.getElem?_eq_getElem hpos⟩
        have h1 : (s.heap ++ [{ URL := normalizeURL lib g.link, Links := [] }])[g.sitemap]? =
            some c0 := by
          rw [h0, List.getElem?_append_left hpos]
          exact hc0
        have := isChild_appendLink_new h1
          (List.getElem?_concat_length s.heap { URL := normalizeURL lib g.link, Links := [] })
        rw [h0] at this
        rw [hcn, h0]
        exact this
      · exact absurd (hcn ▸ hc) hn
    · rcases h.pending_or_child c hc with ⟨h1, g', hg', h2⟩ | h1
      · refine Or.inl ⟨?_, g', ?_, h2⟩
        · simp only [crawled, List.mem_cons, not_or]
          exact ⟨hcn, h1⟩
        · simp only [crawled, List.mem_append]
          refine Or.inl (mem_rest_of_perm hp hg' ?_)
          rintro rfl
          exact hcn h2.2.2.symm
      · exact Or.inr (isChild_appendLink (isChild_append h1 _) _ _)
  · intro u hu
    rcases isChild_of_appendLink hu with hu | ⟨h0, cj, hcj, rfl⟩
    · exact h.child_mem u (isChild_of_append h.dedup.links_lt hpos hu)
    · rw [List.getElem?_concat_length] at hcj
      rcases hkind with ⟨-, hn⟩ | ⟨hs, -⟩
      · simp only [Option.some.injEq] at hcj
        rw [← hcj]
        exact hn
      · exact absurd h0.symm hs
  · intro g' hg'
    simp only [crawled, List.mem_append, List.mem_map] at hg'
    rcases hg' with hg' | ⟨a, ha, rfl⟩
    · exact h.kinds g' (hp.subset (List.mem_cons_of_mem _ hg'))
    · right
      exact ⟨by simp only; omega, hnew a ha⟩

theorem nodeInv_runGoroutine {lib : URLLib} {w : World} {C : List String} {F : Nat} {d : Int}
    {s : State} {g : Goroutine} {rest : List Goroutine}
    (hlow : 0 ≤ d) (hbound : d < 2)
    (hallowed : ∀ c ∈ C, isAllowedByRobots w (getDomain lib c) c = true)
    (hparse : ∀ c ∈ C, (lib.Parse c).isSome = true)
    (hfetch : ∀ c ∈ C, (w.Do c).map (fun r => r.StatusCode) = some StatusOK)
    (hapart : d = 0 → ∀ c ∈ C, ∀ l ∈ pageLinks lib w c, normalizeURL lib l ∉ C)
    (h : NodeInv lib w C F d s) (hp : (g :: rest).Perm s.goroutines) :
    NodeInv lib w C F d (runGoroutine lib w g { s with goroutines := rest }) := by
  have hd' : Dedup { s with goroutines := rest } :=
    ⟨h.dedup.1, h.dedup.2, h.dedup.3, h.dedup.4, h.dedup.5, h.dedup.6, h.dedup.7⟩
  have hdr := hd'.runGoroutine lib w g
  have hgm : g ∈ s.goroutines := hp.subset (List.mem_cons_self _ _)
  rcases h.kinds g hgm with ⟨hs0, hd0, hC⟩ | ⟨hs1, hharm⟩
  · by_cases hv : normalizeURL lib g.link ∈ s.visited
    · have e : runGoroutine lib w g { s with goroutines := rest } =
          { s with goroutines := rest } := by
        unfold runGoroutine
        rw [crawl_of_visited (s := { s with goroutines := rest }) hv]
      rw [e]
      exact nodeInv_of_fail h hp hd' rfl rfl (fun _ _ hc => hc)
        (fun c _ hcv hn => hcv (hn.2.2 ▸ hv))
    · have hf := hfetch _ hC
      have hq := hparse _ hC
      cases hdo : w.Do (normalizeURL lib g.link) with
      | none => simp [hdo] at hf
      | some resp =>
        cases hpa : lib.Parse (normalizeURL lib g.link) with
        | none => simp [hpa] at hq
        | some v =>
          have hst : resp.StatusCode = StatusOK := by simpa [hdo] using hf
          have hs : Succeeds lib w g.link 2 (g.depth + 1) { s with goroutines := rest }
              resp.Body :=
            ⟨by omega, hv, hallowed _ hC, ⟨v, hpa⟩, resp, hdo, hst, rfl⟩
          have e : runGoroutine lib w g { s with goroutines := rest } =
              { crawled lib (normalizeURL lib g.link) (g.depth + 1) resp.Body
                  { s with goroutines := rest } with
                heap := appendLink
                  (s.heap ++ [{ URL := normalizeURL lib g.link, Links := [] }])
                  g.sitemap s.heap.length } := by
            unfold runGoroutine
            rw [crawl_of_succeeds hs]
            rfl
          rw [e] at hdr ⊢
          refine nodeInv_of_success h hp (Or.inl ⟨hs0, hC⟩) ?_ hdr
          intro a ha
          by_cases hz : d = 0
          · refine Or.inr ⟨by simp only; omega, hapart hz _ hC a ?_, ?_⟩
            · simpa [pageLinks, hdo] using ha
            · intro h1
              simp only at h1
              omega
          · exact Or.inl (by simp only; omega)
  · by_cases h2 : 2 ≤ g.depth
    · have e : runGoroutine lib w g { s with goroutines := rest } =
          { s with goroutines := rest } := by
        unfold runGoroutine
        rw [crawl_of_depth (by omega)]
      rw [e]
      exact nodeInv_of_fail h hp hd' rfl rfl (fun _ _ hc => hc)
        (fun c _ _ hn => hs1 hn.1)
    · obtain ⟨h0, hn, hkids⟩ := hharm.resolve_left h2
      rcases crawl_cases lib w g.link 2 (g.depth + 1) { s with goroutines := rest } with
        ⟨hnone, hh, hg, hvis⟩ | ⟨body, hs⟩
      · have e : runGoroutine lib w g { s with goroutines := rest } =
            (crawl lib w g.link 2 (g.depth + 1) { s with goroutines := rest }).2 := by
          unfold runGoroutine
          revert hnone
          generalize crawl lib w g.link 2 (g.depth + 1) { s with goroutines := rest } = r
          rcases r with ⟨r1, r2⟩
          rintro rfl
          rfl
        rw [e] at hdr ⊢
        refine nodeInv_of_fail h hp hdr hh hg ?_ (fun c _ _ hc => hs1 hc.1)
        intro c hc hcv
        rcases hvis with ⟨hvis, -⟩ | ⟨-, hvis, -⟩
        · rw [hvis]
          exact hcv
        · rw [hvis]
          simp only [List.mem_cons, not_or]
          exact ⟨fun hcn => hn (hcn ▸ hc), hcv⟩
      · have e : runGoroutine lib w g { s with goroutines := rest } =
            { crawled lib (normalizeURL lib g.link) (g.depth + 1) body
                { s with goroutines := rest } with
              heap := appendLink
                (s.heap ++ [{ URL := normalizeURL lib g.link, Links := [] }])
                g.sitemap s.heap.length } := by
          unfold runGoroutine
          rw [crawl_of_succeeds hs]
          rfl
        rw [e] at hdr ⊢
        refine nodeInv_of_success h hp (Or.inr ⟨hs1, hn⟩) ?_ hdr
        intro a ha
        by_cases hz : g.depth = 0
        · obtain ⟨-, -, -, -, resp, hdo, -, hbody⟩ := hs
          refine Or.inr ⟨by simp only; omega, hkids hz a ?_, ?_⟩
          · simpa [pageLinks, hdo, hbody] using ha
          · intro h1
            simp only at h1
            omega
        · exact Or.inl (by simp only; omega)

theorem nodeInv_run {lib : URLLib} {w : World} {C : List String} {F : Nat} {d : Int}
    (hlow : 0 ≤ d) (hbound : d < 2)
    (hallowed : ∀ c ∈ C, isAllowedByRobots w (getDomain lib c) c = true)
    (hparse : ∀ c ∈ C, (lib.Parse c).isSome = true)
    (hfetch : ∀ c ∈ C, (w.Do c).map (fun r => r.StatusCode) = some StatusOK)
    (hapart : d = 0 → ∀ c ∈ C, ∀ l ∈ pageLinks lib w c, normalizeURL lib l ∉ C)
    (sched : List Nat) {s : State} (h : NodeInv lib w C F d s) :
    NodeInv lib w C F d (run lib w sched s) := by
  induction sched generalizing s with
  | nil => exact h
  | cons i sched ih =>
    apply ih
    by_cases hg : s.goroutines = []
    · simp only [step, hg]
      exact h
    · obtain ⟨g, rest, hp, he⟩ := step_eq lib w i s hg
      rw [he]
      exact nodeInv_runGoroutine hlow hbound hallowed hparse hfetch hapart h hp

/-- The invariant holds right after the call that made the node: the node is the
last of the heap and has no children, its page's links are pending, and the
goroutines that were pending before are harmless. -/
theorem nodeInv_base {lib : URLLib} {w : World} {s0 s1 : State} {f : String} {d : Int}
    {body : List Token} (hd : Dedup s1)
    (hvis : s1.visited = f :: s0.visited)
    (hgor : s1.goroutines = s0.goroutines ++ (spawnLinks lib f body).map
      (fun absoluteLink => { link := absoluteLink, depth := d, sitemap := s0.heap.length }))
    (hlen : s1.heap.length = s0.heap.length + 1)
    (hnode : s1.heap[s0.heap.length]? = some { URL := f, Links := [] })
    (hne : ∀ c ∈ (spawnLinks lib f body).map (normalizeURL lib), c ≠ f ∧ c ∉ s0.visited)
    (hothers : ∀ g ∈ s0.goroutines, g.sitemap < s0.heap.length ∧
      Harmless lib w ((spawnLinks lib f body).map (normalizeURL lib)) g) :
    NodeInv lib w ((spawnLinks lib f body).map (normalizeURL lib)) s0.heap.length d s1 := by
  refine ⟨hd, by omega, ?_, ?_, ?_⟩
  · intro c hc
    left
    refine ⟨?_, ?_⟩
    · rw [hvis]
      simp only [List.mem_cons, not_or]
      exact hne c hc
    · obtain ⟨l, hl, rfl⟩ := List.mem_map.mp hc
      refine ⟨{ link := l, depth := d, sitemap := s0.heap.length }, ?_, rfl, rfl, rfl⟩
      rw [hgor]
      exact List.mem_append_right _ (List.mem_map.mpr ⟨l, hl, rfl⟩)
  · rintro u ⟨c, j, cj, h1, h2, -, -⟩
    rw [hnode] at h1
    simp only [Option.some.injEq] at h1
    subst h1
    simp at h2
  · intro g hg
    rw [hgor] at hg
    rcases List.mem_append.mp hg with hg | hg
    · exact Or.inr ⟨by have := (hothers g hg).1; omega, (hothers g hg).2⟩
    · obtain ⟨l, hl, rfl⟩ := List.mem_map.mp hg
      exact Or.inl ⟨rfl, rfl, List.mem_map.mpr ⟨l, hl, rfl⟩⟩

/-- The URLs of the nodes already in the heap stay where they are. -/
theorem heapURL_run (lib : URLLib) (w : World) (sched : List Nat) (s : State) (i : Nat)
    (u : String) (h : (s.heap[i]?).map (fun c => c.URL) = some u) :
    ((run lib w sched s).heap[i]?).map (fun c => c.URL) = some u := by
  induction sched generalizing s with
  | nil => exact h
  | cons k sched ih =>
    apply ih
    have hrun : ∀ (g : Goroutine) (t : State), (t.heap[i]?).map (fun c => c.URL) = some u →
        ((runGoroutine lib w g t).heap[i]?).map (fun c => c.URL) = some u := by
      intro g t ht
      have hi : i < t.heap.length := by
        cases hc : t.heap[i]? with
        | none => simp [hc] at ht
        | some c => exact lt_of_getElem? hc
      unfold runGoroutine
      rcases crawl_cases lib w g.link 2 (g.depth + 1) t with ⟨hn, hh, -, -⟩ | ⟨body, hs⟩
      · revert hn hh
        generalize crawl lib w g.link 2 (g.depth + 1) t = r
        rcases r with ⟨r1, r2⟩
        rintro rfl hh
        simp only at hh ⊢
        rw [hh]
        exact ht
      · rw [crawl_of_succeeds hs]
        simp only [crawled, appendLink_get?, Option.map_map]
        rw [List.getElem?_append_left hi]
        cases hc : t.heap[i]? with
        | none => simp [hc] at ht
        | some c =>
          rw [hc] at ht
          simp only [Option.map_some', Option.some.injEq] at ht
          by_cases hp : i = g.sitemap
          · simp [hp, ht]
          · simp [hp, ht]
    by_cases hg : s.goroutines = []
    · simp only [step, hg]
      exact h
    · obtain ⟨g, rest, -, he⟩ := step_eq lib w k s hg
      rw [he]
      exact hrun g _ h

/-- When every goroutine appends right after its child call, the children are
exact. Take any call of `crawl` that fetches its page successfully below the
depth bound: the top-level call, or the call made by a goroutine for a link, in
any state `s0` of the crawl; `s1` is the state it leaves. Let `kidURLs` be the
canonical URLs of the page's hrefs that resolve, against the page URL, to a
non-empty URL on the page's hostname. If each of them is robots-allowed, parses,
is fetched with status 200 and is not yet visited (it is not marked visited, it
is not the page itself, and no other pending goroutine and no page one level
down leads to it), then the call returns a new node, every long enough schedule
completes, and in every completed run the node carries the canonical URL of the
page and its children are exactly the distinct `kidURLs`, each once and nothing
else. -/
theorem children_exact_atomic (lib : URLLib) (w : World) (s0 s1 : State) (link : String)
    (maxDepth depth : Int) (hs0 : Dedup s0)
    (hcall : s1 = (crawl lib w link maxDepth depth s0).2 ∨
      ∃ g : Goroutine, g.link = link ∧ g.depth + 1 = depth ∧ maxDepth = 2 ∧
        g.sitemap < s0.heap.length ∧ s1 = runGoroutine lib w g s0)
    (hlow : 0 ≤ depth) (hdepth : depth < maxDepth) (hbound : depth < 2)
    (hnew0 : normalizeURL lib link ∉ s0.visited)
    (hallowed0 : isAllowedByRobots w (getDomain lib (normalizeURL lib link))
      (normalizeURL lib link) = true)
    (hparse0 : (lib.Parse (normalizeURL lib link)).isSome = true)
    (hfetch0 : (w.Do (normalizeURL lib link)).map (fun r => r.StatusCode) = some StatusOK)
    (hne : ∀ c ∈ kidURLs lib w (normalizeURL lib link),
      c ≠ normalizeURL lib link ∧ c ∉ s0.visited)
    (hallowed : ∀ c ∈ kidURLs lib w (normalizeURL lib link),
      isAllowedByRobots w (getDomain lib c) c = true)
    (hparse : ∀ c ∈ kidURLs lib w (normalizeURL lib link), (lib.Parse c).isSome = true)
    (hfetch : ∀ c ∈ kidURLs lib w (normalizeURL lib link),
      (w.Do c).map (fun r => r.StatusCode) = some StatusOK)
    (hapart : depth = 0 → ∀ c ∈ kidURLs lib w (normalizeURL lib link),
      ∀ l ∈ pageLinks lib w c, normalizeURL lib l ∉ kidURLs lib w (normalizeURL lib link))
    (hothers : ∀ g ∈ s0.goroutines, g.sitemap < s0.heap.length ∧
      Harmless lib w (kidURLs lib w (normalizeURL lib link)) g) :
    (crawl lib w link maxDepth depth s0).1 = some s0.heap.length ∧
    (∃ N, ∀ sched : List Nat, N ≤ sched.length → (run lib w sched s1).goroutines = []) ∧
    ∀ sched : List Nat, (run lib w sched s1).goroutines = [] →
      ((run lib w sched s1).heap[s0.heap.length]?).map (fun c => c.URL) =
        some (normalizeURL lib link) ∧
      (childURLs (run lib w sched s1).heap s0.heap.length).Perm
        (kidURLs lib w (normalizeURL lib link)).dedup := by
  cases hdo : w.Do (normalizeURL lib link) with
  | none => simp [hdo] at hfetch0
  | some resp =>
    cases hpa : lib.Parse (normalizeURL lib link) with
    | none => simp [hpa] at hparse0
    | some v =>
      have hst : resp.StatusCode = StatusOK := by simpa [hdo] using hfetch0
      have hs : Succeeds lib w link maxDepth depth s0 resp.Body :=
        ⟨le_of_lt hdepth, hnew0, hallowed0, ⟨v, hpa⟩, resp, hdo, hst, rfl⟩
      have hcr := crawl_of_succeeds hs
      have hk : kidURLs lib w (normalizeURL lib link) =
          (spawnLinks lib (normalizeURL lib link) resp.Body).map (normalizeURL lib) := by
        simp [kidURLs, pageLinks, hdo]
      rw [hk] at hne hallowed hparse hfetch hapart hothers ⊢
      have hbase : NodeInv lib w
          ((spawnLinks lib (normalizeURL lib link) resp.Body).map (normalizeURL lib))
          s0.heap.length depth s1 := by
        rcases hcall with rfl | ⟨g, rfl, rfl, rfl, hg, rfl⟩
        · have hd := hs0.crawl lib w link maxDepth depth
          rw [hcr] at hd ⊢
          exact nodeInv_base hd rfl rfl (by simp [crawled]) (by simp [crawled]) hne hothers
        · have hd := hs0.runGoroutine lib w g
          have e : runGoroutine lib w g s0 =
              { crawled lib (normalizeURL lib g.link) (g.depth + 1) resp.Body s0 with
                heap := appendLink
                  (s0.heap ++ [{ URL := normalizeURL lib g.link, Links := [] }])
                  g.sitemap s0.heap.length } := by
            unfold runGoroutine
            rw [hcr]
            rfl
          rw [e] at hd ⊢
          refine nodeInv_base hd rfl rfl (by simp [appendLink_length]) ?_ hne hothers
          simp only [appendLink_get?, List.getElem?_concat_length, Option.map_some',
            Option.some.injEq]
          rw [if_neg (by omega)]
      refine ⟨by rw [hcr], ⟨pendingWork lib w s1, fun sched h => run_goroutines_nil lib w sched _ h⟩,
        ?_⟩
      intro sched hdone
      have hinv := nodeInv_run hlow hbound hallowed hparse hfetch hapart sched hbase
      have hurl : (s1.heap[s0.heap.length]?).map (fun c => c.URL) =
          some (normalizeURL lib link) := by
        have hi : s0.heap.length < s1.heap.length := hbase.pos
        cases hc : s1.heap[s0.heap.length]? with
        | none =>
          rw [List.getElem?_eq_none_iff] at hc
          omega
        | some c =>
          rcases hcall with rfl | ⟨g, rfl, rfl, rfl, hg, rfl⟩
          · rw [hcr] at hc
            simp only [crawled, List.getElem?_concat_length, Option.some.injEq] at hc
            rw [← hc]
            rfl
          · unfold runGoroutine at hc
            rw [hcr] at hc
            simp only [crawled, appendLink_get?, List.getElem?_concat_length, Option.map_some',
              Option.some.injEq] at hc
            rw [← hc]
            by_cases hp : s0.heap.length = g.sitemap
            · simp [hp]
            · simp [hp]
      refine ⟨heapURL_run lib w sched _ _ _ hurl, ?_⟩
      refine (List.perm_ext_iff_of_nodup (childURLs_nodup hinv.dedup _)
        (List.nodup_dedup _)).mpr ?_
      intro u
      rw [mem_childURLs_iff, List.mem_dedup]
      constructor
      · exact hinv.child_mem u
      · intro hu
        rcases hinv.pending_or_child u hu with ⟨-, g, hg, -⟩ | h1
        · rw [hdone] at hg
          simp at hg
        · exact h1

set_option maxRecDepth 1000000 in
/-- Two instances of `children_exact_atomic`. The example of the specification: the page at
`http://example.com` links to `http://example.com/a`, `/b` and
`http://other.com/x`, and the root gets exactly the children
`http://example.com/a` and `http://example.com/b`. And a page one level down: on
the site `deepWorld` the goroutine for `http://example.com/a` makes the node 1,
which gets exactly the children `http://example.com/c` and
`http://example.com/d`. -/
theorem children_exact_atomic_example :
    (kidURLs goURL exampleWorld (normalizeURL goURL "http://example.com") =
      ["http://example.com/a", "http://example.com/b"] ∧
    (crawlFrom goURL exampleWorld "http://example.com" 2 [0, 0]).1 = some 0 ∧
    ((crawlFrom goURL exampleWorld "http://example.com" 2 [0, 0]).2.heap[0]?).map
      (fun c => c.URL) = some (normalizeURL goURL "http://example.com") ∧
    (childURLs (crawlFrom goURL exampleWorld "http://example.com" 2 [0, 0]).2.heap 0).Perm
      (kidURLs goURL exampleWorld (normalizeURL goURL "http://example.com")).dedup) ∧
    (kidURLs goURL deepWorld (normalizeURL goURL "http://example.com/a") =
      ["http://example.com/c", "http://example.com/d"] ∧
    ((crawlFrom goURL deepWorld "http://example.com" 2 [0, 0, 0]).2.heap[1]?).map
      (fun c => c.URL) = some (normalizeURL goURL "http://example.com/a") ∧
    (childURLs (crawlFrom goURL deepWorld "http://example.com" 2 [0, 0, 0]).2.heap 1).Perm
      (kidURLs goURL deepWorld (normalizeURL goURL "http://example.com/a")).dedup) :=
  have h := children_exact_atomic goURL exampleWorld {}
    (crawl goURL exampleWorld "http://example.com" 2 0 {}).2 "http://example.com" 2 0
    Dedup.init (Or.inl rfl) (by decide) (by decide) (by decide) (by decide) (by decide)
    (by decide) (by decide) (by decide) (by decide) (by decide) (by decide) (by decide)
    (fun g hg => absurd hg (List.not_mem_nil g))
  have hd := Dedup.init.crawl goURL deepWorld "http://example.com" 2 0
  have h1 := children_exact_atomic goURL deepWorld
    { (crawl goURL deepWorld "http://example.com" 2 0 {}).2 with goroutines := [] }
    (runGoroutine goURL deepWorld { link := "http://example.com/a", depth := 0, sitemap := 0 }
      { (crawl goURL deepWorld "http://example.com" 2 0 {}).2 with goroutines := [] })
    "http://example.com/a" 2 1
    ⟨hd.1, hd.2, hd.3, hd.4, hd.5, hd.6, hd.7⟩
    (Or.inr ⟨{ link := "http://example.com/a", depth := 0, sitemap := 0 },
      rfl, rfl, rfl, by decide, rfl⟩)
    (by decide) (by decide) (by decide) (by decide) (by decide)
    (by decide) (by decide) (by decide) (by decide) (by decide) (by decide) (by decide)
    (fun g hg => absurd hg (List.not_mem_nil g))
  ⟨⟨by decide, h.1, h.2.2 [0, 0] (by decide)⟩, by decide, h1.2.2 [0, 0] (by decide)⟩

/-! ## Domain scoping -/

set_option maxRecDepth 1000000 in
/-- C2 at `maxDepth = 0`: the page at `http://example.com` has links, and the
tree that `crawl(startURL, 0, 0)` builds has the two children at distance 1 from
the root, beyond the bound 0, because the children run under the bound 2. -/
theorem maxDepth_zero_has_children :
    (crawlFrom goURL exampleWorld "http://example.com" 0 [0, 0]).1 = some 0 ∧
    (crawlFrom goURL exampleWorld "http://example.com" 0 [0, 0]).2.goroutines = [] ∧
    childURLs (crawlFrom goURL exampleWorld "http://example.com" 0 [0, 0]).2.heap 0 =
      ["http://example.com/a", "http://example.com/b"] ∧
    InTree (crawlFrom goURL exampleWorld "http://example.com" 0 [0, 0]).2.heap 0 1 1 ∧
    ¬ ((1 : Int) ≤ 0) := by
  refine ⟨by decide, by decide, by decide, ?_, by decide⟩
  exact InTree.link (c := { URL := "http://example.com", Links := [1, 2] }) InTree.root
    (by decide) (by decide)

theorem crawl_marks {lib : URLLib} {w : World} {startURL : String} {maxDepth depth : Int}
    {s : State} (h : depth ≤ maxDepth) :
    normalizeURL lib startURL ∈ (crawl lib w startURL maxDepth depth s).2.visited := by
  by_cases hv : normalizeURL lib startURL ∈ s.visited
  · rw [crawl_of_visited hv]
    exact hv
  · rcases crawl_cases lib w startURL maxDepth depth s with ⟨-, -, -, hvis⟩ | ⟨body, hs⟩
    · rcases hvis with ⟨hvis, -⟩ | ⟨-, hvis, -⟩
      · exfalso
        revert hvis
        unfold crawl
        simp only [not_lt.mpr h, hv, if_false]
        intro hvis
        have hm : normalizeURL lib startURL ∈ s.visited := by
          rw [← hvis]
          split
          · exact List.mem_cons_self _ _
          · split
            · exact List.mem_cons_self _ _
            · split
              · exact List.mem_cons_self _ _
              · split
                · exact List.mem_cons_self _ _
                · exact List.mem_cons_self _ _
        exact hv hm
      · rw [hvis]
        exact List.mem_cons_self _ _
    · rw [crawl_of_succeeds hs]
      exact List.mem_cons_self _ _

theorem visited_run (lib : URLLib) (w : World) (sched : List Nat) (s : State) (x : String)
    (h : x ∈ s.visited) : x ∈ (run lib w sched s).visited := by
  induction sched generalizing s with
  | nil => exact h
  | cons i sched ih =>
    apply ih
    have hrun : ∀ (g : Goroutine) (t : State), x ∈ t.visited →
        x ∈ (runGoroutine lib w g t).visited := by
      intro g t ht
      unfold runGoroutine
      rcases crawl_cases lib w g.link 2 (g.depth + 1) t with ⟨hn, -, -, hvis⟩ | ⟨body, hs⟩
      · revert hn hvis
        generalize crawl lib w g.link 2 (g.depth + 1) t = r
        rcases r with ⟨r1, r2⟩
        rintro rfl hvis
        simp only at hvis ⊢
        rcases hvis with ⟨hvis, -⟩ | ⟨-, hvis, -⟩
        · rw [hvis]
          exact ht
        · rw [hvis]
          exact List.mem_cons_of_mem _ ht
      · rw [crawl_of_succeeds hs]
        exact List.mem_cons_of_mem _ ht
    by_cases hg : s.goroutines = []
    · simp only [step, hg]
      exact h
    · obtain ⟨g, rest, -, he⟩ := step_eq lib w i s hg
      rw [he]
      exact hrun g _ h

/-- C4 on the code: `visited` is a package-level map that `handler` never
resets. Whatever the web, the schedules and the state of the process, a second
request for the same URL finds its canonical URL visited and answers `null`. -/
theorem handler_second_invocation (lib : URLLib) (w : World) (startURL : String)
    (sched1 sched2 : List Nat) (s : State) (h : startURL ≠ "") :
    (handler lib w startURL sched2 (handler lib w startURL sched1 s).2).1 = Reply.json none := by
  simp only [handler, h, if_false]
  rw [crawl_of_visited]
  exact visited_run lib w sched1 _ _ (crawl_marks (by decide))

set_option maxRecDepth 1000000 in
/-- Witness for C4 on the example site: the first request on a fresh process
answers the tree with root 0, the second request for the same URL answers
`null`. -/
theorem handler_second_invocation_witness :
    (handler goURL exampleWorld "http://example.com" [0, 0] {}).1 = Reply.json (some 0) ∧
    (handler goURL exampleWorld "http://example.com" [0, 0]
      (handler goURL exampleWorld "http://example.com" [0, 0] {}).2).1 = Reply.json none :=
  ⟨by decide,
   handler_second_invocation goURL exampleWorld "http://example.com" [0, 0] [0, 0] {}
    (by decide)⟩

/-! ## The depth bound the code keeps -/

theorem levels_runGoroutine (lib : URLLib) (w : World) {bound : Int} (hb : 2 ≤ bound)
    {dep : Nat → Int} {s : State} {g : Goroutine} {rest : List Goroutine}
    (h : Levels bound dep s) (hp : (g :: rest).Perm s.goroutines) :
    ∃ dep', Levels bound dep' (runGoroutine lib w g { s with goroutines := rest }) := by
  have hg := h.goroutines g (hp.subset (List.mem_cons_self _ _))
  have hrest : ∀ g' ∈ rest, g'.sitemap < s.heap.length ∧ dep g'.sitemap = g'.depth :=
    fun g' hg' => h.goroutines g' (hp.subset (List.mem_cons_of_mem _ hg'))
  unfold runGoroutine
  rcases crawl_cases lib w g.link 2 (g.depth + 1) { s with goroutines := rest } with
    ⟨hn, hh, hgo, -⟩ | ⟨body, hs⟩
  · revert hn hh hgo
    generalize crawl lib w g.link 2 (g.depth + 1) { s with goroutines := rest } = r
    rcases r with ⟨r1, r2⟩
    rintro rfl hh hgo
    simp only at hh hgo ⊢
    exact ⟨dep, h.root, hh ▸ h.links, by rw [hgo, hh]; exact hrest, hh ▸ h.le⟩
  · rw [crawl_of_succeeds hs]
    obtain ⟨hd, -⟩ := hs
    refine ⟨(fun k => if k = s.heap.length then g.depth + 1 else dep k), ?_, ?_, ?_, ?_⟩
    · have : (0 : Nat) ≠ s.heap.length := by omega
      simp only [this, if_false]
      exact h.root
    · intro i c hc j hj
      simp only [appendLink_length, crawled, List.length_append, List.length_singleton]
      rw [appendLink_get?] at hc
      simp only [crawled, Option.map_eq_some'] at hc
      obtain ⟨c0, hc0, rfl⟩ := hc
      by_cases hi : i < s.heap.length
      · rw [List.getElem?_append_left hi] at hc0
        have hold : ∀ j ∈ c0.Links, j < s.heap.length + 1 ∧
            (fun k => if k = s.heap.length then g.depth + 1 else dep k) j =
              (fun k => if k = s.heap.length then g.depth + 1 else dep k) i + 1 := by
          intro j hj
          have := h.links i c0 hc0 j hj
          have h1 : j ≠ s.heap.length := by omega
          have h2 : i ≠ s.heap.length := by omega
          simp only [h1, h2, if_false]
          exact ⟨by omega, this.2⟩
        by_cases hp' : i = g.sitemap
        · simp only [hp', if_true, List.mem_append, List.mem_singleton] at hj
          rcases hj with hj | hj
          · exact hold j hj
          · subst hj
            have h2 : g.sitemap ≠ s.heap.length := by omega
            simp only [hp', h2, if_false, if_true, hg.2]
            exact ⟨by omega, trivial⟩
        · simp only [hp', if_false] at hj
          exact hold j hj
      · have hi' : i = s.heap.length := by
          have := lt_of_getElem? hc0
          simp only [List.length_append, List.length_singleton] at this
          omega
        subst hi'
        rw [List.getElem?_concat_length] at hc0
        simp only [Option.some.injEq] at hc0
        subst hc0
        have hne : s.heap.length ≠ g.sitemap := by omega
        simp [hne] at hj
    · intro g' hg'
      simp only [appendLink_length, crawled, List.length_append, List.length_singleton,
        List.mem_append, List.mem_map] at hg' ⊢
      rcases hg' with hg' | ⟨a, -, rfl⟩
      · have := hrest g' hg'
        have h1 : g'.sitemap ≠ s.heap.length := by omega
        simp only [h1, if_false]
        exact ⟨by omega, this.2⟩
      · simp
    · intro i hi
      simp only [appendLink_length, crawled, List.length_append, List.length_singleton] at hi
      by_cases hi' : i = s.heap.length
      · simp only [hi', if_true]
        omega
      · simp only [hi', if_false]
        exact h.le i (by omega)

theorem levels_run (lib : URLLib) (w : World) {bound : Int} (hb : 2 ≤ bound)
    (sched : List Nat) {s : State} {dep : Nat → Int} (h : Levels bound dep s) :
    ∃ dep', Levels bound dep' (run lib w sched s) := by
  induction sched generalizing s dep with
  | nil => exact ⟨dep, h⟩
  | cons i sched ih =>
    by_cases hg : s.goroutines = []
    · have : step lib w i s = s := by simp [step, hg]
      simp only [run, this]
      exact ih h
    · obtain ⟨g, rest, hp, he⟩ := step_eq lib w i s hg
      obtain ⟨dep', h'⟩ := levels_runGoroutine lib w hb h hp
      simp only [run, he]
      exact ih h'

theorem inTree_level {bound : Int} {dep : Nat → Int} {s : State} (h : Levels bound dep s)
    (hpos : 0 < s.heap.length) {j d : Nat} (ht : InTree s.heap 0 j d) :
    j < s.heap.length ∧ dep j = d := by
  induction ht with
  | root => exact ⟨hpos, by simpa using h.root⟩
  | link _ hc hj ih =>
    have := h.links _ _ hc _ hj
    exact ⟨this.1, by rw [this.2, ih.2]; simp⟩

/-- The depth bound the code keeps: under every schedule, every node of the tree
lies at distance at most `max maxDepth 2` from the root. The children run under
the bound 2 whatever `maxDepth` is, so the bound of the specification holds for
`maxDepth ≥ 2`, the value `handler` passes included. -/
theorem depth_le_max (lib : URLLib) (w : World) (startURL : String) (maxDepth : Int)
    (sched : List Nat) (root j d : Nat)
    (hroot : (crawlFrom lib w startURL maxDepth sched).1 = some root)
    (ht : InTree (crawlFrom lib w startURL maxDepth sched).2.heap root j d) :
    (d : Int) ≤ max maxDepth 2 := by
  rcases crawl_cases lib w startURL maxDepth 0 {} with ⟨hn, -⟩ | ⟨body, hs⟩
  · simp only [crawlFrom] at hroot
    rw [hn] at hroot
    exact absurd hroot (by simp)
  · have hcf : crawlFrom lib w startURL maxDepth sched =
        (some 0, run lib w sched (crawled lib (normalizeURL lib startURL) 0 body {})) := by
      simp only [crawlFrom, crawl_of_succeeds hs]
      rfl
    rw [hcf] at hroot ht
    simp only [Option.some.injEq] at hroot
    subst hroot
    have hbase : Levels (max maxDepth 2) (fun _ => 0)
        (crawled lib (normalizeURL lib startURL) 0 body {}) := by
      refine ⟨rfl, ?_, ?_, ?_⟩
      · intro i c hc j hj
        cases i with
        | zero =>
          simp only [crawled, List.nil_append, List.getElem?_cons_zero,
            Option.some.injEq] at hc
          subst hc
          simp at hj
        | succ i => simp [crawled] at hc
      · intro g hg
        simp only [crawled, List.nil_append, List.mem_map] at hg
        obtain ⟨a, -, rfl⟩ := hg
        simp [crawled]
      · intro i _
        exact le_trans (by decide) (le_max_right maxDepth 2)
    obtain ⟨dep, hl⟩ := levels_run lib w (le_max_right maxDepth 2) sched hbase
    have hpos : 0 < (run lib w sched
        (crawled lib (normalizeURL lib startURL) 0 body {})).heap.length := by
      have := heapURL_run lib w sched (crawled lib (normalizeURL lib startURL) 0 body {}) 0
        (normalizeURL lib startURL) (by simp [crawled])
      cases hc : (run lib w sched
          (crawled lib (normalizeURL lib startURL) 0 body {})).heap[0]? with
      | none => simp [hc] at this
      | some c => exact lt_of_getElem? hc
    obtain ⟨hj, hd⟩ := inTree_level hl hpos ht
    rw [← hd]
    exact hl.le j hj

/-! ## The model of `net/url`: characters -/

namespace GoURL

theorem upper_cases (c : Char) (h : 65 ≤ c.toNat ∧ c.toNat ≤ 90) :
    c ∈ ['A', 'B', 'C', 'D', 'E', 'F', 'G', 'H', 'I', 'J', 'K', 'L', 'M', 'N', 'O', 'P', 'Q',
      'R', 'S', 'T', 'U', 'V', 'W', 'X', 'Y', 'Z'] := by
  have hc : c = Char.ofNat c.toNat := (Char.ofNat_toNat c).symm
  obtain ⟨h1, h2⟩ := h
  generalize c.toNat = n at hc h1 h2
  subst hc
  interval_cases n <;> decide

theorem toLower_of_not_upper (c : Char) (h : ¬(65 ≤ c.toNat ∧ c.toNat ≤ 90)) :
    c.toLower = c := by
  unfold Char.toLower
  simp only [ge_iff_le, h, if_false]

theorem isAlpha_toLower (c : Char) : isAlpha c.toLower = isAlpha c := by
  by_cases h : 65 ≤ c.toNat ∧ c.toNat ≤ 90
  · have := upper_cases c h
    simp only [List.mem_cons, List.mem_singleton, List.not_mem_nil, or_false] at this
    rcases this with h | h | h | h | h | h | h | h | h | h | h | h | h | h | h | h | h | h | h |
      h | h | h | h | h | h | h <;> subst h <;> decide
  · rw [toLower_of_not_upper c h]

theorem toLower_toLower (c : Char) : c.toLower.toLower = c.toLower := by
  by_cases h : 65 ≤ c.toNat ∧ c.toNat ≤ 90
  · have := upper_cases c h
    simp only [List.mem_cons, List.mem_singleton, List.not_mem_nil, or_false] at this
    rcases this with h | h | h | h | h | h | h | h | h | h | h | h | h | h | h | h | h | h | h |
      h | h | h | h | h | h | h <;> subst h <;> decide
  · rw [toLower_of_not_upper c h, toLower_of_not_upper c h]

theorem isSchemeChar_toLower (c : Char) : isSchemeChar c.toLower = isSchemeChar c := by
  by_cases h : 65 ≤ c.toNat ∧ c.toNat ≤ 90
  · have := upper_cases c h
    simp only [List.mem_cons, List.mem_singleton, List.not_mem_nil, or_false] at this
    rcases this with h | h | h | h | h | h | h | h | h | h | h | h | h | h | h | h | h | h | h |
      h | h | h | h | h | h | h <;> subst h <;> decide
  · rw [toLower_of_not_upper c h]

theorem isSchemeChar_of_isAlpha {c : Char} (h : isAlpha c = true) : isSchemeChar c = true := by
  simp [isSchemeChar, h]

/-- What the character classes of the model exclude. -/
theorem isSchemeChar_spec {c : Char} (h : isSchemeChar c = true) :
    plain c = true ∧ c ≠ ':' ∧ c ≠ '/' ∧ c ≠ '?' ∧ c ≠ '#' ∧ c ≠ '*' := by
  refine ⟨?_, ?_, ?_, ?_, ?_, ?_⟩
  · simp only [isSchemeChar, isAlpha, isDigit, Bool.or_eq_true, Bool.and_eq_true,
      decide_eq_true_eq, beq_iff_eq] at h
    simp only [plain, isCTL, Bool.and_eq_true, Bool.not_eq_true', Bool.or_eq_false_iff,
      decide_eq_false_iff_not, beq_eq_false_iff_ne, decide_eq_true_eq]
    rcases h with (((h | h) | h) | h) | h
    · rcases h with h | h <;> omega
    · omega
    · subst h; decide
    · subst h; decide
    · subst h; decide
  all_goals
    rintro rfl
    revert h
    decide

theorem pathSafe_spec {c : Char} (h : pathSafe c = true) :
    plain c = true ∧ c ≠ '?' ∧ c ≠ '#' := by
  refine ⟨?_, ?_, ?_⟩
  · simp only [pathSafe, isAlpha, isDigit, Bool.or_eq_true, Bool.and_eq_true,
      decide_eq_true_eq, List.contains, List.elem_iff] at h
    simp only [plain, isCTL, Bool.and_eq_true, Bool.not_eq_true', Bool.or_eq_false_iff,
      decide_eq_false_iff_not, beq_eq_false_iff_ne, decide_eq_true_eq]
    rcases h with (h | h) | h
    · rcases h with h | h <;> omega
    · omega
    · revert c
      decide
  all_goals
    rintro rfl
    revert h
    decide

theorem hostSafe_spec {c : Char} (h : hostSafe c = true) :
    plain c = true ∧ c ≠ '/' ∧ c ≠ '?' ∧ c ≠ '#' ∧ c ≠ '@' := by
  refine ⟨?_, ?_, ?_, ?_, ?_⟩
  · simp only [hostSafe, isAlpha, isDigit, Bool.or_eq_true, Bool.and_eq_true,
      decide_eq_true_eq, List.contains, List.elem_iff] at h
    simp only [plain, isCTL, Bool.and_eq_true, Bool.not_eq_true', Bool.or_eq_false_iff,
      decide_eq_false_iff_not, beq_eq_false_iff_ne, decide_eq_true_eq]
    rcases h with (h | h) | h
    · rcases h with h | h <;> omega
    · omega
    · revert c
      decide
  all_goals
    rintro rfl
    revert h
    decide

end GoURL

/-! ## The model of `net/url`: cutting strings -/

namespace GoURL

theorem before_of_not_mem {sep : Char} {s : List Char} (h : sep ∉ s) : before sep s = s := by
  unfold before
  rw [List.takeWhile_eq_self_iff]
  intro c hc
  simp only [bne_iff_ne, ne_eq]
  rintro rfl
  exact h hc

theorem dropWhile_of_not_mem {sep : Char} {s : List Char} (h : sep ∉ s) :
    s.dropWhile (fun c => c != sep) = [] := by
  rw [List.dropWhile_eq_nil_iff]
  intro c hc
  simp only [bne_iff_ne, ne_eq]
  rintro rfl
  exact h hc

theorem after_of_not_mem {sep : Char} {s : List Char} (h : sep ∉ s) : after sep s = [] := by
  unfold after
  rw [dropWhile_of_not_mem h]
  rfl

theorem before_append {sep : Char} {a b : List Char} (h : sep ∉ a)
    (hb : b = [] ∨ b.head? = some sep) : before sep (a ++ b) = a := by
  unfold before
  induction a with
  | nil =>
    rcases hb with rfl | hb
    · rfl
    · cases b with
      | nil => rfl
      | cons c b =>
        simp only [List.head?_cons, Option.some.injEq] at hb
        simp [hb]
  | cons c a ih =>
    simp only [List.mem_cons, not_or] at h
    have hc : (c != sep) = true := by
      simp only [bne_iff_ne, ne_eq]
      exact fun e => h.1 e.symm
    simp only [List.cons_append, List.takeWhile_cons, hc, if_true, ih h.2]

theorem dropWhile_append {sep : Char} {a b : List Char} (h : sep ∉ a)
    (hb : b = [] ∨ b.head? = some sep) : (a ++ b).dropWhile (fun c => c != sep) = b := by
  induction a with
  | nil =>
    rcases hb with rfl | hb
    · rfl
    · cases b with
      | nil => rfl
      | cons c b =>
        simp only [List.head?_cons, Option.some.injEq] at hb
        simp [hb]
  | cons c a ih =>
    simp only [List.mem_cons, not_or] at h
    have hc : (c != sep) = true := by
      simp only [bne_iff_ne, ne_eq]
      exact fun e => h.1 e.symm
    simp only [List.cons_append, List.dropWhile_cons, hc, if_true, ih h.2]

theorem not_mem_before (sep : Char) (s : List Char) : sep ∉ before sep s := by
  unfold before
  intro h
  have := List.mem_takeWhile_imp h
  simp at this

theorem before_sublist (sep : Char) (s : List Char) : ∀ c ∈ before sep s, c ∈ s :=
  fun _ h => (List.takeWhile_sublist _).subset h

theorem after_sublist (sep : Char) (s : List Char) : ∀ c ∈ after sep s, c ∈ s :=
  fun _ h => (List.dropWhile_sublist _).subset (List.mem_of_mem_drop h)

theorem before_after (sep : Char) (s : List Char) (h : sep ∈ s) :
    s = before sep s ++ sep :: after sep s := by
  unfold before after
  induction s with
  | nil => simp at h
  | cons c s ih =>
    by_cases hc : c = sep
    · subst hc
      simp
    · have hc' : (c != sep) = true := by simpa using hc
      simp only [List.mem_cons] at h
      rcases h with h | h
      · exact absurd h.symm hc
      · simp only [List.takeWhile_cons, hc', if_true, List.dropWhile_cons, List.cons_append]
        rw [← ih h]

/-! ## The model of `net/url`: `getScheme` -/

theorem getSchemeLoop_scheme (raw : List Char) (cs rest : List Char) (i : Nat)
    (hcs : cs.all isSchemeChar = true) (h0 : i = 0 → isScheme cs = true) :
    getSchemeLoop raw i (cs ++ ':' :: rest) = some (raw.take (i + cs.length), rest) := by
  induction cs generalizing i with
  | nil =>
    have hi : i ≠ 0 := fun h => by simpa [isScheme] using h0 h
    simp [getSchemeLoop, isAlpha, isDigit, hi]
  | cons c cs ih =>
    simp only [List.all_cons, Bool.and_eq_true] at hcs
    have hrec := ih (i + 1) hcs.2 (by omega)
    have hlen : i + (c :: cs).length = i + 1 + cs.length := by simp; omega
    rw [hlen, ← hrec]
    by_cases ha : isAlpha c = true
    · simp [getSchemeLoop, ha]
    · have hi : i ≠ 0 := fun h => by
        have := h0 h
        simp only [isScheme, Bool.and_eq_true] at this
        exact ha this.1
      have hd : (isDigit c || c == '+' || c == '-' || c == '.') = true := by
        have := hcs.1
        simp only [isSchemeChar, Bool.or_eq_true] at this ⊢
        simp only [Bool.not_eq_true] at ha
        simpa [ha] using this
      simp only [List.cons_append, getSchemeLoop, ha, hd, hi, if_true, if_false]
      simp

theorem getScheme_scheme {sc : List Char} (h : isScheme sc = true) (rest : List Char) :
    getScheme (sc ++ ':' :: rest) = some (sc, rest) := by
  unfold getScheme
  have hall : sc.all isSchemeChar = true := by
    cases sc with
    | nil => simp [isScheme] at h
    | cons c cs =>
      simp only [isScheme, Bool.and_eq_true] at h
      simp [h.2, isSchemeChar_of_isAlpha h.1]
  rw [getSchemeLoop_scheme _ sc rest 0 hall (fun _ => h)]
  simp

theorem getSchemeLoop_none (raw : List Char) (l : List Char) (i : Nat)
    (h : (before '/' l).contains ':' = false) : getSchemeLoop raw i l = some ([], raw) := by
  induction l generalizing i with
  | nil => rfl
  | cons c l ih =>
    by_cases hc : c = '/'
    · subst hc
      simp [getSchemeLoop, isAlpha, isDigit]
    · have hc' : (c != '/') = true := by simpa using hc
      simp only [before, List.takeWhile_cons, hc', if_true, List.contains_cons,
        Bool.or_eq_false_iff, beq_eq_false_iff_ne, ne_eq] at h
      have hcol : (c == ':') = false := by
        simp only [beq_eq_false_iff_ne, ne_eq]
        exact fun e => h.1 e.symm
      have hrec := ih (i + 1) h.2
      unfold getSchemeLoop
      split
      · exact hrec
      · split
        · split
          · rfl
          · exact hrec
        · simp [hcol]

theorem getScheme_none {s : List Char} (h : (before '/' s).contains ':' = false) :
    getScheme s = some ([], s) :=
  getSchemeLoop_none s s 0 h

/-- Inversion of `getScheme`. -/
theorem getSchemeLoop_inv (raw pre l : List Char) (i : Nat) (hraw : raw = pre ++ l)
    (hi : i = pre.length) (hpre : pre = [] ∨ isScheme pre = true)
    {sc rest : List Char} (h : getSchemeLoop raw i l = some (sc, rest)) :
    (sc = [] ∧ rest = raw) ∨ (isScheme sc = true ∧ raw = sc ++ ':' :: rest) := by
  induction l generalizing pre i with
  | nil =>
    simp only [getSchemeLoop, Option.some.injEq, Prod.mk.injEq] at h
    exact Or.inl ⟨h.1.symm, h.2.symm⟩
  | cons c l ih =>
    have hnext : ∀ (hc : isSchemeChar c = true) (hc0 : pre = [] → isAlpha c = true),
        getSchemeLoop raw (i + 1) l = some (sc, rest) →
        (sc = [] ∧ rest = raw) ∨ (isScheme sc = true ∧ raw = sc ++ ':' :: rest) := by
      intro hc hc0 hh
      refine ih (pre ++ [c]) (i + 1) (by simp [hraw]) (by simp [hi]) ?_ hh
      right
      rcases hpre with rfl | hp
      · simp [isScheme, hc0 rfl]
      · cases pre with
        | nil => simp [isScheme] at hp
        | cons p ps =>
          simp only [isScheme, Bool.and_eq_true] at hp
          simp [isScheme, hp.1, hp.2, hc]
    unfold getSchemeLoop at h
    split at h
    · rename_i ha
      exact hnext (isSchemeChar_of_isAlpha ha) (fun _ => ha) h
    · rename_i ha
      split at h
      · rename_i hd
        split at h
        · simp only [Option.some.injEq, Prod.mk.injEq] at h
          exact Or.inl ⟨h.1.symm, h.2.symm⟩
        · rename_i hi0
          refine hnext ?_ ?_ h
          · simp only [isSchemeChar, Bool.or_eq_true] at hd ⊢
            tauto
          · intro hp
            subst hp
            simp at hi
            exact absurd hi hi0
      · split at h
        · rename_i hcol
          split at h
          · exact absurd h (by simp)
          · rename_i hi0
            simp only [Option.some.injEq, Prod.mk.injEq] at h
            right
            simp only [beq_iff_eq] at hcol
            subst hcol
            have htake : raw.take i = pre := by
              rw [hraw, hi]
              simp
            rcases hpre with rfl | hp
            · simp at hi
              exact absurd hi hi0
            · rw [← h.1, ← h.2, htake]
              exact ⟨hp, hraw⟩
        · simp only [Option.some.injEq, Prod.mk.injEq] at h
          exact Or.inl ⟨h.1.symm, h.2.symm⟩

theorem getScheme_inv {raw sc rest : List Char} (h : getScheme raw = some (sc, rest)) :
    (sc = [] ∧ rest = raw) ∨ (isScheme sc = true ∧ raw = sc ++ ':' :: rest) :=
  getSchemeLoop_inv raw [] raw 0 rfl rfl (Or.inl rfl) h

end GoURL

/-! ## The model of `net/url`: `parse` on a printed URL -/

namespace GoURL

theorem splitQuery_append {r : List Char} (h : '?' ∉ r) (fq : Bool) :
    splitQuery (r ++ queryMark fq) = (r, fq, []) := by
  cases fq with
  | true =>
    have hc : List.count '?' r = 0 := List.count_eq_zero.mpr h
    simp [splitQuery, queryMark, List.getLast?_append, hc]
  | false =>
    have hl : (r.getLast? == some '?') = false := by
      simp only [beq_eq_false_iff_ne, ne_eq]
      intro hl
      exact h (List.mem_of_getLast?_eq_some hl)
    simp [splitQuery, queryMark, hl, before_of_not_mem h, after_of_not_mem h]

theorem splitQuery_inv (rest : List Char) :
    '?' ∉ (splitQuery rest).1 ∧ (∀ c ∈ (splitQuery rest).1, c ∈ rest) := by
  unfold splitQuery
  split
  · rename_i hc
    simp only [Bool.and_eq_true, beq_iff_eq] at hc
    refine ⟨?_, fun c hc' => (List.dropLast_sublist _).subset hc'⟩
    intro hm
    have hl := List.dropLast_append_getLast? _ hc.1
    have := hc.2
    rw [← hl, List.count_append] at this
    have h1 : 0 < List.count '?' rest.dropLast := List.count_pos_iff.mpr hm
    simp at this
    omega
  · exact ⟨not_mem_before _ _, before_sublist _ _⟩

theorem any_isCTL_false {l : List Char} (h : ∀ c ∈ l, plain c = true) :
    (l.any isCTL || l.any (fun c => decide (128 ≤ c.toNat))) = false := by
  simp only [Bool.or_eq_false_iff, List.any_eq_false, decide_eq_true_eq]
  constructor
  · intro c hc
    have := h c hc
    simp only [plain, Bool.and_eq_true, Bool.not_eq_true'] at this
    simp [this.1]
  · intro c hc
    have := h c hc
    simp only [plain, Bool.and_eq_true, decide_eq_true_eq] at this
    omega

theorem plain_of_any {l : List Char}
    (h : (l.any isCTL || l.any (fun c => decide (128 ≤ c.toNat))) = false) :
    ∀ c ∈ l, plain c = true := by
  simp only [Bool.or_eq_false_iff, List.any_eq_false, decide_eq_true_eq] at h
  intro c hc
  simp only [plain, Bool.and_eq_true, Bool.not_eq_true', decide_eq_true_eq]
  have h1 := h.1 c hc
  have h2 := h.2 c hc
  exact ⟨by simpa using h1, by omega⟩

theorem plain_of_isScheme {sc : List Char} (h : isScheme sc = true) :
    ∀ c ∈ sc, isSchemeChar c = true := by
  cases sc with
  | nil => simp
  | cons a cs =>
    simp only [isScheme, Bool.and_eq_true, List.all_eq_true] at h
    intro c hc
    rcases List.mem_cons.mp hc with rfl | hc
    · exact isSchemeChar_of_isAlpha h.1
    · exact h.2 c hc

theorem parse_of_scheme {sc body : List Char} (hsc : SchemeOK sc)
    (hbody : ∀ c ∈ body, plain c = true ∧ c ≠ '?') (fq : Bool) :
    parse (sc ++ ':' :: body ++ queryMark fq) =
      parseHier { Scheme := String.mk sc, ForceQuery := fq, RawQuery := String.mk [] } sc body := by
  have hplain : ∀ c ∈ sc ++ ':' :: body ++ queryMark fq, plain c = true := by
    intro c hc
    simp only [List.mem_append, List.mem_cons] at hc
    rcases hc with (hc | rfl | hc) | hc
    · exact (isSchemeChar_spec (plain_of_isScheme hsc.1 c hc)).1
    · decide
    · exact (hbody c hc).1
    · cases fq with
      | true =>
        simp only [queryMark, if_true, List.mem_singleton] at hc
        subst hc
        decide
      | false => simp [queryMark] at hc
  have hstar : sc ++ ':' :: body ++ queryMark fq ≠ ['*'] := by
    intro h
    have hm : ':' ∈ sc ++ ':' :: body ++ queryMark fq := by simp
    rw [h] at hm
    simp at hm
  have hq : '?' ∉ body := fun hm => (hbody _ hm).2 rfl
  unfold parse
  rw [any_isCTL_false hplain]
  simp only [Bool.false_eq_true, if_false, hstar]
  have hg : getScheme (sc ++ ':' :: body ++ queryMark fq) = some (sc, body ++ queryMark fq) := by
    have := getScheme_scheme hsc.1 (body ++ queryMark fq)
    simpa using this
  rw [hg]
  simp only [hsc.2, splitQuery_append hq]

theorem parse_of_noscheme {body : List Char} (hbody : ∀ c ∈ body, plain c = true ∧ c ≠ '?')
    (hcol : (before '/' body).contains ':' = false) (fq : Bool)
    (hstar : body ++ queryMark fq ≠ ['*']) :
    parse (body ++ queryMark fq) =
      parseHier { Scheme := String.mk [], ForceQuery := fq, RawQuery := String.mk [] } [] body := by
  have hplain : ∀ c ∈ body ++ queryMark fq, plain c = true := by
    intro c hc
    simp only [List.mem_append] at hc
    rcases hc with hc | hc
    · exact (hbody c hc).1
    · cases fq with
      | true =>
        simp only [queryMark, if_true, List.mem_singleton] at hc
        subst hc
        decide
      | false => simp [queryMark] at hc
  have hq : '?' ∉ body := fun hm => (hbody _ hm).2 rfl
  have hcol' : (before '/' (body ++ queryMark fq)).contains ':' = false := by
    by_cases hs : '/' ∈ body
    · have hb := before_after '/' body hs
      have : before '/' (body ++ queryMark fq) = before '/' body := by
        conv_lhs => rw [hb]
        rw [List.append_assoc]
        exact before_append (not_mem_before _ _) (Or.inr rfl)
      rw [this]
      exact hcol
    · have hs' : '/' ∉ body ++ queryMark fq := by
        cases fq <;> simp [queryMark, hs]
      rw [before_of_not_mem hs']
      rw [before_of_not_mem hs] at hcol
      cases fq with
      | true =>
        simp only [queryMark, if_true, List.contains_eq_any_beq, List.any_append,
          Bool.or_eq_false_iff]
        rw [List.contains_eq_any_beq] at hcol
        exact ⟨hcol, by decide⟩
      | false => simpa [queryMark] using hcol
  unfold parse
  rw [any_isCTL_false hplain]
  simp only [Bool.false_eq_true, if_false, hstar, getScheme_none hcol']
  simp only [List.map_nil, splitQuery_append hq]

end GoURL

namespace GoURL

theorem ne_nil_of_isScheme {sc : List Char} (h : isScheme sc = true) : sc ≠ [] := by
  rintro rfl
  simp [isScheme] at h

theorem hostOK_iff {h : List Char} : HostOK h ↔ (colonOK h = true ∧ h.all hostSafe = true) := by
  unfold HostOK parseHost
  by_cases hc : (colonOK h && h.all hostSafe) = true
  · simp only [hc, if_true, true_iff]
    simpa using hc
  · have hn : ¬(colonOK h = true ∧ h.all hostSafe = true) :=
      fun hh => hc (by simp [hh.1, hh.2])
    simp only [hc, if_false, hn, iff_false]
    simp

theorem parseHost_inv {a host : List Char} (h : parseHost a = some host) :
    host = a ∧ HostOK a := by
  have h' := h
  unfold parseHost at h
  split at h
  · simp only [Option.some.injEq] at h
    subst h
    exact ⟨rfl, h'⟩
  · exact absurd h (by simp)

theorem hostSafe_of_hostOK {h : List Char} (hh : HostOK h) : ∀ c ∈ h, hostSafe c = true := by
  have := (hostOK_iff.mp hh).2
  simpa [List.all_eq_true] using this

theorem parseAuthority_of_hostOK {h : List Char} (hh : HostOK h) : parseAuthority h = some h := by
  unfold parseAuthority
  have : h.contains '@' = false := by
    rw [List.contains_eq_any_beq, List.any_eq_false]
    intro c hc
    have := (hostSafe_spec (hostSafe_of_hostOK hh c hc)).2.2.2.2
    simpa using this.symm
  simp only [this, Bool.false_eq_true, if_false]
  exact hh

theorem parseAuthority_inv {a host : List Char} (h : parseAuthority a = some host) :
    host = a ∧ HostOK a := by
  unfold parseAuthority at h
  split at h
  · exact absurd h (by simp)
  · exact parseHost_inv h

theorem hostOK_nil : HostOK [] := by
  unfold HostOK
  decide

theorem setPath_eq {url : URL} {p : List Char} (h : p.all pathSafe = true) :
    setPath url p =
      some { url with Path := String.mk p,
                      RawPath := if p.any pathEscaped then String.mk p else "" } := by
  unfold setPath
  simp [h]

/-- The printed forms of the four shapes. -/
theorem print_opq {sc o : List Char} {fq : Bool} (hsc : sc ≠ []) :
    Parts.print ⟨sc, o, [], [], false, fq⟩ = sc ++ ':' :: o ++ queryMark fq := by
  by_cases ho : o = []
  · subst ho
    cases fq <;> simp [Parts.print, render, hsc, queryMark]
  · cases fq <;> simp [Parts.print, render, hsc, ho, queryMark]

theorem print_auth {sc h p : List Char} {fq : Bool} (hp : p = [] ∨ p.head? = some '/')
    (hne : h ≠ [] ∨ (sc ≠ [] ∧ p ≠ [])) :
    Parts.print ⟨sc, [], h, p, false, fq⟩ =
      (if sc = [] then [] else sc ++ [':']) ++ '/' :: '/' :: h ++ p ++ queryMark fq := by
  have hslash : (p != [] && p.head? != some '/') = false := by
    rcases hp with rfl | hp
    · rfl
    · simp [hp]
  by_cases hsc : sc = []
  · subst hsc
    have hh : h ≠ [] := by
      rcases hne with hh | ⟨hs, -⟩
      · exact hh
      · exact absurd rfl hs
    cases fq <;> simp [Parts.print, render, hh, hslash, queryMark]
  · have hhp : h ≠ [] ∨ p ≠ [] := by
      rcases hne with hh | ⟨-, hp'⟩
      · exact Or.inl hh
      · exact Or.inr hp'
    have hhp' : (h != [] || p != []) = true := by
      simpa using hhp
    cases fq <;> simp [Parts.print, render, hsc, hhp', hslash, queryMark]

theorem print_omit {sc p : List Char} {fq : Bool} (hsc : sc ≠ []) :
    Parts.print ⟨sc, [], [], p, true, fq⟩ = sc ++ ':' :: p ++ queryMark fq := by
  cases fq <;> simp [Parts.print, render, hsc, queryMark]

theorem print_rel {p : List Char} {fq : Bool} (hcol : ':' ∉ before '/' p) :
    Parts.print ⟨[], [], [], p, false, fq⟩ = p ++ queryMark fq := by
  cases fq <;> simp [Parts.print, render, hcol, queryMark]

end GoURL

namespace GoURL

theorem not_mem_of_hostOK {h : List Char} (hh : HostOK h) : '/' ∉ h :=
  fun hm => (hostSafe_spec (hostSafe_of_hostOK hh _ hm)).2.1 rfl

theorem parse_print_opq {sc o : List Char} {fq : Bool} (hsc : SchemeOK sc)
    (ho : o.head? ≠ some '/') (hpl : ∀ c ∈ o, plain c = true ∧ c ≠ '?' ∧ c ≠ '#') :
    parse (Parts.print ⟨sc, o, [], [], false, fq⟩) =
      some (Parts.toURL ⟨sc, o, [], [], false, fq⟩) := by
  have hne := ne_nil_of_isScheme hsc.1
  rw [print_opq hne, parse_of_scheme hsc (fun c hc => ⟨(hpl c hc).1, (hpl c hc).2.1⟩)]
  have c1 : (o.head? != some '/' && sc != []) = true := by simp [ho, hne]
  unfold parseHier
  simp only [c1, if_true]
  rfl

theorem parse_print_rel {p : List Char} {fq : Bool} (hp : p.all pathSafe = true)
    (hstar' : p ++ queryMark fq ≠ ['*'])
    (hpre : ['/', '/'].isPrefixOf p = true → ['/', '/', '/'].isPrefixOf p = true)
    (hcol : p.head? ≠ some '/' → ':' ∉ before '/' p) :
    parse (Parts.print ⟨[], [], [], p, false, fq⟩) =
      some (Parts.toURL ⟨[], [], [], p, false, fq⟩) := by
  have hsafe : ∀ c ∈ p, pathSafe c = true := by simpa [List.all_eq_true] using hp
  have hcol' : ':' ∉ before '/' p := by
    by_cases hh : p.head? = some '/'
    · cases p with
      | nil => simp at hh
      | cons c p =>
        simp only [List.head?_cons, Option.some.injEq] at hh
        subst hh
        simp [before]
    · exact hcol hh
  rw [print_rel hcol', parse_of_noscheme
    (fun c hc => ⟨(pathSafe_spec (hsafe c hc)).1, (pathSafe_spec (hsafe c hc)).2.1⟩)
    (by simpa using hcol') fq hstar']
  unfold parseHier
  have h3 : ((([] : List Char) != [] || !(['/', '/', '/'].isPrefixOf p)) &&
      ['/', '/'].isPrefixOf p) = false := by
    by_cases h2 : ['/', '/'].isPrefixOf p = true
    · simp [hpre h2]
    · simp [h2]
  have h2 : (p.head? != some '/' && (before '/' p).contains ':') = false := by
    simp [hcol']
  have h1 : (p.head? != some '/' && ([] : List Char) != []) = false := by simp
  have h4 : (([] : List Char) != [] && p.head? == some '/') = false := by simp
  simp only [h1, h2, h3, h4, Bool.false_eq_true, if_false, setPath_eq hp]
  rfl

theorem parse_print_omit {sc p : List Char} {fq : Bool} (hsc : SchemeOK sc)
    (hp : p.all pathSafe = true) (hhead : p.head? = some '/')
    (hpre : ['/', '/'].isPrefixOf p = false) :
    parse (Parts.print ⟨sc, [], [], p, true, fq⟩) =
      some (Parts.toURL ⟨sc, [], [], p, true, fq⟩) := by
  have hne := ne_nil_of_isScheme hsc.1
  have hsafe : ∀ c ∈ p, pathSafe c = true := by simpa [List.all_eq_true] using hp
  rw [print_omit hne, parse_of_scheme hsc
    (fun c hc => ⟨(pathSafe_spec (hsafe c hc)).1, (pathSafe_spec (hsafe c hc)).2.1⟩)]
  have h1 : (p.head? != some '/' && sc != []) = false := by simp [hhead]
  have h2 : (p.head? != some '/' && (before '/' p).contains ':') = false := by simp [hhead]
  have h3 : ((sc != [] || !(['/', '/', '/'].isPrefixOf p)) && ['/', '/'].isPrefixOf p) = false := by
    simp [hpre]
  have h4 : (sc != [] && p.head? == some '/') = true := by simp [hhead, hne]
  unfold parseHier
  simp only [h1, h2, h3, h4, Bool.false_eq_true, if_false, if_true, setPath_eq hp]
  rfl

theorem parse_print_auth {sc h p : List Char} {fq : Bool} (hsc : sc = [] ∨ SchemeOK sc)
    (hh : HostOK h) (hp : p.all pathSafe = true) (hhead : p = [] ∨ p.head? = some '/')
    (hne : h ≠ [] ∨ (sc ≠ [] ∧ p ≠ [])) :
    parse (Parts.print ⟨sc, [], h, p, false, fq⟩) =
      some (Parts.toURL ⟨sc, [], h, p, false, fq⟩) := by
  have hsafe : ∀ c ∈ p, pathSafe c = true := by simpa [List.all_eq_true] using hp
  have hbody : ∀ c ∈ '/' :: '/' :: (h ++ p), plain c = true ∧ c ≠ '?' := by
    intro c hc
    simp only [List.mem_cons, List.mem_append] at hc
    rcases hc with rfl | rfl | hc | hc
    · decide
    · decide
    · have := hostSafe_spec (hostSafe_of_hostOK hh c hc)
      exact ⟨this.1, this.2.2.1⟩
    · exact ⟨(pathSafe_spec (hsafe c hc)).1, (pathSafe_spec (hsafe c hc)).2.1⟩
  have hb : before '/' (h ++ p) = h := before_append (not_mem_of_hostOK hh) hhead
  have hd : (h ++ p).dropWhile (fun c => c != '/') = p :=
    dropWhile_append (not_mem_of_hostOK hh) hhead
  have hier : ∀ url : URL, (sc ≠ [] ∨ h ≠ []) →
      parseHier url sc ('/' :: '/' :: (h ++ p)) =
        some { url with Host := String.mk h, Path := String.mk p,
                        RawPath := if p.any pathEscaped then String.mk p else "" } := by
    intro url hor
    have h3 : ((sc != [] || !(['/', '/', '/'].isPrefixOf ('/' :: '/' :: (h ++ p)))) &&
        ['/', '/'].isPrefixOf ('/' :: '/' :: (h ++ p))) = true := by
      by_cases hs : sc = []
      · have hh' : h ≠ [] := hor.resolve_left (fun hn => hn hs)
        cases h with
        | nil => exact absurd rfl hh'
        | cons c h =>
          have hc : c ≠ '/' := fun e => not_mem_of_hostOK hh (e ▸ List.mem_cons_self _ _)
          have hc' : ('/' == c) = false := by
            simpa using fun e => hc e.symm
          simp [List.isPrefixOf, hc']
      · simp [List.isPrefixOf, hs]
    have h1 : (('/' :: '/' :: (h ++ p)).head? != some '/' && sc != []) = false := by simp
    have h2 : (('/' :: '/' :: (h ++ p)).head? != some '/' &&
        (before '/' ('/' :: '/' :: (h ++ p))).contains ':') = false := by simp
    unfold parseHier
    simp only [h1, h2, h3, Bool.false_eq_true, if_false, if_true, List.drop_succ_cons,
      List.drop_zero, hb, hd, parseAuthority_of_hostOK hh, setPath_eq hp]
  by_cases hs : sc = []
  · subst hs
    have hh' : h ≠ [] := by
      rcases hne with hh' | ⟨hs, -⟩
      · exact hh'
      · exact absurd rfl hs
    have e : Parts.print ⟨[], [], h, p, false, fq⟩ =
        '/' :: '/' :: (h ++ p) ++ queryMark fq := by
      rw [print_auth hhead hne]
      simp
    rw [e, parse_of_noscheme hbody (by simp [before]) fq (by
      intro e'
      have := congrArg List.head? e'
      simp at this), hier _ (Or.inr hh')]
    rfl
  · have hsc' : SchemeOK sc := hsc.resolve_left hs
    have e : Parts.print ⟨sc, [], h, p, false, fq⟩ =
        sc ++ ':' :: ('/' :: '/' :: (h ++ p)) ++ queryMark fq := by
      rw [print_auth hhead hne]
      simp [hs]
    rw [e, parse_of_scheme hsc' hbody, hier _ (Or.inl hs)]
    rfl

/-- Printing a URL of one of the four shapes and parsing the result gives the URL
back. -/
theorem parse_print {P : Parts} (h : Shape P) (hstar : P.print ≠ ['*']) :
    parse P.print = some P.toURL := by
  cases h with
  | opq hsc ho hpl => exact parse_print_opq hsc ho hpl
  | @auth sc h p fq hsc hh hp hhead hemp =>
    by_cases hne : h ≠ [] ∨ (sc ≠ [] ∧ p ≠ [])
    · exact parse_print_auth hsc hh hp hhead hne
    · simp only [not_or, not_and, not_not] at hne
      obtain ⟨rfl, hne⟩ := hne
      by_cases hs : sc = []
      · subst hs
        have hp' : p = [] := hemp rfl rfl
        subst hp'
        exact parse_print_rel (by simp) (by cases fq <;> simp [queryMark])
          (by simp [List.isPrefixOf]) (by simp [before])
      · have hp' : p = [] := by
          by_contra hp'
          exact hp' (hne hs)
        subst hp'
        exact parse_print_opq (hsc.resolve_left hs) (by simp) (by simp)
  | bare hsc hp hhead hpre => exact parse_print_omit hsc hp hhead hpre
  | @rel p fq hp hpre hcol =>
    have hcol' : ':' ∉ before '/' p := by
      by_cases hh : p.head? = some '/'
      · cases p with
        | nil => simp at hh
        | cons c p =>
          simp only [List.head?_cons, Option.some.injEq] at hh
          subst hh
          simp [before]
      · exact hcol hh
    rw [print_rel hcol'] at hstar
    exact parse_print_rel hp hstar hpre hcol

end GoURL

/-! ## The model of `net/url`: the shape of what `parse` returns -/

namespace GoURL

theorem setPath_inv {url u : URL} {p : List Char} (h : setPath url p = some u) :
    p.all pathSafe = true ∧
      u = { url with Path := String.mk p,
                     RawPath := if p.any pathEscaped then String.mk p else "" } := by
  unfold setPath at h
  split at h
  · rename_i hp
    simp only [Option.some.injEq] at h
    exact ⟨hp, h.symm⟩
  · exact absurd h (by simp)

theorem dropWhile_head (sep : Char) (s : List Char) :
    s.dropWhile (fun c => c != sep) = [] ∨
      (s.dropWhile (fun c => c != sep)).head? = some sep := by
  induction s with
  | nil => exact Or.inl rfl
  | cons c s ih =>
    by_cases hc : c = sep
    · subst hc
      right
      simp
    · have hc' : (c != sep) = true := by simpa using hc
      simpa [List.dropWhile_cons, hc'] using ih

theorem schemeOK_toLower {sc : List Char} (h : isScheme sc = true) :
    SchemeOK (sc.map Char.toLower) := by
  constructor
  · cases sc with
    | nil => simp [isScheme] at h
    | cons c cs =>
      simp only [isScheme, Bool.and_eq_true, List.all_eq_true] at h
      simp only [List.map_cons, isScheme, isAlpha_toLower, h.1, Bool.true_and, List.all_eq_true,
        List.mem_map, forall_exists_index, and_imp, forall_apply_eq_imp_iff₂,
        isSchemeChar_toLower]
      exact h.2
  · simp only [List.map_map]
    apply List.map_congr_left
    intro c _
    exact toLower_toLower c

theorem auth_constraint {rest : List Char} (h3 : ['/', '/', '/'].isPrefixOf rest = false)
    (h2 : ['/', '/'].isPrefixOf rest = true) (hb : before '/' (rest.drop 2) = []) :
    (rest.drop 2).dropWhile (fun c => c != '/') = [] := by
  cases rest with
  | nil => simp [List.isPrefixOf] at h2
  | cons a t =>
    cases t with
    | nil => simp [List.isPrefixOf] at h2
    | cons b r =>
      simp only [List.isPrefixOf, Bool.and_eq_true, beq_iff_eq, Bool.and_true] at h2
      obtain ⟨rfl, rfl⟩ := h2
      cases r with
      | nil => rfl
      | cons c r =>
        by_cases hc : c = '/'
        · subst hc
          simp [List.isPrefixOf] at h3
        · have hc' : (c != '/') = true := by simpa using hc
          simp [before, hc'] at hb

theorem parseHier_inv {sc rest rq : List Char} {fq : Bool} {u : URL}
    (hsc : sc = [] ∨ SchemeOK sc)
    (hrest : ∀ c ∈ rest, plain c = true ∧ c ≠ '?' ∧ c ≠ '#')
    (h : parseHier { Scheme := String.mk sc, ForceQuery := fq, RawQuery := String.mk rq }
      sc rest = some u) :
    ∃ P, Shape P ∧ P.forceQuery = fq ∧ u = { P.toURL with RawQuery := String.mk rq } := by
  unfold parseHier at h
  split at h
  · rename_i c1
    simp only [Bool.and_eq_true, bne_iff_ne, ne_eq] at c1
    simp only [Option.some.injEq] at h
    exact ⟨⟨sc, rest, [], [], false, fq⟩, Shape.opq (hsc.resolve_left c1.2) c1.1 hrest, rfl,
      h.symm⟩
  · rename_i c1
    split at h
    · exact absurd h (by simp)
    · rename_i c2
      split at h
      · rename_i c3
        cases ha : parseAuthority (before '/' (List.drop 2 rest)) with
        | none => simp [ha] at h
        | some host =>
          simp only [ha] at h
          obtain ⟨rfl, hho⟩ := parseAuthority_inv ha
          obtain ⟨hp, rfl⟩ := setPath_inv h
          refine ⟨⟨sc, [], before '/' (List.drop 2 rest),
            (List.drop 2 rest).dropWhile (fun c => c != '/'), false, fq⟩,
            Shape.auth hsc hho hp (dropWhile_head _ _) ?_, rfl, rfl⟩
          intro hs hb
          simp only [Bool.and_eq_true, Bool.or_eq_true, bne_iff_ne, ne_eq, hs,
            not_true_eq_false, Bool.not_eq_true', false_or] at c3
          exact auth_constraint c3.1 c3.2 hb
      · rename_i c3
        split at h
        · rename_i c4
          simp only [Bool.and_eq_true, bne_iff_ne, ne_eq, beq_iff_eq] at c4
          obtain ⟨hp, rfl⟩ := setPath_inv h
          refine ⟨⟨sc, [], [], rest, true, fq⟩,
            Shape.bare (hsc.resolve_left c4.1) hp c4.2 ?_, rfl, rfl⟩
          have hc3 := c3
          simp only [Bool.and_eq_true, Bool.or_eq_true, bne_iff_ne, ne_eq, c4.1,
            not_false_eq_true, true_or, true_and, Bool.not_eq_true] at hc3
          exact hc3
        · rename_i c4
          obtain ⟨hp, rfl⟩ := setPath_inv h
          have hs : sc = [] := by
            by_contra hs
            by_cases hh : rest.head? = some '/'
            · exact c4 (by simp [hs, hh])
            · exact c1 (by simp [hs, hh])
          subst hs
          refine ⟨⟨[], [], [], rest, false, fq⟩, Shape.rel hp ?_ ?_, rfl, rfl⟩
          · intro h2
            simpa [h2] using c3
          · intro hh
            simpa [hh] using c2

/-- What `parse` returns: the URL `*`, or a URL of one of the four shapes with
some query. -/
theorem parse_inv {raw : List Char} {u : URL} (h : parse raw = some u) (hfrag : '#' ∉ raw) :
    u = starURL ∨ ∃ P rq, Shape P ∧ u = { P.toURL with RawQuery := String.mk rq } := by
  unfold parse at h
  split at h
  · exact absurd h (by simp)
  · rename_i hctl
    have hplain := plain_of_any (by simpa using hctl)
    split at h
    · simp only [Option.some.injEq] at h
      exact Or.inl h.symm
    · cases hg : getScheme raw with
      | none => simp [hg] at h
      | some r =>
        obtain ⟨sc0, rest0⟩ := r
        simp only [hg] at h
        right
        have hsub : ∀ c ∈ rest0, c ∈ raw := by
          rcases getScheme_inv hg with ⟨-, rfl⟩ | ⟨-, hraw⟩
          · exact fun _ hc => hc
          · intro c hc
            rw [hraw]
            simp [hc]
        have hsc : sc0.map Char.toLower = [] ∨ SchemeOK (sc0.map Char.toLower) := by
          rcases getScheme_inv hg with ⟨rfl, -⟩ | ⟨hs, -⟩
          · exact Or.inl rfl
          · exact Or.inr (schemeOK_toLower hs)
        obtain ⟨hq, hqsub⟩ := splitQuery_inv rest0
        obtain ⟨P, hP, -, hu⟩ := parseHier_inv hsc (fun c hc =>
          ⟨hplain c (hsub c (hqsub c hc)), fun e => hq (e ▸ hc),
            fun e => hfrag (e ▸ hsub c (hqsub c hc))⟩) h
        exact ⟨P, _, hP, hu⟩

end GoURL

/-! ## The model of `net/url`: trimming the trailing slashes -/

namespace GoURL

theorem trim_append_of_ne (a : List Char) {b : List Char} (hb : trim b ≠ []) :
    trim (a ++ b) = a ++ trim b := by
  induction b using List.reverseRecOn with
  | nil => exact absurd rfl hb
  | append_singleton b x ih =>
    unfold trim at hb ih ⊢
    by_cases hx : (x == '/') = true
    · rw [List.rdropWhile_concat_pos (fun c => c == '/') _ x hx] at hb ⊢
      rw [← List.append_assoc, List.rdropWhile_concat_pos (fun c => c == '/') _ x hx]
      exact ih hb
    · rw [List.rdropWhile_concat_neg (fun c => c == '/') _ x hx]
      rw [← List.append_assoc, List.rdropWhile_concat_neg (fun c => c == '/') _ x hx]

theorem trim_append_of_nil (a : List Char) {b : List Char} (hb : trim b = []) :
    trim (a ++ b) = trim a := by
  induction b using List.reverseRecOn with
  | nil => simp
  | append_singleton b x ih =>
    unfold trim at hb ih ⊢
    by_cases hx : (x == '/') = true
    · rw [List.rdropWhile_concat_pos (fun c => c == '/') _ x hx] at hb
      rw [← List.append_assoc, List.rdropWhile_concat_pos (fun c => c == '/') _ x hx]
      exact ih hb
    · rw [List.rdropWhile_concat_neg (fun c => c == '/') _ x hx] at hb
      simp at hb

theorem trim_concat_ne (a : List Char) {x : Char} (hx : x ≠ '/') : trim (a ++ [x]) = a ++ [x] := by
  unfold trim
  exact List.rdropWhile_concat_neg (fun c => c == '/') _ x (by simpa using hx)

theorem trim_initial (l : List Char) : trim l <+: l :=
  List.rdropWhile_prefix _ _

theorem trim_trim (l : List Char) : trim (trim l) = trim l :=
  List.rdropWhile_idempotent _ _

theorem trim_nil : trim [] = [] := rfl

theorem mem_of_mem_trim {l : List Char} {c : Char} (h : c ∈ trim l) : c ∈ l :=
  (trim_initial l).subset h

theorem head?_trim {l : List Char} (h : trim l ≠ []) : (trim l).head? = l.head? := by
  obtain ⟨t, ht⟩ := trim_initial l
  conv_rhs => rw [← ht]
  cases hl : trim l with
  | nil => exact absurd hl h
  | cons c r => simp

theorem all_trim {l : List Char} {f : Char → Bool} (h : l.all f = true) :
    (trim l).all f = true := by
  simp only [List.all_eq_true] at h ⊢
  exact fun c hc => h c (mem_of_mem_trim hc)

theorem isPrefixOf_of_trim {a l : List Char} (h : a.isPrefixOf (trim l) = true) :
    a.isPrefixOf l = true := by
  rw [List.isPrefixOf_iff_prefix] at h ⊢
  exact h.trans (trim_initial l)

theorem isPrefixOf_trim_false {a l : List Char} (h : a.isPrefixOf l = false) :
    a.isPrefixOf (trim l) = false := by
  by_contra hc
  simp only [Bool.not_eq_false] at hc
  rw [isPrefixOf_of_trim hc] at h
  exact absurd h (by simp)

theorem mem_before_of_initial {sep : Char} {a l : List Char} (h : a <+: l) :
    ∀ c ∈ before sep a, c ∈ before sep l := by
  obtain ⟨t, rfl⟩ := h
  unfold before
  induction a with
  | nil => simp
  | cons x a ih =>
    intro c hc
    by_cases hx : (x != sep) = true
    · simp only [List.takeWhile_cons, hx, if_true, List.mem_cons, List.cons_append] at hc ⊢
      rcases hc with hc | hc
      · exact Or.inl hc
      · exact Or.inr (ih c hc)
    · simp [List.takeWhile_cons, hx] at hc

theorem trim_slashes_prefix {l : List Char} (h : ['/', '/'].isPrefixOf (trim l) = true)
    (h3 : ['/', '/', '/'].isPrefixOf l = true) : ['/', '/', '/'].isPrefixOf (trim l) = true := by
  obtain ⟨t, ht⟩ := trim_initial l
  cases hl : trim l with
  | nil => simp [hl, List.isPrefixOf] at h
  | cons a r =>
    cases r with
    | nil => simp [hl, List.isPrefixOf] at h
    | cons b r =>
      rw [hl] at h ht
      simp only [List.isPrefixOf, Bool.and_eq_true, beq_iff_eq, Bool.and_true] at h
      obtain ⟨rfl, rfl⟩ := h
      cases r with
      | nil =>
        have := trim_trim l
        rw [hl] at this
        exact absurd this (by decide)
      | cons c r =>
        rw [← ht] at h3
        simp only [List.cons_append, List.isPrefixOf, Bool.and_eq_true, beq_iff_eq,
          Bool.and_true, true_and] at h3 ⊢
        exact h3

end GoURL

namespace GoURL

theorem not_mem_before_of_head {p : List Char} (hcol : p.head? ≠ some '/' → ':' ∉ before '/' p) :
    ':' ∉ before '/' p := by
  by_cases hh : p.head? = some '/'
  · cases p with
    | nil => simp at hh
    | cons c p =>
      simp only [List.head?_cons, Option.some.injEq] at hh
      subst hh
      simp [before]
  · exact hcol hh

theorem trim_scheme_colon (sc : List Char) : trim (sc ++ [':']) = sc ++ [':'] :=
  trim_concat_ne sc (by decide)

theorem trim_host {h : List Char} (hh : HostOK h) (hne : h ≠ []) (a : List Char) :
    trim (a ++ h) = a ++ h := by
  obtain ⟨h', x, rfl⟩ : ∃ h' x, h = h' ++ [x] :=
    ⟨h.dropLast, h.getLast hne, (List.dropLast_append_getLast hne).symm⟩
  have hx : x ≠ '/' := fun e => not_mem_of_hostOK hh (by simp [e])
  rw [← List.append_assoc]
  exact trim_concat_ne _ hx

/-- Trimming the trailing slashes of a printed URL without query prints a URL of
one of the four shapes again, with the same host. -/
theorem trim_shape {P : Parts} (h : Shape P) (hfq : P.forceQuery = false) :
    ∃ P', Shape P' ∧ P'.forceQuery = false ∧ P'.print = trim P.print ∧ P'.host = P.host := by
  cases h with
  | @opq sc o fq hsc ho hpl =>
    simp only at hfq
    subst hfq
    have hne := ne_nil_of_isScheme hsc.1
    refine ⟨⟨sc, trim o, [], [], false, false⟩, Shape.opq hsc ?_ ?_, rfl, ?_, rfl⟩
    · by_cases ht : trim o = []
      · simp [ht]
      · rw [head?_trim ht]
        exact ho
    · exact fun c hc => hpl c (mem_of_mem_trim hc)
    · rw [print_opq hne, print_opq hne]
      simp only [queryMark, Bool.false_eq_true, if_false, List.append_nil]
      by_cases ht : trim o = []
      · rw [ht]
        have : sc ++ ':' :: o = (sc ++ [':']) ++ o := by simp
        rw [this, trim_append_of_nil _ ht, trim_scheme_colon]
      · have : sc ++ ':' :: o = (sc ++ [':']) ++ o := by simp
        rw [this, trim_append_of_ne _ ht]
        simp
  | @auth sc h p fq hsc hh hp hhead hemp =>
    simp only at hfq
    subst hfq
    have hhead' : trim p = [] ∨ (trim p).head? = some '/' := by
      by_cases ht : trim p = []
      · exact Or.inl ht
      · right
        rw [head?_trim ht]
        rcases hhead with rfl | hhead
        · exact absurd trim_nil ht
        · exact hhead
    refine ⟨⟨sc, [], h, trim p, false, false⟩,
      Shape.auth hsc hh (all_trim hp) hhead' ?_, rfl, ?_, rfl⟩
    · intro hs hb
      rw [hemp hs hb]
      rfl
    · by_cases hb : h = []
      · subst hb
        by_cases hs : sc = []
        · subst hs
          rw [hemp rfl rfl]
          rfl
        · have hopq : ∀ fq, Parts.print ⟨sc, [], [], [], false, fq⟩ = sc ++ ':' :: [] ++ queryMark fq :=
            fun fq => print_opq hs
          by_cases hpn : p = []
          · subst hpn
            rw [trim_nil, hopq]
            simp only [queryMark, Bool.false_eq_true, if_false, List.append_nil]
            exact (trim_scheme_colon sc).symm
          · rw [print_auth hhead (Or.inr ⟨hs, hpn⟩)]
            simp only [hs, if_false, queryMark, Bool.false_eq_true, List.append_nil,
              List.nil_append]
            by_cases ht : trim p = []
            · rw [ht, hopq]
              simp only [queryMark, Bool.false_eq_true, if_false, List.append_nil]
              have e : sc ++ [':'] ++ ['/', '/'] ++ p = (sc ++ [':']) ++ (['/', '/'] ++ p) := by simp
              have ht' : trim (['/', '/'] ++ p) = [] := by
                rw [trim_append_of_nil _ ht]
                decide
              rw [e, trim_append_of_nil _ ht', trim_scheme_colon]
            · rw [print_auth hhead' (Or.inr ⟨hs, ht⟩)]
              simp only [hs, if_false, queryMark, Bool.false_eq_true, List.append_nil,
                List.nil_append]
              rw [trim_append_of_ne _ ht]
      · rw [print_auth hhead (Or.inl hb), print_auth hhead' (Or.inl hb)]
        simp only [queryMark, Bool.false_eq_true, if_false, List.append_nil]
        have e : ∀ q : List Char, (if sc = [] then [] else sc ++ [':']) ++ '/' :: '/' :: h ++ q =
            (((if sc = [] then [] else sc ++ [':']) ++ ['/', '/']) ++ h) ++ q := by
          intro q
          simp
        rw [e, e]
        by_cases ht : trim p = []
        · rw [ht, trim_append_of_nil _ ht, trim_host hh hb]
          simp
        · rw [trim_append_of_ne _ ht]
  | @bare sc p fq hsc hp hhead hpre =>
    simp only at hfq
    subst hfq
    have hne := ne_nil_of_isScheme hsc.1
    have e : sc ++ ':' :: p = (sc ++ [':']) ++ p := by simp
    by_cases ht : trim p = []
    · refine ⟨⟨sc, [], [], [], false, false⟩, Shape.opq hsc (by simp) (by simp), rfl, ?_, rfl⟩
      rw [print_opq hne, print_omit hne]
      simp only [queryMark, Bool.false_eq_true, if_false, List.append_nil]
      rw [e, trim_append_of_nil _ ht, trim_scheme_colon]
    · refine ⟨⟨sc, [], [], trim p, true, false⟩,
        Shape.bare hsc (all_trim hp) ?_ (isPrefixOf_trim_false hpre), rfl, ?_, rfl⟩
      · rw [head?_trim ht]
        exact hhead
      · rw [print_omit hne, print_omit hne]
        simp only [queryMark, Bool.false_eq_true, if_false, List.append_nil]
        rw [e, trim_append_of_ne _ ht]
        simp
  | @rel p fq hp hpre hcol =>
    simp only at hfq
    subst hfq
    have hcol' := not_mem_before_of_head hcol
    have hcolt : ':' ∉ before '/' (trim p) :=
      fun hm => hcol' (mem_before_of_initial (trim_initial p) _ hm)
    refine ⟨⟨[], [], [], trim p, false, false⟩,
      Shape.rel (all_trim hp) ?_ (fun _ => hcolt), rfl, ?_, rfl⟩
    · intro h2
      exact trim_slashes_prefix h2 (hpre (isPrefixOf_of_trim h2))
    · rw [print_rel hcol', print_rel hcolt]
      simp [queryMark]

end GoURL

/-! ## The model of `net/url`: canonical URLs -/

namespace GoURL

/-- A printed URL is a body of plain characters without `?` and `#`, followed by
the query mark. -/
theorem print_body {P : Parts} (h : Shape P) :
    ∃ b, (∀ c ∈ b, plain c = true ∧ c ≠ '?' ∧ c ≠ '#') ∧
      P.print = b ++ queryMark P.forceQuery := by
  have hscheme : ∀ {sc : List Char}, SchemeOK sc →
      ∀ c ∈ sc ++ [':'], plain c = true ∧ c ≠ '?' ∧ c ≠ '#' := by
    intro sc hsc c hc
    simp only [List.mem_append, List.mem_singleton] at hc
    rcases hc with hc | rfl
    · have := isSchemeChar_spec (plain_of_isScheme hsc.1 c hc)
      exact ⟨this.1, this.2.2.2.1, this.2.2.2.2.1⟩
    · decide
  have hpath : ∀ {p : List Char}, p.all pathSafe = true →
      ∀ c ∈ p, plain c = true ∧ c ≠ '?' ∧ c ≠ '#' := by
    intro p hp c hc
    simp only [List.all_eq_true] at hp
    exact pathSafe_spec (hp c hc)
  cases h with
  | @opq sc o fq hsc ho hpl =>
    refine ⟨(sc ++ [':']) ++ o, ?_, ?_⟩
    · intro c hc
      rcases List.mem_append.mp hc with hc | hc
      · exact hscheme hsc c hc
      · exact hpl c hc
    · rw [print_opq (ne_nil_of_isScheme hsc.1)]
      simp
  | @auth sc h p fq hsc hh hp hhead hemp =>
    have hhost : ∀ c ∈ h, plain c = true ∧ c ≠ '?' ∧ c ≠ '#' := by
      intro c hc
      have := hostSafe_spec (hostSafe_of_hostOK hh c hc)
      exact ⟨this.1, this.2.2.1, this.2.2.2.1⟩
    have hpre : ∀ c ∈ (if sc = [] then [] else sc ++ [':']),
        plain c = true ∧ c ≠ '?' ∧ c ≠ '#' := by
      intro c hc
      by_cases hs : sc = []
      · simp [hs] at hc
      · simp only [hs, if_false] at hc
        exact hscheme (hsc.resolve_left hs) c hc
    by_cases hne : h ≠ [] ∨ (sc ≠ [] ∧ p ≠ [])
    · refine ⟨(if sc = [] then [] else sc ++ [':']) ++ '/' :: '/' :: h ++ p, ?_,
        print_auth hhead hne⟩
      intro c hc
      simp only [List.mem_append, List.mem_cons] at hc
      rcases hc with (hc | rfl | rfl | hc) | hc
      · exact hpre c hc
      · decide
      · decide
      · exact hhost c hc
      · exact hpath hp c hc
    · simp only [not_or, not_and, not_not] at hne
      obtain ⟨rfl, hne⟩ := hne
      by_cases hs : sc = []
      · subst hs
        rw [hemp rfl rfl]
        refine ⟨[], by simp, ?_⟩
        cases fq <;> rfl
      · rw [hne hs]
        refine ⟨sc ++ [':'], hscheme (hsc.resolve_left hs), ?_⟩
        rw [print_opq hs]
  | @bare sc p fq hsc hp hhead hpre =>
    refine ⟨(sc ++ [':']) ++ p, ?_, ?_⟩
    · intro c hc
      rcases List.mem_append.mp hc with hc | hc
      · exact hscheme hsc c hc
      · exact hpath hp c hc
    · rw [print_omit (ne_nil_of_isScheme hsc.1)]
      simp
  | @rel p fq hp hpre hcol =>
    exact ⟨p, hpath hp, print_rel (not_mem_before_of_head hcol)⟩

theorem not_mem_print {P : Parts} (h : Shape P) : '#' ∉ P.print := by
  obtain ⟨b, hb, hp⟩ := print_body h
  rw [hp]
  intro hm
  rcases List.mem_append.mp hm with hm | hm
  · exact (hb _ hm).2.2 rfl
  · cases hq : P.forceQuery <;> simp [hq, queryMark] at hm

theorem trim_print_of_forceQuery {P : Parts} (h : Shape P) (hfq : P.forceQuery = true) :
    trim P.print = P.print := by
  obtain ⟨b, -, hp⟩ := print_body h
  rw [hp, hfq]
  exact trim_concat_ne b (by decide)

/-- Parsing a printed URL of one of the four shapes with `url.Parse`. -/
theorem goParse_print {P : Parts} (h : Shape P) (hstar : P.print ≠ ['*']) :
    goParse (String.mk P.print) = some P.toURL := by
  unfold goParse
  simp only [before_of_not_mem (not_mem_print h), after_of_not_mem (not_mem_print h),
    parse_print h hstar, if_true]

theorem goString_toURL (P : Parts) (rq : List Char) (f rf : String) :
    goString { { P.toURL with RawQuery := String.mk rq, Fragment := f, RawFragment := rf } with
      Fragment := "", RawQuery := "" } = String.mk P.print :=
  rfl

theorem trimRightSlash_mk (l : List Char) : trimRightSlash (String.mk l) = String.mk (trim l) :=
  rfl

/-- The canonical form of a URL string that parses: the printed URL `*`, or a
printed URL of one of the four shapes with its trailing slashes trimmed. -/
theorem goParse_inv {rawURL : String} {u : URL} (h : goParse rawURL = some u) :
    (u.Host = "" ∧ u.ForceQuery = false ∧
      goString { u with Fragment := "", RawQuery := "" } = String.mk ['*']) ∨
    ∃ P, Shape P ∧ u.Host = String.mk P.host ∧ u.ForceQuery = P.forceQuery ∧
      goString { u with Fragment := "", RawQuery := "" } = String.mk P.print := by
  unfold goParse at h
  cases hp : parse (before '#' rawURL.data) with
  | none => simp [hp] at h
  | some url =>
    simp only [hp] at h
    have hu : ∃ f rf, u = { url with Fragment := f, RawFragment := rf } := by
      split at h
      · simp only [Option.some.injEq] at h
        exact ⟨url.Fragment, url.RawFragment, h.symm⟩
      · split at h
        · simp only [Option.some.injEq] at h
          exact ⟨_, _, h.symm⟩
        · exact absurd h (by simp)
    obtain ⟨f, rf, rfl⟩ := hu
    rcases parse_inv hp (not_mem_before _ _) with rfl | ⟨P, rq, hP, rfl⟩
    · exact Or.inl ⟨rfl, rfl, rfl⟩
    · exact Or.inr ⟨P, hP, rfl, rfl, rfl⟩

/-- The canonical form of a printed URL. -/
theorem normalizeURL_print {P : Parts} (h : Shape P) :
    normalizeURL goURL (String.mk P.print) = String.mk (trim P.print) := by
  by_cases hstar : P.print = ['*']
  · rw [hstar]
    decide
  · have hg : goURL.Parse (String.mk P.print) = some P.toURL := goParse_print h hstar
    unfold normalizeURL
    rw [hg]
    exact trimRightSlash_mk _

/-- For a URL string that parses, the canonical form is a printed URL that is
its own canonical form and has the host of the URL. -/
theorem normalizeURL_stable {rawURL : String} {u : URL} (h : goParse rawURL = some u) :
    ∃ P, Shape P ∧ normalizeURL goURL rawURL = String.mk P.print ∧ trim P.print = P.print ∧
      u.Host = String.mk P.host ∧ (u.ForceQuery = false → P.forceQuery = false) := by
  have hn : normalizeURL goURL rawURL =
      trimRightSlash (goString { u with Fragment := "", RawQuery := "" }) := by
    have hg : goURL.Parse rawURL = some u := h
    unfold normalizeURL
    rw [hg]
    rfl
  rcases goParse_inv h with ⟨hh, hf, hs⟩ | ⟨P, hP, hh, hf, hs⟩
  · refine ⟨⟨[], [], [], ['*'], false, false⟩,
      Shape.rel (by decide) (by decide) (by decide), ?_, by decide, hh, fun _ => rfl⟩
    rw [hn, hs]
    decide
  · rw [hs, trimRightSlash_mk] at hn
    cases hq : P.forceQuery with
    | true =>
      rw [trim_print_of_forceQuery hP hq] at hn
      exact ⟨P, hP, hn, trim_print_of_forceQuery hP hq, hh, fun hf' => by
        rw [hf, hq] at hf'
        exact absurd hf' (by simp)⟩
    | false =>
      obtain ⟨P', hP', hq', hp', hh'⟩ := trim_shape hP hq
      refine ⟨P', hP', by rw [hn, hp'], ?_, by rw [hh, hh'], fun _ => hq'⟩
      rw [hp', trim_trim]

end GoURL
/-! ## The full model of `net/url`: what `String` writes -/

namespace NetURL

open GoURL

theorem hexDigit_mem (n : Nat) : hexDigit n ∈ "0123456789ABCDEF".data := by
  unfold hexDigit
  rw [List.getD_eq_getElem?_getD]
  cases h : "0123456789ABCDEF".data[n]? with
  | none => decide
  | some c => exact List.getElem?_mem h

theorem hexDigit_ne (n : Nat) : hexDigit n ≠ '#' ∧ hexDigit n ≠ '?' := by
  have h := hexDigit_mem n
  revert h
  generalize hexDigit n = c
  revert c
  decide

theorem shouldEscape_hash (mode : Encoding) : shouldEscape '#' mode = true := by
  cases mode <;> decide

/-- The modes in which `String` escapes the authority and the path. -/
def Strict (mode : Encoding) : Prop :=
  mode = Encoding.encodePath ∨ mode = Encoding.encodeHost ∨ mode = Encoding.encodeUserPassword

theorem shouldEscape_question {mode : Encoding} (h : Strict mode) :
    shouldEscape '?' mode = true := by
  rcases h with rfl | rfl | rfl <;> decide

theorem mem_escape {c : Char} {s : List Char} {mode : Encoding} (h : c ∈ escape s mode) :
    c = '%' ∨ c = '+' ∨ (∃ n, c = hexDigit n) ∨ (c ∈ s ∧ shouldEscape c mode = false) := by
  unfold escape at h
  obtain ⟨a, ha, hc⟩ := List.mem_flatMap.mp h
  by_cases hs : shouldEscape a mode = true
  · rw [if_pos hs] at hc
    by_cases hq : (a == ' ' && mode == Encoding.encodeQueryComponent) = true
    · rw [if_pos hq] at hc
      simp only [List.mem_singleton] at hc
      exact Or.inr (Or.inl hc)
    · rw [if_neg hq] at hc
      simp only [escapeByte, List.mem_cons, List.mem_singleton, List.not_mem_nil, or_false] at hc
      rcases hc with rfl | rfl | rfl
      · exact Or.inl rfl
      · exact Or.inr (Or.inr (Or.inl ⟨_, rfl⟩))
      · exact Or.inr (Or.inr (Or.inl ⟨_, rfl⟩))
  · rw [if_neg hs] at hc
    simp only [List.mem_singleton] at hc
    subst hc
    exact Or.inr (Or.inr (Or.inr ⟨ha, by simpa using hs⟩))

/-- What `escape` writes for an authority or a path holds neither `#` nor `?`. -/
theorem escape_clean {mode : Encoding} (hm : Strict mode) (s : List Char) :
    ∀ c ∈ escape s mode, c ≠ '#' ∧ c ≠ '?' := by
  intro c hc
  rcases mem_escape hc with rfl | rfl | ⟨n, rfl⟩ | ⟨-, hs⟩
  · decide
  · decide
  · exact hexDigit_ne n
  · constructor
    · rintro rfl
      rw [shouldEscape_hash] at hs
      exact Bool.noConfusion hs
    · rintro rfl
      rw [shouldEscape_question hm] at hs
      exact Bool.noConfusion hs

theorem validEncoded_clean {s : List Char} (h : validEncoded s Encoding.encodePath = true) :
    ∀ c ∈ s, c ≠ '#' ∧ c ≠ '?' := by
  intro c hc
  unfold validEncoded at h
  have hc' := List.all_eq_true.mp h c hc
  constructor
  · rintro rfl
    revert hc'
    decide
  · rintro rfl
    revert hc'
    decide

theorem escapedPath_clean (u : URL) : ∀ c ∈ escapedPath u, c ≠ '#' ∧ c ≠ '?' := by
  intro c hc
  unfold escapedPath at hc
  split at hc
  · rename_i h
    simp only [Bool.and_eq_true] at h
    exact validEncoded_clean h.1.2 c hc
  · split at hc
    · simp only [List.mem_singleton] at hc
      subst hc
      decide
    · exact escape_clean (Or.inl rfl) _ c hc

theorem userString_clean (user : String × Option String) :
    ∀ c ∈ userString user, c ≠ '#' ∧ c ≠ '?' := by
  intro c hc
  unfold userString at hc
  split at hc
  · exact escape_clean (Or.inr (Or.inr rfl)) _ c hc
  · simp only [List.mem_append, List.mem_cons] at hc
    rcases hc with hc | rfl | hc
    · exact escape_clean (Or.inr (Or.inr rfl)) _ c hc
    · decide
    · exact escape_clean (Or.inr (Or.inr rfl)) _ c hc

theorem authorityString_clean (u : URL) : ∀ c ∈ authorityString u, c ≠ '#' ∧ c ≠ '?' := by
  intro c hc
  unfold authorityString at hc
  split at hc
  · split at hc
    · simp at hc
    · simp only [List.mem_append] at hc
      rcases hc with (hc | hc) | hc
      · split at hc
        · simp only [List.mem_cons, List.mem_singleton, List.not_mem_nil, or_false] at hc
          rcases hc with rfl | rfl <;> decide
        · simp at hc
      · split at hc
        · simp at hc
        · simp only [List.mem_append, List.mem_singleton] at hc
          rcases hc with hc | rfl
          · exact userString_clean _ c hc
          · decide
      · split at hc
        · exact escape_clean (Or.inr (Or.inl rfl)) _ c hc
        · simp at hc
  · simp at hc

/-- The characters that `String` writes for a URL without query and fragment:
the scheme, the opaque text, and characters other than `#` and `?`, then `?`
when `ForceQuery` is set. -/
theorem mem_render {u : URL} (hq : u.RawQuery = "") (hf : u.Fragment = "") {c : Char}
    (hc : c ∈ render u) :
    c ∈ u.Scheme.data ∨ c ∈ u.Opaque.data ∨ (c ≠ '#' ∧ c ≠ '?') ∨
      (c = '?' ∧ u.ForceQuery = true) := by
  have hscheme : c ∈ schemeString u → c ∈ u.Scheme.data ∨ (c ≠ '#' ∧ c ≠ '?') := by
    intro h
    unfold schemeString at h
    split at h
    · simp only [List.mem_append, List.mem_singleton] at h
      rcases h with h | rfl
      · exact Or.inl h
      · exact Or.inr (by decide)
    · simp at h
  have hslash : c ∈ slashString u → (c ≠ '#' ∧ c ≠ '?') := by
    intro h
    unfold slashString at h
    split at h
    · simp only [List.mem_singleton] at h
      subst h
      decide
    · simp at h
  have hdot : c ∈ dotString u → (c ≠ '#' ∧ c ≠ '?') := by
    intro h
    unfold dotString at h
    split at h
    · simp only [List.mem_cons, List.mem_singleton, List.not_mem_nil, or_false] at h
      rcases h with rfl | rfl <;> decide
    · simp at h
  unfold render at hc
  simp only [List.mem_append] at hc
  rcases hc with (hc | hc) | hc
  · split at hc
    · simp only [List.mem_append] at hc
      rcases hc with hc | hc
      · rcases hscheme hc with h | h
        · exact Or.inl h
        · exact Or.inr (Or.inr (Or.inl h))
      · exact Or.inr (Or.inl hc)
    · simp only [List.mem_append] at hc
      rcases hc with (((hc | hc) | hc) | hc) | hc
      · rcases hscheme hc with h | h
        · exact Or.inl h
        · exact Or.inr (Or.inr (Or.inl h))
      · exact Or.inr (Or.inr (Or.inl (authorityString_clean u c hc)))
      · exact Or.inr (Or.inr (Or.inl (hslash hc)))
      · exact Or.inr (Or.inr (Or.inl (hdot hc)))
      · exact Or.inr (Or.inr (Or.inl (escapedPath_clean u c hc)))
  · unfold queryString at hc
    rw [hq] at hc
    split at hc
    · rename_i h
      simp only [bne_self_eq_false, Bool.or_false] at h
      have hd : ("" : String).data = [] := rfl
      rw [hd, List.mem_singleton] at hc
      exact Or.inr (Or.inr (Or.inr ⟨hc, h⟩))
    · simp at hc
  · unfold fragmentString at hc
    rw [hf] at hc
    simp at hc

theorem setPath_fields {url u : URL} {p : List Char} (h : setPath url p = some u) :
    u.Scheme = url.Scheme ∧ u.Opaque = url.Opaque ∧ u.ForceQuery = url.ForceQuery := by
  unfold setPath at h
  cases hu : unescape Encoding.encodePath p with
  | none => simp [hu] at h
  | some path =>
    simp only [hu, Option.some.injEq] at h
    subst h
    exact ⟨rfl, rfl, rfl⟩

theorem setFragment_fields {url u : URL} {f : List Char} (h : setFragment url f = some u) :
    u.Scheme = url.Scheme ∧ u.Opaque = url.Opaque ∧ u.ForceQuery = url.ForceQuery := by
  unfold setFragment at h
  cases hu : unescape Encoding.encodeFragment f with
  | none => simp [hu] at h
  | some frag =>
    simp only [hu, Option.some.injEq] at h
    subst h
    exact ⟨rfl, rfl, rfl⟩

theorem parseHier_fields {url u : URL} {scheme rest : List Char}
    (h : parseHier url scheme rest = some u) :
    u.Scheme = url.Scheme ∧ u.ForceQuery = url.ForceQuery ∧
      (u.Opaque = url.Opaque ∨ u.Opaque = String.mk rest) := by
  unfold parseHier at h
  split at h
  · simp only [Option.some.injEq] at h
    subst h
    exact ⟨rfl, rfl, Or.inr rfl⟩
  · split at h
    · exact absurd h (by simp)
    · split at h
      · split at h
        · exact absurd h (by simp)
        · obtain ⟨h1, h2, h3⟩ := setPath_fields h
          exact ⟨h1, h3, Or.inl h2⟩
      · split at h
        · obtain ⟨h1, h2, h3⟩ := setPath_fields h
          exact ⟨h1, h3, Or.inl h2⟩
        · obtain ⟨h1, h2, h3⟩ := setPath_fields h
          exact ⟨h1, h3, Or.inl h2⟩

/-- The scheme and the opaque text of a parsed URL and its `ForceQuery` mark. -/
theorem parse_fields {l : List Char} {u : URL} (h : parse l = some u) :
    (∀ c ∈ u.Scheme.data, isSchemeChar c = true) ∧
    (∀ c ∈ u.Opaque.data, c ∈ l ∧ c ≠ '?') := by
  unfold parse at h
  split at h
  · exact absurd h (by simp)
  · split at h
    · simp only [Option.some.injEq] at h
      subst h
      exact ⟨by simp, by simp⟩
    · split at h
      · exact absurd h (by simp)
      · rename_i scheme rest hs
        obtain ⟨h1, -, h3⟩ := parseHier_fields h
        have hsc : ∀ c ∈ scheme, isSchemeChar c = true := by
          rcases getScheme_inv hs with ⟨rfl, -⟩ | ⟨hsc, -⟩
          · simp
          · exact plain_of_isScheme hsc
        have hrest : ∀ c ∈ rest, c ∈ l := by
          rcases getScheme_inv hs with ⟨-, rfl⟩ | ⟨-, hl⟩
          · exact fun _ hc => hc
          · intro c hc
            rw [hl]
            simp [hc]
        constructor
        · intro c hc
          rw [h1] at hc
          simp only [List.mem_map] at hc
          obtain ⟨a, ha, rfl⟩ := hc
          rw [isSchemeChar_toLower]
          exact hsc a ha
        · intro c hc
          rcases h3 with h3 | h3
          · rw [h3] at hc
            simp at hc
          · rw [h3] at hc
            have := splitQuery_inv rest
            exact ⟨hrest c (this.2 c hc), fun hq => this.1 (hq ▸ hc)⟩

/-- The scheme and the opaque text of a URL that `url.Parse` returns hold
neither `#` nor `?`. -/
theorem netParse_fields {rawURL : String} {u : URL} (h : netParse rawURL = some u) :
    (∀ c ∈ u.Scheme.data, c ≠ '#' ∧ c ≠ '?') ∧ (∀ c ∈ u.Opaque.data, c ≠ '#' ∧ c ≠ '?') := by
  unfold netParse at h
  cases hp : parse (before '#' rawURL.data) with
  | none => simp [hp] at h
  | some url =>
    simp only [hp] at h
    obtain ⟨h1, h2⟩ := parse_fields hp
    have key : u.Scheme = url.Scheme ∧ u.Opaque = url.Opaque := by
      split at h
      · simp only [Option.some.injEq] at h
        subst h
        exact ⟨rfl, rfl⟩
      · exact ⟨(setFragment_fields h).1, (setFragment_fields h).2.1⟩
    rw [key.1, key.2]
    constructor
    · intro c hc
      have := isSchemeChar_spec (h1 c hc)
      exact ⟨this.2.2.2.2.1, this.2.2.2.1⟩
    · intro c hc
      obtain ⟨hm, hq⟩ := h2 c hc
      refine ⟨?_, hq⟩
      rintro rfl
      exact not_mem_before '#' _ hm

/-- The printed form of a parsed URL whose query and fragment are emptied holds
no `#`, and no `?` when the URL carries no `ForceQuery` mark. -/
theorem render_clean {rawURL : String} {u : URL} (h : netParse rawURL = some u) :
    '#' ∉ render { u with Fragment := "", RawQuery := "" } ∧
    (u.ForceQuery = false → '?' ∉ render { u with Fragment := "", RawQuery := "" }) := by
  obtain ⟨h1, h2⟩ := netParse_fields h
  constructor
  · intro hc
    rcases mem_render rfl rfl hc with hc | hc | hc | hc
    · exact (h1 _ hc).1 rfl
    · exact (h2 _ hc).1 rfl
    · exact hc.1 rfl
    · exact absurd hc.1 (by decide)
  · intro hq hc
    rcases mem_render rfl rfl hc with hc | hc | hc | hc
    · exact (h1 _ hc).2 rfl
    · exact (h2 _ hc).2 rfl
    · exact hc.2 rfl
    · have : u.ForceQuery = true := hc.2
      rw [hq] at this
      exact Bool.noConfusion this

end NetURL


/-! ## Canonical URLs: the claims -/

theorem getLast?_trim (l : List Char) : (GoURL.trim l).getLast? ≠ some '/' := by
  intro h
  have hne : GoURL.trim l ≠ [] := by
    intro hn
    rw [hn] at h
    simp at h
  have hl := List.rdropWhile_last_not (fun c => c == '/') l hne
  rw [List.getLast?_eq_getLast _ hne] at h
  simp only [Option.some.injEq] at h
  unfold GoURL.trim at h
  rw [h] at hl
  simp at hl

/-- On the URL strings without percent-escapes, userinfo and IP-literal hosts
that `goURL` parses, `normalizeURL (normalizeURL u) = normalizeURL u`. -/
theorem goURL_normalizeURL_idempotent (rawURL : String) (h : (goURL.Parse rawURL).isSome = true) :
    normalizeURL goURL (normalizeURL goURL rawURL) = normalizeURL goURL rawURL := by
  cases hp : goURL.Parse rawURL with
  | none => simp [hp] at h
  | some u =>
    obtain ⟨P, hP, hn, ht, -, -⟩ := GoURL.normalizeURL_stable hp
    rw [hn, GoURL.normalizeURL_print hP, ht]

set_option maxRecDepth 1000000 in
/-- C5 fails. The URL string `/%2Fa@b@h/ x` parses: its path is `//a@b@h/ x`, and
its raw path is no valid encoding of it because of the space, so `String` writes
the path escaped anew, `//a@b@h/%20x`, which is the canonical form. That string
parses with the authority `a@b@h`, the userinfo `a@b` and the host `h`; `String`
escapes the `@` of the userinfo, and the canonical form of the canonical form is
`//a%40b@h/%20x`. -/
theorem normalizeURL_not_idempotent :
    (netURL.Parse "/%2Fa@b@h/ x").map (fun u => (u.Host, u.Path)) = some ("", "//a@b@h/ x") ∧
    normalizeURL netURL "/%2Fa@b@h/ x" = "//a@b@h/%20x" ∧
    (netURL.Parse "//a@b@h/%20x").map (fun u => (u.User, u.Host, u.Path)) =
      some (some ("a@b", none), "h", "/ x") ∧
    normalizeURL netURL (normalizeURL netURL "/%2Fa@b@h/ x") = "//a%40b@h/%20x" ∧
    normalizeURL netURL (normalizeURL netURL "/%2Fa@b@h/ x") ≠
      normalizeURL netURL "/%2Fa@b@h/ x" := by
  decide

/-- C6, as the code has it. For every `net/url`, `normalizeURL` returns an
unparsable string unchanged, and for a string that parses it returns the printed
URL with `Fragment` and `RawQuery` emptied and all trailing slashes trimmed, which
does not end in `/`. With `net/url` as it is, the canonical form of a string that
parses contains no `#`, and no `?` when the URL has no `ForceQuery` mark. -/
theorem normalizeURL_canonical :
    (∀ (lib : URLLib) (rawURL : String), lib.Parse rawURL = none →
      normalizeURL lib rawURL = rawURL) ∧
    (∀ (lib : URLLib) (rawURL : String) (u : URL), lib.Parse rawURL = some u →
      normalizeURL lib rawURL =
        trimRightSlash (lib.Str { u with Fragment := "", RawQuery := "" }) ∧
      (normalizeURL lib rawURL).data.getLast? ≠ some '/') ∧
    (∀ (rawURL : String) (u : URL), netURL.Parse rawURL = some u →
      '#' ∉ (normalizeURL netURL rawURL).data ∧
      (u.ForceQuery = false → '?' ∉ (normalizeURL netURL rawURL).data)) := by
  refine ⟨?_, ?_, ?_⟩
  · intro lib rawURL h
    simp [normalizeURL, h]
  · intro lib rawURL u h
    have hn : normalizeURL lib rawURL =
        trimRightSlash (lib.Str { u with Fragment := "", RawQuery := "" }) := by
      simp [normalizeURL, h]
    refine ⟨hn, ?_⟩
    rw [hn]
    exact getLast?_trim _
  · intro rawURL u h
    have hn : (normalizeURL netURL rawURL).data =
        GoURL.trim (NetURL.render { u with Fragment := "", RawQuery := "" }) := by
      unfold normalizeURL
      rw [h]
      rfl
    have hsub : ∀ c ∈ GoURL.trim (NetURL.render { u with Fragment := "", RawQuery := "" }),
        c ∈ NetURL.render { u with Fragment := "", RawQuery := "" } :=
      fun c hc => (List.rdropWhile_prefix _ _).subset hc
    obtain ⟨h1, h2⟩ := NetURL.render_clean h
    rw [hn]
    exact ⟨fun hc => h1 (hsub _ hc), fun hq hc => h2 hq (hsub _ hc)⟩

set_option maxRecDepth 1000000 in
/-- Witness for C6: `:` does not parse and comes back unchanged;
`http://example.com/a b/?x=1#f` parses and becomes `http://example.com/a%20b`. -/
theorem normalizeURL_canonical_witness :
    normalizeURL netURL ":" = ":" ∧
    normalizeURL netURL "http://example.com/a b/?x=1#f" = "http://example.com/a%20b" ∧
    (normalizeURL netURL "http://example.com/a b/?x=1#f").data.getLast? ≠ some '/' ∧
    '#' ∉ (normalizeURL netURL "http://example.com/a b/?x=1#f").data ∧
    '?' ∉ (normalizeURL netURL "http://example.com/a b/?x=1#f").data :=
  ⟨normalizeURL_canonical.1 netURL ":" (by decide),
   by decide,
   (normalizeURL_canonical.2.1 netURL "http://example.com/a b/?x=1#f"
      { Scheme := "http", Host := "example.com", Path := "/a b/", RawPath := "/a b/",
        RawQuery := "x=1", Fragment := "f" } (by decide)).2,
   (normalizeURL_canonical.2.2 "http://example.com/a b/?x=1#f"
      { Scheme := "http", Host := "example.com", Path := "/a b/", RawPath := "/a b/",
        RawQuery := "x=1", Fragment := "f" } (by decide)).1,
   (normalizeURL_canonical.2.2 "http://example.com/a b/?x=1#f"
      { Scheme := "http", Host := "example.com", Path := "/a b/", RawPath := "/a b/",
        RawQuery := "x=1", Fragment := "f" } (by decide)).2 (by decide)⟩

set_option maxRecDepth 1000000 in
/-- C6 as stated fails twice. The string `:` does not parse, and `normalizeURL`
returns it as it is instead of failing. The string `http://example.com/?`
parses with the `ForceQuery` mark, which `normalizeURL` does not clear: its
canonical form is the string itself, with the `?` and the slash before it. -/
theorem normalizeURL_counterexample :
    netURL.Parse ":" = none ∧ normalizeURL netURL ":" = ":" ∧
    (netURL.Parse "http://example.com/?").isSome = true ∧
    normalizeURL netURL "http://example.com/?" = "http://example.com/?" ∧
    '?' ∈ (normalizeURL netURL "http://example.com/?").data := by
  decide


/-! ## The semaphore `sem` -/

theorem count_set_phase (l : List Phase) (i : Nat) (a b x : Phase) (h : l[i]? = some a) :
    List.count x (l.set i b) + (if a = x then 1 else 0) =
      List.count x l + (if b = x then 1 else 0) := by
  induction l generalizing i with
  | nil => simp at h
  | cons c l ih =>
    cases i with
    | zero =>
      simp only [List.getElem?_cons_zero, Option.some.injEq] at h
      subst h
      simp only [List.set_cons_zero, List.count_cons, beq_iff_eq]
      omega
    | succ i =>
      simp only [List.getElem?_cons_succ] at h
      have := ih i h
      simp only [List.set_cons_succ, List.count_cons]
      omega

theorem admission_advance (s : Admission) (i : Nat) (ok : Bool) (kids : Nat)
    (h : s.sem = s.pageFetches ∧ s.sem ≤ maxConcurrentRequests) :
    (s.advance i ok kids).sem = (s.advance i ok kids).pageFetches ∧
      (s.advance i ok kids).sem ≤ maxConcurrentRequests := by
  obtain ⟨h1, h2⟩ := h
  unfold Admission.pageFetches at h1 ⊢
  unfold Admission.advance
  cases hc : s.calls[i]? with
  | none => exact ⟨h1, h2⟩
  | some ph =>
    cases ph with
    | started =>
      have := count_set_phase s.calls i Phase.started
        (if ok then Phase.robots else Phase.finished) Phase.fetching hc
      cases ok <;> simp at this <;> simp [this, h1, h2] <;> omega
    | robots =>
      have := count_set_phase s.calls i Phase.robots
        (if ok then Phase.waiting else Phase.finished) Phase.fetching hc
      cases ok <;> simp at this <;> simp [this, h1, h2] <;> omega
    | waiting =>
      have := count_set_phase s.calls i Phase.waiting Phase.fetching Phase.fetching hc
      simp at this
      by_cases hs : s.sem < maxConcurrentRequests
      · simp only [hs, if_true, this]
        omega
      · simp only [hs, if_false]
        exact ⟨h1, h2⟩
    | fetching =>
      have := count_set_phase s.calls i Phase.fetching Phase.finished Phase.fetching hc
      simp at this
      simp only [List.count_append, List.count_replicate]
      simp
      omega
    | finished => exact ⟨h1, h2⟩

/-- The semaphore around `client.Do`: under every schedule of the calls of `crawl`,
the number of page fetches in flight equals the number of slots taken in `sem`
and never exceeds 10. A page fetch starts only after its call took a slot, and
the slot is given back when the fetch is over. -/
theorem page_fetches_bounded (sched : List (Nat × Bool × Nat)) :
    (Admission.run sched Admission.init).sem = (Admission.run sched Admission.init).pageFetches ∧
    (Admission.run sched Admission.init).pageFetches ≤ maxConcurrentRequests := by
  have key : ∀ (sched : List (Nat × Bool × Nat)) (s : Admission),
      (s.sem = s.pageFetches ∧ s.sem ≤ maxConcurrentRequests) →
      ((Admission.run sched s).sem = (Admission.run sched s).pageFetches ∧
        (Admission.run sched s).sem ≤ maxConcurrentRequests) := by
    intro sched
    induction sched with
    | nil => exact fun s h => h
    | cons x sched ih =>
      intro s h
      obtain ⟨i, ok, kids⟩ := x
      exact ih _ (admission_advance s i ok kids h)
  have := key sched Admission.init ⟨by decide, by decide⟩
  exact ⟨this.1, this.1 ▸ this.2⟩

/-- C10 on a page with eleven links: eleven calls of `crawl` have their robots.txt
fetch (`http.Get` in `isAllowedByRobots`) in flight at once, none of them
holding a slot of `sem`, so more than `maxConcurrentRequests` requests are in
flight. -/
theorem robots_fetches_unbounded :
    (Admission.run elevenRobots Admission.init).robotsFetches = 11 ∧
    (Admission.run elevenRobots Admission.init).sem = 0 ∧
    ¬ ((Admission.run elevenRobots Admission.init).robotsFetches +
        (Admission.run elevenRobots Admission.init).pageFetches ≤ maxConcurrentRequests) := by
  decide
/-! ## The unsynchronised append -/

theorem setLinks_append (heap : List Sitemap) (p child : Nat) :
    setLinks heap p ((((heap[p]?).map (fun c => c.Links)).getD []) ++ [child]) =
      appendLink heap p child := by
  induction heap generalizing p with
  | nil => rfl
  | cons c cs ih =>
    cases p with
    | zero => simp [setLinks, appendLink]
    | succ p => simpa [setLinks, appendLink] using ih p

/-- A goroutine of `run` is a goroutine whose read and write of `sitemap.Links`
follow its child call at once. -/
theorem racy_atomic (lib : URLLib) (w : World) (i : Nat) (r : Racy) (h : r.appenders = []) :
    (Racy.store 0 (Racy.load 0 (Racy.call lib w i r))).state = step lib w i r.state ∧
    (Racy.store 0 (Racy.load 0 (Racy.call lib w i r))).appenders = [] := by
  unfold Racy.call step
  cases hg : r.state.goroutines with
  | nil => simp [Racy.load, Racy.store, h]
  | cons g0 gs =>
    simp only [runGoroutine]
    generalize crawl lib w ((g0 :: gs).getD (i % (gs.length + 1)) g0).link 2
      (((g0 :: gs).getD (i % (gs.length + 1)) g0).depth + 1)
      { r.state with goroutines := (g0 :: gs).eraseIdx (i % (gs.length + 1)) } = res
    rcases res with ⟨_ | child, s'⟩
    · simp [Racy.load, Racy.store, h]
    · simp [Racy.load, Racy.store, h, setLinks_append]

set_option maxRecDepth 1000000 in
/-- C9 fails on the example of the specification. The page at
`http://example.com` is fetched with status 200 at depth 0, and its links lead to
`http://example.com/a` and `http://example.com/b`, both allowed by robots.txt and
fetched with status 200. When the two child calls return before an append runs,
the counter of the `WaitGroup` is 0, so `wg.Wait()` returns, and the root has no
child. When both goroutines read `sitemap.Links` before either writes it, the
second write replaces the first: every goroutine has ended, and the root has the
one child `http://example.com/b`. When each goroutine appends right after its
call, the root has both children. -/
theorem children_lost :
    (Racy.crawlFrom netURL exampleWorld "http://example.com" 2 []).1 = some 0 ∧
    kidURLs netURL exampleWorld (normalizeURL netURL "http://example.com") =
      ["http://example.com/a", "http://example.com/b"] ∧
    (∀ c ∈ kidURLs netURL exampleWorld (normalizeURL netURL "http://example.com"),
      isAllowedByRobots exampleWorld (getDomain netURL c) c = true ∧
      (exampleWorld.Do c).map (fun r => r.StatusCode) = some StatusOK) ∧
    ((Racy.crawlFrom netURL exampleWorld "http://example.com" 2
        [Event.call 0, Event.call 0]).2.wg = 0 ∧
      childURLs (Racy.crawlFrom netURL exampleWorld "http://example.com" 2
        [Event.call 0, Event.call 0]).2.state.heap 0 = []) ∧
    ((Racy.crawlFrom netURL exampleWorld "http://example.com" 2
        [Event.call 0, Event.call 0, Event.load 0, Event.load 1, Event.store 0,
          Event.store 0]).2.wg = 0 ∧
      (Racy.crawlFrom netURL exampleWorld "http://example.com" 2
        [Event.call 0, Event.call 0, Event.load 0, Event.load 1, Event.store 0,
          Event.store 0]).2.state.goroutines = [] ∧
      (Racy.crawlFrom netURL exampleWorld "http://example.com" 2
        [Event.call 0, Event.call 0, Event.load 0, Event.load 1, Event.store 0,
          Event.store 0]).2.appenders = [] ∧
      childURLs (Racy.crawlFrom netURL exampleWorld "http://example.com" 2
        [Event.call 0, Event.call 0, Event.load 0, Event.load 1, Event.store 0,
          Event.store 0]).2.state.heap 0 = ["http://example.com/b"]) ∧
    childURLs (Racy.crawlFrom netURL exampleWorld "http://example.com" 2
      [Event.call 0, Event.load 0, Event.store 0, Event.call 0, Event.load 0,
        Event.store 0]).2.state.heap 0 = ["http://example.com/a", "http://example.com/b"] := by
  decide


end WebCrawler
